import Mathlib

/-!
# proxy-wasm-cpp-host: the WASI file system (`src/wasifs.cc`, `include/proxy-wasm/wasifs.h`)

A shallow embedding of `WASIFileSystem` and of the part of `std::filesystem::path`
(POSIX pathname format, no root-name) that it relies on.

* Pathnames are native strings, as `std::filesystem::path` stores them.
* `uint32_t` descriptors are natural numbers, the counter is incremented modulo `2^32`.
* `std::unordered_map` is an association list with unique keys (`find`, `emplace`,
  `erase`, `operator[]`); the code never iterates over a map, so the order of the list
  is not observable.
* `FILE *` is `Option Nat` (`none` is `NULL`), `fopen` is a parameter of `OpenFile`:
  it answers a handle or the `errno` it leaves behind.
* `const FSNode &node` of an `OpenedFile` is the referenced node itself: the trie is
  never modified after the constructor returns.
-/

namespace proxy_wasm

/-! ## `std::filesystem::path`

The pathname grammar, the iteration and `lexically_normal` follow C++17 [fs.path.generic],
[fs.path.itr] and [fs.path.append] for POSIX: there is no root-name, and a run of slashes
is one directory-separator. (libstdc++ computes the same values, except that it leaves a
pathname that consists of two or more slashes and nothing else as it is.) -/

namespace path

/-- The runs of characters between directory separators of a pathname. -/
def splitSep : List Char → List (List Char)
  | [] => [[]]
  | c :: cs =>
    if c = '/' then [] :: splitSep cs
    else
      match splitSep cs with
      | [] => [[c]]
      | w :: ws => (c :: w) :: ws

/-- A filename of the generic pathname format together with the fact whether a
directory-separator (one slash or several) follows it immediately. -/
structure Item where
  name : String
  sep : Bool
deriving DecidableEq, Repr

/-- The filenames among the runs: every non-empty run is a filename, every run but the
last one is followed by a separator. -/
def itemsOf : List (List Char) → List Item
  | [] => []
  | [w] => if w = [] then [] else [⟨String.mk w, false⟩]
  | w :: ws => if w = [] then itemsOf ws else ⟨String.mk w, true⟩ :: itemsOf ws

/-- The generic format of a POSIX pathname: `root-directory(opt) relative-path`,
the relative path being a sequence of filenames separated by directory separators. -/
structure Generic where
  root : Bool
  items : List Item
deriving DecidableEq, Repr

/-- Reading of a native pathname in the generic format. -/
def parse (p : String) : Generic :=
  ⟨p.data.head? = some '/', itemsOf (splitSep p.data)⟩

/-- The text of a sequence of filenames, separators collapsed to one slash. -/
def renderItems : List Item → String
  | [] => ""
  | i :: rest => i.name ++ ((if i.sep then "/" else "") ++ renderItems rest)

/-- The pathname of a generic format value with every directory-separator written as one
preferred separator. -/
def render (g : Generic) : String :=
  (if g.root then "/" else "") ++ renderItems g.items

/-- Member `path::empty()`. -/
def empty (p : String) : Bool := decide (p = "")

/-- Member `path::is_absolute()`: on POSIX a pathname is absolute exactly when it has a
root-directory. -/
def is_absolute (p : String) : Bool := (parse p).root

/-- Member `path::has_filename()`: the pathname is not empty and does not end in a
directory-separator. -/
def has_filename (p : String) : Bool :=
  match p.data.getLast? with
  | some c => decide (c ≠ '/')
  | none => false

/-- The elements visited by `path::begin()` .. `path::end()`: the root-directory if
present, each filename, and an empty element if a trailing non-root directory-separator
is present. -/
def elements (p : String) : List String :=
  let g := parse p
  (if g.root then ["/"] else []) ++ g.items.map Item.name ++
    (match g.items.getLast? with
     | some i => if i.sep then [""] else []
     | none => [])

/-- The `operator/` of two paths: an absolute right operand replaces the left one;
otherwise a separator is added when the left operand has a filename, and the right
operand is appended. -/
def append (a b : String) : String :=
  if is_absolute b then b
  else if has_filename a then a ++ "/" ++ b
  else a ++ b

/-- Normalization step: remove each dot filename and any immediately following
directory-separator. -/
def removeDot (its : List Item) : List Item :=
  its.filter fun i => decide (i.name ≠ ".")

/-- Normalization step: as long as any appear, remove a non-dot-dot filename immediately
followed by a directory-separator and a dot-dot filename, along with any immediately
following directory-separator. -/
def cancelDotDot : List Item → List Item
  | [] => []
  | i :: rest =>
    match cancelDotDot rest with
    | [] => [i]
    | j :: rest' => if i.name ≠ ".." ∧ j.name = ".." then rest' else i :: j :: rest'

/-- Normalization step: if there is a root-directory, remove all dot-dot filenames and
any directory-separators immediately following them. -/
def removeRootDotDot (root : Bool) (its : List Item) : List Item :=
  if root then its.filter fun i => decide (i.name ≠ "..") else its

/-- Normalization step: if the last filename is dot-dot, remove any trailing
directory-separator. -/
def trimLastDotDot : List Item → List Item
  | [] => []
  | [i] => if i.name = ".." then [⟨i.name, false⟩] else [i]
  | i :: rest => i :: trimLastDotDot rest

/-- The filenames of the normal form of a generic format value. -/
def normalItems (g : Generic) : List Item :=
  trimLastDotDot (removeRootDotDot g.root (cancelDotDot (removeDot g.items)))

/-- Member `path::lexically_normal()`: the empty path stays empty; otherwise the
normalization steps are applied to the generic format and a path that became empty is
replaced by a dot. -/
def lexically_normal (p : String) : String :=
  if p = "" then ""
  else
    let g := parse p
    let its := normalItems g
    if g.root = false ∧ its = [] then "." else render ⟨g.root, its⟩

end path

/-! ## `errno` values

The macros of `<cerrno>` are not part of the repository; the values are those of Linux
(`asm-generic/errno-base.h`, `asm-generic/errno.h`). -/

/-- Value of the `<cerrno>` macro of this name on Linux. -/
def E2BIG : Int := 7

/-- Value of the `<cerrno>` macro of this name on Linux. -/
def EACCES : Int := 13

/-- Value of the `<cerrno>` macro of this name on Linux. -/
def EADDRINUSE : Int := 98

/-- Value of the `<cerrno>` macro of this name on Linux. -/
def EADDRNOTAVAIL : Int := 99

/-- Value of the `<cerrno>` macro of this name on Linux. -/
def EAFNOSUPPORT : Int := 97

/-- Value of the `<cerrno>` macro of this name on Linux. -/
def EAGAIN : Int := 11

/-- Value of the `<cerrno>` macro of this name on Linux. -/
def EALREADY : Int := 114

/-- Value of the `<cerrno>` macro of this name on Linux. -/
def EBADF : Int := 9

/-- Value of the `<cerrno>` macro of this name on Linux. -/
def EBADMSG : Int := 74

/-- Value of the `<cerrno>` macro of this name on Linux. -/
def EBUSY : Int := 16

/-- Value of the `<cerrno>` macro of this name on Linux. -/
def ECANCELED : Int := 125

/-- Value of the `<cerrno>` macro of this name on Linux. -/
def ECHILD : Int := 10

/-- Value of the `<cerrno>` macro of this name on Linux. -/
def ECONNABORTED : Int := 103

/-- Value of the `<cerrno>` macro of this name on Linux. -/
def ECONNREFUSED : Int := 111

/-- Value of the `<cerrno>` macro of this name on Linux. -/
def ECONNRESET : Int := 104

/-- Value of the `<cerrno>` macro of this name on Linux. -/
def EDEADLK : Int := 35

/-- Value of the `<cerrno>` macro of this name on Linux. -/
def EDESTADDRREQ : Int := 89

/-- Value of the `<cerrno>` macro of this name on Linux. -/
def EDOM : Int := 33

/-- Value of the `<cerrno>` macro of this name on Linux. -/
def EDQUOT : Int := 122

/-- Value of the `<cerrno>` macro of this name on Linux. -/
def EEXIST : Int := 17

/-- Value of the `<cerrno>` macro of this name on Linux. -/
def EFAULT : Int := 14

/-- Value of the `<cerrno>` macro of this name on Linux. -/
def EFBIG : Int := 27

/-- Value of the `<cerrno>` macro of this name on Linux. -/
def EHOSTUNREACH : Int := 113

/-- Value of the `<cerrno>` macro of this name on Linux. -/
def EIDRM : Int := 43

/-- Value of the `<cerrno>` macro of this name on Linux. -/
def EILSEQ : Int := 84

/-- Value of the `<cerrno>` macro of this name on Linux. -/
def EINPROGRESS : Int := 115

/-- Value of the `<cerrno>` macro of this name on Linux. -/
def EINTR : Int := 4

/-- Value of the `<cerrno>` macro of this name on Linux. -/
def EINVAL : Int := 22

/-- Value of the `<cerrno>` macro of this name on Linux. -/
def EIO : Int := 5

/-- Value of the `<cerrno>` macro of this name on Linux. -/
def EISCONN : Int := 106

/-- Value of the `<cerrno>` macro of this name on Linux. -/
def EISDIR : Int := 21

/-- Value of the `<cerrno>` macro of this name on Linux. -/
def ELOOP : Int := 40

/-- Value of the `<cerrno>` macro of this name on Linux. -/
def EMFILE : Int := 24

/-- Value of the `<cerrno>` macro of this name on Linux. -/
def EMLINK : Int := 31

/-- Value of the `<cerrno>` macro of this name on Linux. -/
def EMSGSIZE : Int := 90

/-- Value of the `<cerrno>` macro of this name on Linux. -/
def EMULTIHOP : Int := 72

/-- Value of the `<cerrno>` macro of this name on Linux. -/
def ENAMETOOLONG : Int := 36

/-- Value of the `<cerrno>` macro of this name on Linux. -/
def ENETDOWN : Int := 100

/-- Value of the `<cerrno>` macro of this name on Linux. -/
def ENETRESET : Int := 102

/-- Value of the `<cerrno>` macro of this name on Linux. -/
def ENETUNREACH : Int := 101

/-- Value of the `<cerrno>` macro of this name on Linux. -/
def ENFILE : Int := 23

/-- Value of the `<cerrno>` macro of this name on Linux. -/
def ENOBUFS : Int := 105

/-- Value of the `<cerrno>` macro of this name on Linux. -/
def ENODEV : Int := 19

/-- Value of the `<cerrno>` macro of this name on Linux. -/
def ENOENT : Int := 2

/-- Value of the `<cerrno>` macro of this name on Linux. -/
def ENOEXEC : Int := 8

/-- Value of the `<cerrno>` macro of this name on Linux. -/
def ENOLCK : Int := 37

/-- Value of the `<cerrno>` macro of this name on Linux. -/
def ENOLINK : Int := 67

/-- Value of the `<cerrno>` macro of this name on Linux. -/
def ENOMEM : Int := 12

/-- Value of the `<cerrno>` macro of this name on Linux. -/
def ENOMSG : Int := 42

/-- Value of the `<cerrno>` macro of this name on Linux. -/
def ENOPROTOOPT : Int := 92

/-- Value of the `<cerrno>` macro of this name on Linux. -/
def ENOSPC : Int := 28

/-- Value of the `<cerrno>` macro of this name on Linux. -/
def ENOSYS : Int := 38

/-- Value of the `<cerrno>` macro of this name on Linux. -/
def ENOTCONN : Int := 107

/-- Value of the `<cerrno>` macro of this name on Linux. -/
def ENOTDIR : Int := 20

/-- Value of the `<cerrno>` macro of this name on Linux. -/
def ENOTEMPTY : Int := 39

/-- Value of the `<cerrno>` macro of this name on Linux. -/
def ENOTRECOVERABLE : Int := 131

/-- Value of the `<cerrno>` macro of this name on Linux. -/
def ENOTSOCK : Int := 88

/-- Value of the `<cerrno>` macro of this name on Linux. -/
def ENOTSUP : Int := 95

/-- Value of the `<cerrno>` macro of this name on Linux. -/
def ENOTTY : Int := 25

/-- Value of the `<cerrno>` macro of this name on Linux. -/
def ENXIO : Int := 6

/-- Value of the `<cerrno>` macro of this name on Linux. -/
def EOVERFLOW : Int := 75

/-- Value of the `<cerrno>` macro of this name on Linux. -/
def EOWNERDEAD : Int := 130

/-- Value of the `<cerrno>` macro of this name on Linux. -/
def EPERM : Int := 1

/-- Value of the `<cerrno>` macro of this name on Linux. -/
def EPIPE : Int := 32

/-- Value of the `<cerrno>` macro of this name on Linux. -/
def EPROTO : Int := 71

/-- Value of the `<cerrno>` macro of this name on Linux. -/
def EPROTONOSUPPORT : Int := 93

/-- Value of the `<cerrno>` macro of this name on Linux. -/
def EPROTOTYPE : Int := 91

/-- Value of the `<cerrno>` macro of this name on Linux. -/
def ERANGE : Int := 34

/-- Value of the `<cerrno>` macro of this name on Linux. -/
def EROFS : Int := 30

/-- Value of the `<cerrno>` macro of this name on Linux. -/
def ESPIPE : Int := 29

/-- Value of the `<cerrno>` macro of this name on Linux. -/
def ESRCH : Int := 3

/-- Value of the `<cerrno>` macro of this name on Linux. -/
def ESTALE : Int := 116

/-- Value of the `<cerrno>` macro of this name on Linux. -/
def ETIMEDOUT : Int := 110

/-- Value of the `<cerrno>` macro of this name on Linux. -/
def ETXTBSY : Int := 26

/-- Value of the `<cerrno>` macro of this name on Linux. -/
def EXDEV : Int := 18

/-- Function `errnoToWASI` (wasifs.cc:128-283), the `switch` read as a chain of tests in
the order of its `case` labels. -/
def errnoToWASI (eno : Int) : Int :=
  if eno = E2BIG then 1
  else if eno = EACCES then 2
  else if eno = EADDRINUSE then 3
  else if eno = EADDRNOTAVAIL then 4
  else if eno = EAFNOSUPPORT then 5
  else if eno = EAGAIN then 6
  else if eno = EALREADY then 7
  else if eno = EBADF then 8
  else if eno = EBADMSG then 9
  else if eno = EBUSY then 10
  else if eno = ECANCELED then 11
  else if eno = ECHILD then 12
  else if eno = ECONNABORTED then 13
  else if eno = ECONNREFUSED then 14
  else if eno = ECONNRESET then 15
  else if eno = EDEADLK then 16
  else if eno = EDESTADDRREQ then 17
  else if eno = EDOM then 18
  else if eno = EDQUOT then 19
  else if eno = EEXIST then 20
  else if eno = EFAULT then 21
  else if eno = EFBIG then 22
  else if eno = EHOSTUNREACH then 23
  else if eno = EIDRM then 24
  else if eno = EILSEQ then 25
  else if eno = EINPROGRESS then 26
  else if eno = EINTR then 27
  else if eno = EINVAL then 28
  else if eno = EIO then 29
  else if eno = EISCONN then 30
  else if eno = EISDIR then 31
  else if eno = ELOOP then 32
  else if eno = EMFILE then 33
  else if eno = EMLINK then 34
  else if eno = EMSGSIZE then 35
  else if eno = EMULTIHOP then 36
  else if eno = ENAMETOOLONG then 37
  else if eno = ENETDOWN then 38
  else if eno = ENETRESET then 39
  else if eno = ENETUNREACH then 40
  else if eno = ENFILE then 41
  else if eno = ENOBUFS then 42
  else if eno = ENODEV then 43
  else if eno = ENOENT then 44
  else if eno = ENOEXEC then 45
  else if eno = ENOLCK then 46
  else if eno = ENOLINK then 47
  else if eno = ENOMEM then 48
  else if eno = ENOMSG then 49
  else if eno = ENOPROTOOPT then 50
  else if eno = ENOSPC then 51
  else if eno = ENOSYS then 52
  else if eno = ENOTCONN then 53
  else if eno = ENOTDIR then 54
  else if eno = ENOTEMPTY then 55
  else if eno = ENOTRECOVERABLE then 56
  else if eno = ENOTSOCK then 57
  else if eno = ENOTSUP then 58
  else if eno = ENOTTY then 59
  else if eno = ENXIO then 60
  else if eno = EOVERFLOW then 61
  else if eno = EOWNERDEAD then 62
  else if eno = EPERM then 63
  else if eno = EPIPE then 64
  else if eno = EPROTO then 65
  else if eno = EPROTONOSUPPORT then 66
  else if eno = EPROTOTYPE then 67
  else if eno = ERANGE then 68
  else if eno = EROFS then 69
  else if eno = ESPIPE then 70
  else if eno = ESRCH then 71
  else if eno = ESTALE then 72
  else if eno = ETIMEDOUT then 73
  else if eno = ETXTBSY then 74
  else if eno = EXDEV then 75
  else 21

/-! ## `std::unordered_map` -/

namespace unordered_map

variable {κ : Type} {α : Type} [DecidableEq κ]

/-- Member `find`: the value stored under a key, if any. -/
def find : List (κ × α) → κ → Option α
  | [], _ => none
  | (k, v) :: rest, key => if k = key then some v else find rest key

/-- Member `emplace`: the pair is inserted only when the key is not present yet. -/
def emplace (m : List (κ × α)) (key : κ) (v : α) : List (κ × α) :=
  match find m key with
  | some _ => m
  | none => m ++ [(key, v)]

/-- Member `erase` by key. -/
def erase (m : List (κ × α)) (key : κ) : List (κ × α) :=
  m.filter fun kv => decide (kv.1 ≠ key)

/-- Replacement of the value stored under a key (assignment through the reference that
`operator[]` returns); the key is inserted when it is not present. -/
def assign : List (κ × α) → κ → α → List (κ × α)
  | [], key, v => [(key, v)]
  | (k, w) :: rest, key, v => if k = key then (k, v) :: rest else (k, w) :: assign rest key v

end unordered_map

/-! ## The data model (wasifs.h) -/

/-- Struct `HostFile`. -/
structure HostFile where
  host_path : String
  vm_path : String
deriving DecidableEq, Repr

/-- Struct `FileSystemConfig`. -/
structure FileSystemConfig where
  host_files : List HostFile
deriving DecidableEq, Repr

/-- Struct `FSNode`: a bound host path (empty when there is none) and the children by
name. -/
inductive FSNode where
  | mk (host_path : String) (entries : List (String × FSNode))

/-- Field `host_path` of an `FSNode`. -/
def FSNode.host_path : FSNode → String
  | .mk h _ => h

/-- Field `entries` of an `FSNode`. -/
def FSNode.entries : FSNode → List (String × FSNode)
  | .mk _ es => es

/-- A default-constructed `FSNode`. -/
def FSNode.default : FSNode := .mk "" []

/-- Struct `OpenedFile`; `file` is `none` for `NULL`. -/
structure OpenedFile where
  vm_path : String
  node : FSNode
  file : Option Nat

/-- Class `WASIFileSystem`: the trie, the open table and the descriptor counter. -/
structure WASIFileSystem where
  root_ : FSNode
  opened_files_ : List (Nat × OpenedFile)
  last_fd_ : Nat

/-! ## The constructor (wasifs.cc:24-49) -/

/-- The loop of lines 37-42: from `node` follow the remaining path entries with
`node->entries[*path_entry]`, which creates the missing children, and bind the host path
on the node reached. The result is `node` after these assignments. -/
def insertPath (host_path : String) : FSNode → List String → FSNode
  | node, [] => .mk host_path node.entries
  | node, e :: rest =>
    .mk node.host_path
      (unordered_map.assign node.entries e
        (insertPath host_path ((unordered_map.find node.entries e).getD FSNode.default) rest))

/-- The path entries the constructor walks for one `HostFile` (lines 28-36): those of
`vm_path`, or of `host_path` when `vm_path` is empty, without the first one when the
path is absolute. -/
def vmSegments (host_file : HostFile) : List String :=
  let vm_path := if host_file.vm_path ≠ "" then host_file.vm_path else host_file.host_path
  if path.is_absolute vm_path then (path.elements vm_path).drop 1 else path.elements vm_path

/-- The body of the loop over `config.host_files` (lines 27-43). -/
def addHostFile (root : FSNode) (host_file : HostFile) : FSNode :=
  insertPath host_file.host_path root (vmSegments host_file)

/-- The trie the constructor builds. -/
def buildRoot (config : FileSystemConfig) : FSNode :=
  config.host_files.foldl addHostFile FSNode.default

/-- Constructor `WASIFileSystem::WASIFileSystem`. -/
def WASIFileSystem.new (config : FileSystemConfig) : WASIFileSystem :=
  let root := buildRoot config
  { root_ := root
    opened_files_ := unordered_map.emplace [] 3 ⟨"/", root, none⟩
    last_fd_ := 3 }

/-! ## The operations (wasifs.cc:51-126) -/

/-- Method `WASIFileSystem::GetOpenedFile`: the status and the entry stored through
`openedOut`. -/
def GetOpenedFile (fs : WASIFileSystem) (fd : Nat) : Int × Option OpenedFile :=
  match unordered_map.find fs.opened_files_ fd with
  | none => (errnoToWASI EBADF, none)
  | some opened => (0, some opened)

/-- The loop of `OpenFile` over the entries of the normalized path (lines 77-99), from
the current `node` and `host_path`: an error status, or the node and the host path with
which the loop is left. -/
def walk : FSNode → String → List String → Except Int (FSNode × String)
  | node, host_path, [] => .ok (node, host_path)
  | node, _, path_entry :: rest =>
    if path_entry = ".." then .error (errnoToWASI EINVAL)
    else
      match unordered_map.find node.entries path_entry with
      | none =>
        if path.empty node.host_path then .error (errnoToWASI ENOENT)
        else .ok (node, (path_entry :: rest).foldl path.append node.host_path)
      | some child => walk child child.host_path rest

/-- What `OpenFile` has computed when it reaches `fopen` (line 101). -/
structure Resolved where
  parent : OpenedFile
  path : String
  node : FSNode
  host_path : String

/-- Lines 63-99 of `OpenFile`: the status returned before `fopen` is reached, or the
values with which line 101 is reached. -/
def resolve (fs : WASIFileSystem) (fd : Nat) (path_str : String) : Except Int Resolved :=
  match unordered_map.find fs.opened_files_ fd with
  | none => .error (errnoToWASI EBADF)
  | some parent =>
    let path := path.lexically_normal path_str
    if proxy_wasm.path.empty path then .error (errnoToWASI EINVAL)
    else
      match walk parent.node "" (proxy_wasm.path.elements path) with
      | .error status => .error status
      | .ok (node, host_path) => .ok ⟨parent, path, node, host_path⟩

/-- The pathname `OpenFile` hands to `fopen`, `none` when it returns before line 101. -/
def fopenArg (fs : WASIFileSystem) (fd : Nat) (path_str : String) : Option String :=
  match resolve fs fd path_str with
  | .error _ => none
  | .ok r => some r.host_path

/-- The result of `OpenFile`: the status, the value stored through `fdOut` (if any) and
the file system afterwards. -/
structure OpenResult where
  status : Int
  fdOut : Option Nat
  fs : WASIFileSystem

/-- Method `WASIFileSystem::OpenFile`. `fopen` answers the handle, or the `errno` of the
failed call. -/
def OpenFile (fopen : String → Except Int Nat) (fs : WASIFileSystem) (fd : Nat)
    (path_str : String) : OpenResult :=
  match resolve fs fd path_str with
  | .error status => ⟨status, none, fs⟩
  | .ok r =>
    match fopen r.host_path with
    | .error errno => ⟨errnoToWASI errno, none, fs⟩
    | .ok file =>
      let new_fd := (fs.last_fd_ + 1) % 2 ^ 32
      ⟨0, some new_fd,
        { fs with
          last_fd_ := new_fd
          opened_files_ :=
            unordered_map.emplace fs.opened_files_ new_fd
              ⟨path.append r.parent.vm_path r.path, r.node, some file⟩ }⟩

/-- Method `WASIFileSystem::CloseFile`: the status and the file system afterwards
(`fclose` acts on the host only). -/
def CloseFile (fs : WASIFileSystem) (fd : Nat) : Int × WASIFileSystem :=
  match unordered_map.find fs.opened_files_ fd with
  | none => (errnoToWASI EBADF, fs)
  | some _ => (0, { fs with opened_files_ := unordered_map.erase fs.opened_files_ fd })


/-! ## Sequences of calls -/

/-- One call of the public interface; an `OpenFile` call comes with the answers of the
host to `fopen` at that moment. -/
inductive Call where
  | get (fd : Nat)
  | open (fopen : String → Except Int Nat) (fd : Nat) (path_str : String)
  | close (fd : Nat)

/-- A file system together with the descriptors that successful `OpenFile` calls have
returned so far, oldest first. -/
structure Trace where
  fs : WASIFileSystem
  returned : List Nat

/-- Effect of one call on a trace. -/
def Trace.step (t : Trace) : Call → Trace
  | .get _ => t
  | .open fopen fd path_str =>
    let r := OpenFile fopen t.fs fd path_str
    ⟨r.fs, if r.status = 0 then t.returned ++ r.fdOut.toList else t.returned⟩
  | .close fd => ⟨(CloseFile t.fs fd).2, t.returned⟩

/-- The trace of a sequence of calls made on a trace. -/
def Trace.run (t : Trace) (calls : List Call) : Trace :=
  calls.foldl Trace.step t

/-- The trace of a sequence of calls on a freshly constructed file system. -/
def runCalls (config : FileSystemConfig) (calls : List Call) : Trace :=
  Trace.run ⟨WASIFileSystem.new config, []⟩ calls

/-- The descriptors returned so far are `4, 5, ...` taken modulo `2^32`, in this order,
and the counter is the last of them (3 when there is none). -/
def Trace.Counted (t : Trace) : Prop :=
  t.fs.last_fd_ = (3 + t.returned.length) % 2 ^ 32 ∧
    t.returned = (List.range t.returned.length).map fun i => (4 + i) % 2 ^ 32

/-! ## Configurations and hosts of the examples -/

/-- The configuration of two mapped files, as in the test `OnlyFiles`. -/
def twoFiles : FileSystemConfig :=
  ⟨[⟨"h/a.txt", "/a/m/a.txt"⟩, ⟨"h/b.txt", "/a/m/b.txt"⟩]⟩

/-- A host on which `fopen` succeeds for one pathname only, and fails with `ENOENT` for
every other one. -/
def hostOnly (p : String) (file : Nat) : String → Except Int Nat :=
  fun q => if q = p then .ok file else .error ENOENT

/-- A host on which `fopen` always succeeds. -/
def hostAny (file : Nat) : String → Except Int Nat :=
  fun _ => .ok file

/-- The host of the repository tests: the four files of `test/test_data/fs` can be
opened, every other `fopen` fails with `ENOENT`. -/
def testHost : String → Except Int Nat :=
  fun p =>
    if p ∈ ["test/test_data/fs/animals/mammals/apes.txt",
        "test/test_data/fs/animals/mammals/bears.txt",
        "test/test_data/fs/animals/birds/cartoons.txt",
        "test/test_data/fs/animals/birds/dinosaurs.txt"] then .ok 1
    else .error ENOENT

/-- The configuration of the test `OverlappingDirs`. -/
def overlappingDirs : FileSystemConfig :=
  ⟨[⟨"test/test_data/fs/animals", "/animals"⟩,
    ⟨"test/test_data/fs/animals/mammals", "/animals/mammals"⟩]⟩

/-- The configuration of the test `OnlyFiles`. -/
def onlyFiles : FileSystemConfig :=
  ⟨[⟨"test/test_data/fs/animals/mammals/apes.txt", "/animals/mammals/apes.txt"⟩,
    ⟨"test/test_data/fs/animals/mammals/bears.txt", "/animals/mammals/bears.txt"⟩]⟩

/-- The configuration of the test `OneDir`. -/
def oneDir : FileSystemConfig :=
  ⟨[⟨"test/test_data/fs/animals", "/animals"⟩]⟩

/-- The configuration of the test `TwoDirs`. -/
def twoDirs : FileSystemConfig :=
  ⟨[⟨"test/test_data/fs/animals/birds", "/animals/birds"⟩,
    ⟨"test/test_data/fs/animals/mammals", "/animals/mammals"⟩]⟩

/-! ## Predicates on pathnames -/

/-- A filename: not empty and without a directory separator. -/
def path.IsName (s : String) : Prop :=
  s ≠ "" ∧ '/' ∉ s.data

/-- Items as they occur in a generic format pathname: every item is a filename, and every
item that has a successor is followed by a separator. -/
def path.WellFormed (its : List path.Item) : Prop :=
  (∀ i ∈ its, path.IsName i.name) ∧ its.Pairwise fun i _ => i.sep = true

/-- Dot-dot filenames occur at the front only. -/
def path.DotDotFirst (its : List path.Item) : Prop :=
  its.Pairwise fun a b => b.name = ".." → a.name = ".."

/-- Items of a normalized pathname without dot-dot: well formed, and no filename is dot
or dot-dot. -/
def path.Plain (its : List path.Item) : Prop :=
  path.WellFormed its ∧ ∀ i ∈ its, i.name ≠ "." ∧ i.name ≠ ".."

/-! ## Positions in the trie -/

/-- The node reached from `node` by descending along the children named by `segs`, if
all of them exist. -/
def descend : FSNode → List String → Option FSNode
  | node, [] => some node
  | node, e :: rest =>
    match unordered_map.find node.entries e with
    | none => none
    | some child => descend child rest

/-- The host path bound at the position `segs` below `node`; empty when there is no node
at this position or when the node is not bound. -/
def boundAt (node : FSNode) (segs : List String) : String :=
  match descend node segs with
  | some n => n.host_path
  | none => ""

/-- A pathname without its first character: an absolute pathname without its leading
slash. -/
def path.dropRoot (p : String) : String :=
  ⟨p.data.drop 1⟩

/-- The elements of a pathname written one after the other with a slash in between. -/
def path.joinElements : List String → String
  | [] => ""
  | [e] => e
  | e :: rest => e ++ "/" ++ path.joinElements rest

/-! ## The table of `errnoToWASI` -/

/-- The `case` labels of the `switch` of `errnoToWASI`, in the order of the source. -/
def errnoTable : List Int :=
  [E2BIG, EACCES, EADDRINUSE, EADDRNOTAVAIL, EAFNOSUPPORT, EAGAIN, EALREADY, EBADF, EBADMSG,
    EBUSY, ECANCELED, ECHILD, ECONNABORTED, ECONNREFUSED, ECONNRESET, EDEADLK, EDESTADDRREQ,
    EDOM, EDQUOT, EEXIST, EFAULT, EFBIG, EHOSTUNREACH, EIDRM, EILSEQ, EINPROGRESS, EINTR,
    EINVAL, EIO, EISCONN, EISDIR, ELOOP, EMFILE, EMLINK, EMSGSIZE, EMULTIHOP, ENAMETOOLONG,
    ENETDOWN, ENETRESET, ENETUNREACH, ENFILE, ENOBUFS, ENODEV, ENOENT, ENOEXEC, ENOLCK,
    ENOLINK, ENOMEM, ENOMSG, ENOPROTOOPT, ENOSPC, ENOSYS, ENOTCONN, ENOTDIR, ENOTEMPTY,
    ENOTRECOVERABLE, ENOTSOCK, ENOTSUP, ENOTTY, ENXIO, EOVERFLOW, EOWNERDEAD, EPERM, EPIPE,
    EPROTO, EPROTONOSUPPORT, EPROTOTYPE, ERANGE, EROFS, ESPIPE, ESRCH, ESTALE, ETIMEDOUT,
    ETXTBSY, EXDEV]

/-- A `switch` over a list of labels read as a chain of tests: the label at position `k`
of the list gives `first + k`, a value that is no label gives 21. -/
def switchOver : List Int → Int → Int → Int
  | [], _, _ => 21
  | label :: rest, first, eno => if eno = label then first else switchOver rest (first + 1) eno

/-! ## Reference definition of the trie (from the words of the specification) -/

/-- Reference definition: the guest path of a mapping is its `vm_path`, or its
`host_path` when `vm_path` is empty. -/
def specGuestPath (e : HostFile) : String :=
  if e.vm_path = "" then e.host_path else e.vm_path

/-- Reference definition: the guest path split into segments, with a single leading root
marker dropped. -/
def specSegments (e : HostFile) : List String :=
  let segs := path.elements (specGuestPath e)
  if segs.head? = some "/" then segs.drop 1 else segs

/-- Reference definition: `s` is a leading part of the guest segment sequence of some
mapping of the list. -/
def specHasNode (L : List HostFile) (s : List String) : Prop :=
  ∃ e ∈ L, ∃ u, specSegments e = s ++ u

/-- Reference definition: the `host_path` of the last mapping of the list whose guest
segment sequence is `s`; empty when there is no such mapping. -/
def specBound (L : List HostFile) (s : List String) : String :=
  match (L.filter fun e => decide (specSegments e = s)).getLast? with
  | some e => e.host_path
  | none => ""

/-- Two tries have the same nodes with the same bound host paths: at every position
either both have a node or none has, and the host paths bound there are equal. -/
def FSNode.SameTrie (a b : FSNode) : Prop :=
  ∀ s, (descend a s).isSome = (descend b s).isSome ∧ boundAt a s = boundAt b s

/-- Entries that can be joined to a host path one after the other without replacing it:
every entry but the last is a filename, and the last one is not absolute (a filename, or
the empty entry of a trailing separator). -/
def path.Joinable : List String → Prop
  | [] => True
  | [s] => path.is_absolute s = false
  | s :: rest => path.IsName s ∧ path.Joinable rest

/-! # Properties -/

/-! ## Maps -/

section maps

variable {κ : Type} {α : Type} [DecidableEq κ]

theorem unordered_map.find_erase_self (m : List (κ × α)) (key : κ) :
    unordered_map.find (unordered_map.erase m key) key = none := by
  induction m with
  | nil => rfl
  | cons kv rest ih =>
    obtain ⟨k, v⟩ := kv
    by_cases h : k = key
    · simpa [unordered_map.erase, List.filter_cons, h] using ih
    · simpa [unordered_map.erase, List.filter_cons, h, unordered_map.find] using ih

theorem unordered_map.find_erase_ne (m : List (κ × α)) (key k2 : κ) (h : k2 ≠ key) :
    unordered_map.find (unordered_map.erase m key) k2 = unordered_map.find m k2 := by
  induction m with
  | nil => rfl
  | cons kv rest ih =>
    obtain ⟨k, v⟩ := kv
    by_cases hk : k = key
    · subst hk
      have : ¬ k = k2 := fun e => h e.symm
      simpa [unordered_map.erase, List.filter_cons, unordered_map.find, this] using ih
    · by_cases hk2 : k = k2
      · subst hk2
        simp [unordered_map.erase, List.filter_cons, unordered_map.find, hk]
      · simpa [unordered_map.erase, List.filter_cons, unordered_map.find, hk, hk2] using ih

theorem unordered_map.find_append_single (m : List (κ × α)) (key k2 : κ) (v : α) :
    unordered_map.find (m ++ [(key, v)]) k2 =
      match unordered_map.find m k2 with
      | some w => some w
      | none => if key = k2 then some v else none := by
  induction m with
  | nil => simp [unordered_map.find]
  | cons kv rest ih =>
    obtain ⟨k, w⟩ := kv
    by_cases hk : k = k2
    · simp [unordered_map.find, hk]
    · simpa [unordered_map.find, hk] using ih

theorem unordered_map.find_emplace (m : List (κ × α)) (key k2 : κ) (v : α) :
    unordered_map.find (unordered_map.emplace m key v) k2 =
      match unordered_map.find m k2 with
      | some w => some w
      | none => if key = k2 then some v else none := by
  unfold unordered_map.emplace
  cases hm : unordered_map.find m key with
  | some w =>
    cases h2 : unordered_map.find m k2 with
    | some w2 => simp
    | none =>
      have : key ≠ k2 := by
        rintro rfl
        rw [hm] at h2
        cases h2
      simp [this]
  | none => simpa using unordered_map.find_append_single m key k2 v

theorem unordered_map.find_assign (m : List (κ × α)) (key k2 : κ) (v : α) :
    unordered_map.find (unordered_map.assign m key v) k2 =
      if key = k2 then some v else unordered_map.find m k2 := by
  induction m with
  | nil => simp [unordered_map.assign, unordered_map.find]
  | cons kv rest ih =>
    obtain ⟨k, w⟩ := kv
    by_cases hk : k = key
    · subst hk
      by_cases h2 : k = k2
      · simp [unordered_map.assign, unordered_map.find, h2]
      · simp [unordered_map.assign, unordered_map.find, h2]
    · by_cases h2 : k = k2
      · subst h2
        have : ¬ key = k := fun e => hk e.symm
        simp [unordered_map.assign, unordered_map.find, hk, this]
      · simp [unordered_map.assign, unordered_map.find, hk, h2, ih]

end maps

/-! ## Status codes -/

theorem errnoToWASI_EBADF : errnoToWASI EBADF = 8 := by decide

theorem errnoToWASI_EINVAL : errnoToWASI EINVAL = 28 := by decide

theorem errnoToWASI_ENOENT : errnoToWASI ENOENT = 44 := by decide

/-! ## The open table -/

theorem OpenFile_of_not_open (fopen : String → Except Int Nat) (fs : WASIFileSystem) (fd : Nat)
    (path_str : String) (h : unordered_map.find fs.opened_files_ fd = none) :
    (OpenFile fopen fs fd path_str).status = 8 := by
  simp [OpenFile, resolve, h, errnoToWASI_EBADF]

theorem resolve_empty_path (fs : WASIFileSystem) (fd : Nat) :
    resolve fs fd "" =
      if (unordered_map.find fs.opened_files_ fd).isSome then .error 28 else .error 8 := by
  unfold resolve
  cases unordered_map.find fs.opened_files_ fd with
  | none => simp [errnoToWASI_EBADF]
  | some parent =>
    have h : path.lexically_normal "" = "" := by decide
    simp [h, path.empty, errnoToWASI_EINVAL]

/-- C3, as stated, fails: on the file system constructed from the empty configuration
descriptor 4 is not open, and `OpenFile(4, "")` returns 8 (BadFileDescriptor), not 28. -/
theorem C3_empty_path_on_closed_descriptor :
    (OpenFile (hostAny 1) (runCalls ⟨[]⟩ []).fs 4 "").status = 8 ∧
      (OpenFile (hostAny 1) (runCalls ⟨[]⟩ []).fs 4 "").status ≠ 28 := by
  decide

/-- C3, amended: in every state and for every host, `OpenFile` with an empty path string
returns InvalidArgument (28) when the base descriptor is open and BadFileDescriptor (8)
when it is not; in both cases `fopen` is not reached, no descriptor is stored and the
file system is unchanged. -/
theorem C3_empty_path (fopen : String → Except Int Nat) (fs : WASIFileSystem) (fd : Nat) :
    (OpenFile fopen fs fd "").status
        = (if (unordered_map.find fs.opened_files_ fd).isSome then 28 else 8) ∧
      (OpenFile fopen fs fd "").fdOut = none ∧
      (OpenFile fopen fs fd "").fs = fs ∧
      fopenArg fs fd "" = none := by
  have h := resolve_empty_path fs fd
  unfold OpenFile fopenArg
  rw [h]
  cases unordered_map.find fs.opened_files_ fd <;> simp

theorem CloseFile_status (fs : WASIFileSystem) (fd : Nat) :
    (CloseFile fs fd).1 = if (unordered_map.find fs.opened_files_ fd).isSome then 0 else 8 := by
  unfold CloseFile
  cases unordered_map.find fs.opened_files_ fd <;> simp [errnoToWASI_EBADF]

theorem GetOpenedFile_status (fs : WASIFileSystem) (fd : Nat) :
    (GetOpenedFile fs fd).1 = if (unordered_map.find fs.opened_files_ fd).isSome then 0 else 8 := by
  unfold GetOpenedFile
  cases unordered_map.find fs.opened_files_ fd <;> simp [errnoToWASI_EBADF]

theorem CloseFile_opened (fs : WASIFileSystem) (fd : Nat) (h : (CloseFile fs fd).1 = 0) :
    (CloseFile fs fd).2.opened_files_ = unordered_map.erase fs.opened_files_ fd := by
  unfold CloseFile at h ⊢
  cases hf : unordered_map.find fs.opened_files_ fd with
  | none => simp [hf, errnoToWASI_EBADF] at h
  | some o => simp

/-- C10: for every state and every descriptor `fd` for which `CloseFile(fd)` returns 0,
`GetOpenedFile(fd)` on the resulting state returns BadFileDescriptor (8) and a second
`CloseFile(fd)` returns BadFileDescriptor (8). -/
theorem C10_close_then_bad_descriptor (fs : WASIFileSystem) (fd : Nat)
    (h : (CloseFile fs fd).1 = 0) :
    (GetOpenedFile (CloseFile fs fd).2 fd).1 = 8 ∧
      (CloseFile (CloseFile fs fd).2 fd).1 = 8 := by
  have hgone : unordered_map.find (CloseFile fs fd).2.opened_files_ fd = none := by
    rw [CloseFile_opened fs fd h]
    exact unordered_map.find_erase_self _ _
  rw [GetOpenedFile_status, CloseFile_status, hgone]
  simp

/-- C10 at a concrete input: the root descriptor 3 of the file system built from the test
configuration `OnlyFiles` is closed successfully, after which it is a bad descriptor. -/
theorem C10_close_then_bad_descriptor_witness :
    (CloseFile (WASIFileSystem.new ⟨[⟨"h/a.txt", "/a/m/a.txt"⟩]⟩) 3).1 = 0 ∧
      (GetOpenedFile (CloseFile (WASIFileSystem.new ⟨[⟨"h/a.txt", "/a/m/a.txt"⟩]⟩) 3).2 3).1 = 8 ∧
      (CloseFile (CloseFile (WASIFileSystem.new ⟨[⟨"h/a.txt", "/a/m/a.txt"⟩]⟩) 3).2 3).1 = 8 :=
  ⟨by decide, C10_close_then_bad_descriptor _ 3 (by decide)⟩

/-! ## Reachable states -/

theorem OpenFile_cases (fopen : String → Except Int Nat) (fs : WASIFileSystem) (fd : Nat)
    (path_str : String) :
    ((OpenFile fopen fs fd path_str).fdOut = none ∧ (OpenFile fopen fs fd path_str).fs = fs) ∨
    ((OpenFile fopen fs fd path_str).status = 0 ∧
      (OpenFile fopen fs fd path_str).fdOut = some ((fs.last_fd_ + 1) % 2 ^ 32) ∧
      (OpenFile fopen fs fd path_str).fs.last_fd_ = (fs.last_fd_ + 1) % 2 ^ 32 ∧
      (OpenFile fopen fs fd path_str).fs.root_ = fs.root_ ∧
      ∃ entry, (OpenFile fopen fs fd path_str).fs.opened_files_ =
        unordered_map.emplace fs.opened_files_ ((fs.last_fd_ + 1) % 2 ^ 32) entry) := by
  unfold OpenFile
  cases resolve fs fd path_str with
  | error status => exact Or.inl ⟨rfl, rfl⟩
  | ok r =>
    cases h2 : fopen r.host_path with
    | error errno =>
      left
      simp [h2]
    | ok file =>
      right
      refine ⟨by simp [h2], by simp [h2], by simp [h2], by simp [h2],
        ⟨path.append r.parent.vm_path r.path, r.node, some file⟩, by simp [h2]⟩

/-- Every open descriptor is 3 or was returned by a successful `OpenFile`. -/
theorem Trace.step_open_returned (t : Trace) (c : Call)
    (h : ∀ k, (unordered_map.find t.fs.opened_files_ k).isSome → k = 3 ∨ k ∈ t.returned) :
    ∀ k, (unordered_map.find (t.step c).fs.opened_files_ k).isSome →
      k = 3 ∨ k ∈ (t.step c).returned := by
  intro k hk
  cases c with
  | get fd => exact h k hk
  | close fd =>
    simp only [Trace.step] at hk ⊢
    by_cases hc : (CloseFile t.fs fd).1 = 0
    · rw [CloseFile_opened _ _ hc] at hk
      by_cases hkf : k = fd
      · subst hkf
        rw [unordered_map.find_erase_self] at hk
        simp at hk
      · rw [unordered_map.find_erase_ne _ _ _ hkf] at hk
        exact h k hk
    · have : (CloseFile t.fs fd).2 = t.fs := by
        unfold CloseFile at hc ⊢
        cases hf : unordered_map.find t.fs.opened_files_ fd with
        | none => rfl
        | some o => simp [hf] at hc
      rw [this] at hk
      exact h k hk
  | «open» fopen fd path_str =>
    simp only [Trace.step] at hk ⊢
    rcases OpenFile_cases fopen t.fs fd path_str with ⟨hnone, hfs⟩ | ⟨hst, hout, -, -, entry, hop⟩
    · rw [hfs] at hk
      rw [hnone]
      rcases h k hk with h3 | hr
      · exact Or.inl h3
      · right
        split <;> simpa using hr
    · rw [hop, unordered_map.find_emplace] at hk
      rw [hst, hout]
      cases hfind : unordered_map.find t.fs.opened_files_ k with
      | some w =>
        rcases h k (by simp [hfind]) with h3 | hr
        · exact Or.inl h3
        · right
          simp [hr]
      | none =>
        rw [hfind] at hk
        by_cases hkn : (t.fs.last_fd_ + 1) % 2 ^ 32 = k
        · right
          subst hkn
          simp
        · rw [if_neg hkn] at hk
          simp at hk

theorem runCalls_open_returned (config : FileSystemConfig) (calls : List Call) :
    ∀ k, (unordered_map.find (runCalls config calls).fs.opened_files_ k).isSome →
      k = 3 ∨ k ∈ (runCalls config calls).returned := by
  unfold runCalls Trace.run
  induction calls using List.reverseRecOn with
  | nil =>
    intro k hk
    left
    simp only [List.foldl_nil, WASIFileSystem.new, unordered_map.emplace, unordered_map.find,
      List.nil_append] at hk
    by_contra hne
    have : ¬ 3 = k := fun e => hne e.symm
    simp [this] at hk
  | append_singleton cs c ih =>
    rw [List.foldl_append]
    exact Trace.step_open_returned _ c ih

/-- C4: in every state reached from construction by a sequence of `OpenFile`, `CloseFile`
and `GetOpenedFile` calls, for every descriptor that is not 3 and was not returned by an
earlier successful `OpenFile`, each of `GetOpenedFile`, `OpenFile` (with any path and
any host) and `CloseFile` returns BadFileDescriptor (8). -/
theorem C4_unknown_descriptor (config : FileSystemConfig) (calls : List Call) (fd : Nat)
    (h3 : fd ≠ 3) (hnew : fd ∉ (runCalls config calls).returned) :
    (GetOpenedFile (runCalls config calls).fs fd).1 = 8 ∧
      (∀ fopen path_str, (OpenFile fopen (runCalls config calls).fs fd path_str).status = 8) ∧
      (CloseFile (runCalls config calls).fs fd).1 = 8 := by
  have hnone : unordered_map.find (runCalls config calls).fs.opened_files_ fd = none := by
    cases hf : unordered_map.find (runCalls config calls).fs.opened_files_ fd with
    | none => rfl
    | some o =>
      rcases runCalls_open_returned config calls fd (by simp [hf]) with h | h
      · exact absurd h h3
      · exact absurd h hnew
  refine ⟨?_, ?_, ?_⟩
  · rw [GetOpenedFile_status, hnone]; simp
  · intro fopen path_str
    exact OpenFile_of_not_open fopen _ fd path_str hnone
  · rw [CloseFile_status, hnone]; simp

/-- C4 at a concrete input: after a successful open (which returns 4), a close of 4 and
a lookup, descriptor 5 has never been returned and is a bad descriptor. -/
theorem C4_unknown_descriptor_witness :
    (5 ≠ 3 ∧
      5 ∉ (runCalls ⟨[⟨"h/a.txt", "/a/m/a.txt"⟩]⟩
        [.open (hostAny 1) 3 "a/m/a.txt", .close 4, .get 3]).returned) ∧
    ((GetOpenedFile (runCalls ⟨[⟨"h/a.txt", "/a/m/a.txt"⟩]⟩
        [.open (hostAny 1) 3 "a/m/a.txt", .close 4, .get 3]).fs 5).1 = 8 ∧
      (∀ fopen path_str, (OpenFile fopen (runCalls ⟨[⟨"h/a.txt", "/a/m/a.txt"⟩]⟩
        [.open (hostAny 1) 3 "a/m/a.txt", .close 4, .get 3]).fs 5 path_str).status = 8) ∧
      (CloseFile (runCalls ⟨[⟨"h/a.txt", "/a/m/a.txt"⟩]⟩
        [.open (hostAny 1) 3 "a/m/a.txt", .close 4, .get 3]).fs 5).1 = 8) :=
  ⟨⟨by decide, by decide⟩, C4_unknown_descriptor _ _ 5 (by decide) (by decide)⟩

/-! ## Absolute guest paths -/

/-- C1, failing inputs. (1) With the configuration that binds the guest root to the host
directory `sandbox`, `OpenFile(3, "/etc/passwd")` hands `/etc/passwd` to `fopen`: the
first entry of the path is the root-directory `/`, no child has that name, the root is
bound, and `host_path / "/"` replaces the bound host path; `sandbox` is not a leading
part of the result. (2) With the test configuration `OneDir` (`h` bound to `/animals`),
a first `OpenFile(3, "animals/x")` returns descriptor 4 positioned at the node of
`animals`, and `OpenFile(4, "/etc/passwd")` hands `/etc/passwd` to `fopen`, although `h`
is the only bound host path of the trie. -/
theorem C1_absolute_path_escapes :
    (fopenArg (WASIFileSystem.new ⟨[⟨"sandbox", "/"⟩]⟩) 3 "/etc/passwd" = some "/etc/passwd" ∧
      List.isPrefixOf "sandbox".data "/etc/passwd".data = false) ∧
    ((OpenFile (hostAny 1) (WASIFileSystem.new ⟨[⟨"h", "/animals"⟩]⟩) 3 "animals/x").fdOut
        = some 4 ∧
      fopenArg (OpenFile (hostAny 1) (WASIFileSystem.new ⟨[⟨"h", "/animals"⟩]⟩) 3
        "animals/x").fs 4 "/etc/passwd" = some "/etc/passwd" ∧
      List.isPrefixOf "h".data "/etc/passwd".data = false) := by
  decide

/-- C5, as stated, fails: with the two mappings and a host on which `h/a.txt` opens,
`OpenFile(3, "/a/m/a.txt")` returns 44 (NoSuchEntry) and stores no descriptor: the first
entry of the path is the root-directory `/`, which is no child of the unbound root. -/
theorem C5_leading_slash_no_such_entry :
    (OpenFile (hostOnly "h/a.txt" 1) (WASIFileSystem.new twoFiles) 3 "/a/m/a.txt").status = 44 ∧
      (OpenFile (hostOnly "h/a.txt" 1) (WASIFileSystem.new twoFiles) 3 "/a/m/a.txt").fdOut
        = none := by
  decide

/-- C5, amended: with the two mappings and a host on which opening `h/a.txt` succeeds,
`OpenFile(3, "a/m/a.txt")` (the guest path written relative to descriptor 3, without a
leading `/`) hands `h/a.txt` to `fopen` and returns 0 with the new descriptor 4, which is
not 3 and whose entry has guest path `/a/m/a.txt`, the handle of the host, and a node
bound to `h/a.txt`; written with its leading `/` the path gives NoSuchEntry (44). -/
theorem C5_relative_open (fopen : String → Except Int Nat) (file : Nat)
    (hopen : fopen "h/a.txt" = .ok file) :
    fopenArg (WASIFileSystem.new twoFiles) 3 "a/m/a.txt" = some "h/a.txt" ∧
    (OpenFile fopen (WASIFileSystem.new twoFiles) 3 "a/m/a.txt").status = 0 ∧
    (∃ fd, (OpenFile fopen (WASIFileSystem.new twoFiles) 3 "a/m/a.txt").fdOut = some fd ∧
      fd ≠ 3 ∧
      ∃ opened,
        GetOpenedFile (OpenFile fopen (WASIFileSystem.new twoFiles) 3 "a/m/a.txt").fs fd
          = (0, some opened) ∧
        opened.vm_path = "/a/m/a.txt" ∧ opened.file = some file ∧
        opened.node.host_path = "h/a.txt") ∧
    (OpenFile fopen (WASIFileSystem.new twoFiles) 3 "/a/m/a.txt").status = 44 := by
  have hres : resolve (WASIFileSystem.new twoFiles) 3 "a/m/a.txt"
      = .ok ⟨⟨"/", buildRoot twoFiles, none⟩, "a/m/a.txt", .mk "h/a.txt" [], "h/a.txt"⟩ := by
    rfl
  have hres2 : resolve (WASIFileSystem.new twoFiles) 3 "/a/m/a.txt" = .error 44 := by
    rfl
  refine ⟨by decide, ?_, ⟨4, ?_, by decide, ⟨"/a/m/a.txt", .mk "h/a.txt" [], some file⟩, ?_,
    rfl, rfl, rfl⟩, ?_⟩
  · simp [OpenFile, hres, hopen]
  · simp [OpenFile, hres, hopen]
    rfl
  · simp only [OpenFile, hres, hopen]
    rfl
  · simp [OpenFile, hres2]

/-- C5 (amended) at a concrete host, on which only `h/a.txt` can be opened. -/
theorem C5_relative_open_witness :
    hostOnly "h/a.txt" 1 "h/a.txt" = .ok 1 ∧
    (fopenArg (WASIFileSystem.new twoFiles) 3 "a/m/a.txt" = some "h/a.txt" ∧
    (OpenFile (hostOnly "h/a.txt" 1) (WASIFileSystem.new twoFiles) 3 "a/m/a.txt").status = 0 ∧
    (∃ fd,
      (OpenFile (hostOnly "h/a.txt" 1) (WASIFileSystem.new twoFiles) 3 "a/m/a.txt").fdOut
        = some fd ∧
      fd ≠ 3 ∧
      ∃ opened,
        GetOpenedFile
            (OpenFile (hostOnly "h/a.txt" 1) (WASIFileSystem.new twoFiles) 3 "a/m/a.txt").fs fd
          = (0, some opened) ∧
        opened.vm_path = "/a/m/a.txt" ∧ opened.file = some 1 ∧
        opened.node.host_path = "h/a.txt") ∧
    (OpenFile (hostOnly "h/a.txt" 1) (WASIFileSystem.new twoFiles) 3 "/a/m/a.txt").status
      = 44) :=
  ⟨rfl, C5_relative_open (hostOnly "h/a.txt" 1) 1 rfl⟩

/-! ## Descriptor allocation -/

theorem Trace.step_counted (t : Trace) (c : Call) (h : t.Counted) : (t.step c).Counted := by
  cases c with
  | get fd => exact h
  | close fd =>
    obtain ⟨h1, h2⟩ := h
    have hl : (CloseFile t.fs fd).2.last_fd_ = t.fs.last_fd_ := by
      unfold CloseFile
      cases unordered_map.find t.fs.opened_files_ fd <;> rfl
    exact ⟨by simpa [Trace.step, hl] using h1, by simpa [Trace.step] using h2⟩
  | «open» fopen fd path_str =>
    obtain ⟨h1, h2⟩ := h
    rcases OpenFile_cases fopen t.fs fd path_str with ⟨hnone, hfs⟩ | ⟨hst, hout, hlast, -, -⟩
    · have hr : (t.step (.open fopen fd path_str)).returned = t.returned := by
        simp only [Trace.step, hnone]
        split <;> simp
      have hf : (t.step (.open fopen fd path_str)).fs = t.fs := by
        simp only [Trace.step, hfs]
      unfold Trace.Counted
      rw [hr, hf]
      exact ⟨h1, h2⟩
    · have hr : (t.step (.open fopen fd path_str)).returned
          = t.returned ++ [(t.fs.last_fd_ + 1) % 2 ^ 32] := by
        simp only [Trace.step, hst, hout]
        simp
      have hf : (t.step (.open fopen fd path_str)).fs.last_fd_
          = (t.fs.last_fd_ + 1) % 2 ^ 32 := by
        simp only [Trace.step, hlast]
      have hnew : (t.fs.last_fd_ + 1) % 2 ^ 32 = (4 + t.returned.length) % 2 ^ 32 := by
        rw [h1]
        omega
      unfold Trace.Counted
      rw [hr, hf, hnew]
      constructor
      · simp only [List.length_append, List.length_singleton]
        omega
      · simp only [List.length_append, List.length_singleton, List.range_succ, List.map_append,
          List.map_cons, List.map_nil]
        rw [← h2]

theorem runCalls_counted (config : FileSystemConfig) (calls : List Call) :
    (runCalls config calls).Counted := by
  unfold runCalls Trace.run
  induction calls using List.reverseRecOn with
  | nil => exact ⟨rfl, rfl⟩
  | append_singleton cs c ih =>
    rw [List.foldl_append]
    exact Trace.step_counted _ c ih

theorem Trace.run_open_root (fopen : String → Except Int Nat) (path_str : String)
    (entry : OpenedFile)
    (hok : ∀ fs : WASIFileSystem, unordered_map.find fs.opened_files_ 3 = some entry →
      (OpenFile fopen fs 3 path_str).status = 0 ∧ (OpenFile fopen fs 3 path_str).fdOut ≠ none)
    (n : Nat) (t : Trace) (h3 : unordered_map.find t.fs.opened_files_ 3 = some entry) :
    (t.run (List.replicate n (.open fopen 3 path_str))).returned.length
      = t.returned.length + n := by
  induction n generalizing t with
  | zero => rfl
  | succ n ih =>
    obtain ⟨hst, hsome⟩ := hok t.fs h3
    rcases OpenFile_cases fopen t.fs 3 path_str with ⟨hnone, -⟩ | ⟨-, hout, -, -, e, hop⟩
    · exact absurd hnone hsome
    · have h3next : unordered_map.find (t.step (.open fopen 3 path_str)).fs.opened_files_ 3
          = some entry := by
        simp only [Trace.step, hop, unordered_map.find_emplace, h3]
      have hlen : (t.step (.open fopen 3 path_str)).returned.length
          = t.returned.length + 1 := by
        simp only [Trace.step, hst, hout]
        simp
      have := ih (t.step (.open fopen 3 path_str)) h3next
      rw [List.replicate_succ]
      unfold Trace.run at this ⊢
      rw [List.foldl_cons, this, hlen]
      omega

theorem getElem?_counted (n i : Nat) (h : i < n) :
    ((List.range n).map fun i => (4 + i) % 2 ^ 32)[i]? = some ((4 + i) % 2 ^ 32) := by
  rw [List.getElem?_map, List.getElem?_range h]
  rfl

theorem runCalls_open_f (n : Nat) :
    (runCalls ⟨[⟨"h", "/f"⟩]⟩ (List.replicate n (.open (hostAny 1) 3 "f"))).returned
      = (List.range n).map fun i => (4 + i) % 2 ^ 32 := by
  have hlen : (runCalls ⟨[⟨"h", "/f"⟩]⟩
      (List.replicate n (.open (hostAny 1) 3 "f"))).returned.length = n := by
    have := Trace.run_open_root (hostAny 1) "f" ⟨"/", buildRoot ⟨[⟨"h", "/f"⟩]⟩, none⟩
      (by
        intro fs hfs
        have hres : resolve fs 3 "f"
            = .ok ⟨⟨"/", buildRoot ⟨[⟨"h", "/f"⟩]⟩, none⟩, "f", .mk "h" [], "h"⟩ := by
          unfold resolve
          rw [hfs]
          rfl
        simp [OpenFile, hres, hostAny])
      n ⟨WASIFileSystem.new ⟨[⟨"h", "/f"⟩]⟩, []⟩ rfl
    simpa [runCalls] using this
  have hc := (runCalls_counted ⟨[⟨"h", "/f"⟩]⟩
    (List.replicate n (.open (hostAny 1) 3 "f"))).2
  rw [hlen] at hc
  exact hc

/-- C9, as stated, fails for long sequences: on the file system that maps `h` to `/f`,
`2^32 - 3` successful calls `OpenFile(3, "f")` in a row return `4, 5, ..., 4294967295`
and then, the `uint32_t` counter having wrapped around, `0`, which is smaller than the
descriptor returned just before. -/
theorem C9_counter_wraps :
    (runCalls ⟨[⟨"h", "/f"⟩]⟩
        (List.replicate (2 ^ 32 - 3) (.open (hostAny 1) 3 "f"))).returned[2 ^ 32 - 5]?
      = some 4294967295 ∧
    (runCalls ⟨[⟨"h", "/f"⟩]⟩
        (List.replicate (2 ^ 32 - 3) (.open (hostAny 1) 3 "f"))).returned[2 ^ 32 - 4]?
      = some 0 := by
  rw [runCalls_open_f]
  exact ⟨getElem?_counted _ _ (by norm_num), getElem?_counted _ _ (by norm_num)⟩

/-- C9, amended: in every sequence of calls on one instance (failed opens, closes and
lookups included) the successful `OpenFile` calls return `4, 5, 6, ...` in this order,
the k-th of them `(3 + k) mod 2^32`; so as long as at most `2^32 - 4` opens have
succeeded, the descriptors returned are strictly increasing, never repeat, and are all
greater than 3. -/
theorem C9_descriptors_increase (config : FileSystemConfig) (calls : List Call) :
    (runCalls config calls).returned
        = ((List.range (runCalls config calls).returned.length).map
            fun i => (4 + i) % 2 ^ 32) ∧
      ((runCalls config calls).returned.length ≤ 2 ^ 32 - 4 →
        (runCalls config calls).returned.Pairwise (· < ·) ∧
        (runCalls config calls).returned.Nodup ∧
        ∀ fd ∈ (runCalls config calls).returned, 3 < fd) := by
  have hc := (runCalls_counted config calls).2
  refine ⟨hc, fun hlen => ?_⟩
  generalize (runCalls config calls).returned = l at hc hlen
  generalize hn : l.length = n at hc hlen
  have hpw : l.Pairwise (· < ·) := by
    rw [hc, List.pairwise_map]
    refine (List.pairwise_lt_range n).imp_of_mem ?_
    intro a b ha hb hab
    have ha := List.mem_range.mp ha
    have hb := List.mem_range.mp hb
    show (4 + a) % 2 ^ 32 < (4 + b) % 2 ^ 32
    omega
  refine ⟨hpw, hpw.imp (fun h => Nat.ne_of_lt h), ?_⟩
  intro fd hfd
  rw [hc] at hfd
  obtain ⟨i, hi, rfl⟩ := List.mem_map.mp hfd
  have hi := List.mem_range.mp hi
  omega

/-- C9 (amended) at a concrete sequence: two successful opens around a failed open, a
close and a lookup return 4 and then 5. -/
theorem C9_descriptors_increase_witness :
    (runCalls twoFiles [.open (hostAny 1) 3 "a/m/a.txt", .open (hostAny 1) 3 "a/m/c.txt",
        .close 4, .get 4, .open (hostAny 1) 3 "a/m/b.txt"]).returned = [4, 5] ∧
    ((runCalls twoFiles [.open (hostAny 1) 3 "a/m/a.txt", .open (hostAny 1) 3 "a/m/c.txt",
        .close 4, .get 4, .open (hostAny 1) 3 "a/m/b.txt"]).returned.length ≤ 2 ^ 32 - 4 ∧
      (runCalls twoFiles [.open (hostAny 1) 3 "a/m/a.txt", .open (hostAny 1) 3 "a/m/c.txt",
        .close 4, .get 4, .open (hostAny 1) 3 "a/m/b.txt"]).returned.Pairwise (· < ·)) :=
  ⟨by decide, by decide,
    ((C9_descriptors_increase twoFiles [.open (hostAny 1) 3 "a/m/a.txt",
      .open (hostAny 1) 3 "a/m/c.txt", .close 4, .get 4,
      .open (hostAny 1) 3 "a/m/b.txt"]).2 (by decide)).1⟩

/-! ## Pathnames: reading and writing the generic format -/

namespace path

theorem splitSep_ne_nil (l : List Char) : splitSep l ≠ [] := by
  cases l with
  | nil => simp [splitSep]
  | cons c cs =>
    unfold splitSep
    split
    · simp
    · split <;> simp

theorem splitSep_name_append (a b : List Char) (ha : '/' ∉ a) :
    splitSep (a ++ '/' :: b) = a :: splitSep b := by
  induction a with
  | nil => simp [splitSep]
  | cons c a ih =>
    have hc : c ≠ '/' := fun e => ha (by simp [e])
    have ha2 : '/' ∉ a := fun e => ha (by simp [e])
    simp [splitSep, hc, ih ha2]

theorem splitSep_name (a : List Char) (ha : '/' ∉ a) : splitSep a = [a] := by
  induction a with
  | nil => simp [splitSep]
  | cons c a ih =>
    have hc : c ≠ '/' := fun e => ha (by simp [e])
    have ha2 : '/' ∉ a := fun e => ha (by simp [e])
    simp [splitSep, hc, ih ha2]

theorem splitSep_no_sep (l : List Char) : ∀ w ∈ splitSep l, '/' ∉ w := by
  induction l with
  | nil => simp [splitSep]
  | cons c cs ih =>
    unfold splitSep
    split
    · intro w hw
      rcases List.mem_cons.mp hw with rfl | hw
      · simp
      · exact ih w hw
    · rename_i hc
      split
      · intro w hw
        simp only [List.mem_singleton] at hw
        subst hw
        simpa using fun e => hc e.symm
      · rename_i w0 ws hsplit
        intro w hw
        rw [hsplit] at ih
        rcases List.mem_cons.mp hw with rfl | hw
        · have := ih w0 (by simp)
          simp only [List.mem_cons, not_or]
          exact ⟨fun e => hc e.symm, this⟩
        · exact ih w (by simp [hw])

theorem itemsOf_cons_cons (w w2 : List Char) (ws : List (List Char)) :
    itemsOf (w :: w2 :: ws) =
      if w = [] then itemsOf (w2 :: ws) else ⟨String.mk w, true⟩ :: itemsOf (w2 :: ws) := by
  simp [itemsOf]

theorem itemsOf_cons_of_ne_nil (w : List Char) (ws : List (List Char)) (h : ws ≠ []) :
    itemsOf (w :: ws) = if w = [] then itemsOf ws else ⟨String.mk w, true⟩ :: itemsOf ws := by
  cases ws with
  | nil => exact absurd rfl h
  | cons w2 ws => exact itemsOf_cons_cons w w2 ws

theorem itemsOf_wellFormed (ws : List (List Char)) (h : ∀ w ∈ ws, '/' ∉ w) :
    WellFormed (itemsOf ws) := by
  induction ws with
  | nil => exact ⟨by simp [itemsOf], by simp [itemsOf]⟩
  | cons w ws ih =>
    have ih := ih fun x hx => h x (by simp [hx])
    have hw : '/' ∉ w := h w (by simp)
    cases ws with
    | nil =>
      by_cases hnil : w = []
      · simp [itemsOf, hnil, WellFormed]
      · simp only [itemsOf, hnil, if_false, WellFormed, List.mem_singleton, forall_eq,
          List.pairwise_cons, List.Pairwise.nil, and_true]
        refine ⟨⟨?_, hw⟩, ?_⟩
        · intro e
          exact hnil (congrArg String.data e)
        · simp
    | cons w2 ws =>
      rw [itemsOf_cons_cons]
      by_cases hnil : w = []
      · simpa [hnil] using ih
      · rw [if_neg hnil]
        refine ⟨?_, ?_⟩
        · intro i hi
          rcases List.mem_cons.mp hi with rfl | hi
          · exact ⟨fun e => hnil (congrArg String.data e), hw⟩
          · exact ih.1 i hi
        · exact List.pairwise_cons.mpr ⟨fun _ _ => rfl, ih.2⟩

theorem parse_wellFormed (p : String) : WellFormed (parse p).items :=
  itemsOf_wellFormed _ (splitSep_no_sep _)

theorem renderItems_data_cons (i : Item) (rest : List Item) :
    (renderItems (i :: rest)).data =
      i.name.data ++ ((if i.sep then ['/'] else []) ++ (renderItems rest).data) := by
  cases hs : i.sep <;> simp [renderItems, hs]

theorem IsName.data_ne_nil {s : String} (h : IsName s) : s.data ≠ [] := by
  intro e
  apply h.1
  cases s
  simp_all

theorem itemsOf_renderItems (its : List Item) (h : WellFormed its) :
    itemsOf (splitSep (renderItems its).data) = its := by
  induction its with
  | nil => simp [renderItems, splitSep, itemsOf]
  | cons i rest ih =>
    have hname : IsName i.name := h.1 i (by simp)
    have hrest : WellFormed rest :=
      ⟨fun x hx => h.1 x (by simp [hx]), (List.pairwise_cons.mp h.2).2⟩
    have ih := ih hrest
    rw [renderItems_data_cons]
    cases rest with
    | nil =>
      obtain ⟨name, sep⟩ := i
      cases sep
      · have he : (renderItems []).data = [] := rfl
        simp only [he, List.append_nil, Bool.false_eq_true, if_false, List.nil_append]
        rw [splitSep_name _ hname.2]
        simp [itemsOf, hname.data_ne_nil]
      · have he : (renderItems []).data = [] := rfl
        simp only [he, List.append_nil, if_true]
        rw [show name.data ++ ['/'] = name.data ++ '/' :: [] from rfl,
          splitSep_name_append _ _ hname.2]
        simp [splitSep, itemsOf, hname.data_ne_nil]
    | cons j rest2 =>
      have hsep : i.sep = true := (List.pairwise_cons.mp h.2).1 j (by simp)
      obtain ⟨name, sep⟩ := i
      simp only at hsep
      subst hsep
      simp only [if_true, List.singleton_append]
      rw [splitSep_name_append _ _ hname.2, itemsOf_cons_of_ne_nil _ _ (splitSep_ne_nil _),
        if_neg hname.data_ne_nil, ih]

theorem renderItems_head (its : List Item) (h : WellFormed its) :
    (renderItems its).data.head? ≠ some '/' := by
  cases its with
  | nil => simp [renderItems]
  | cons i rest =>
    have hname : IsName i.name := h.1 i (by simp)
    rw [renderItems_data_cons]
    cases hd : i.name.data with
    | nil => exact absurd hd hname.data_ne_nil
    | cons c cs =>
      have : c ≠ '/' := by
        intro e
        apply hname.2
        rw [hd, e]
        simp
      simpa using this

theorem parse_render (root : Bool) (its : List Item) (h : WellFormed its) :
    parse (render ⟨root, its⟩) = ⟨root, its⟩ := by
  cases root with
  | false =>
    have hh := renderItems_head its h
    simp only [parse, render, Bool.false_eq_true, if_false, String.empty_append,
      itemsOf_renderItems its h, Generic.mk.injEq, and_true]
    simpa using hh
  | true =>
    have hd : ("/" ++ renderItems its).data = '/' :: (renderItems its).data := by
      simp
    simp only [parse, render, if_true, hd, List.head?_cons, decide_True, Generic.mk.injEq,
      true_and]
    rw [show splitSep ('/' :: (renderItems its).data) = [] :: splitSep (renderItems its).data
      from by simp [splitSep], itemsOf_cons_of_ne_nil _ _ (splitSep_ne_nil _)]
    simpa using itemsOf_renderItems its h

end path

/-! ## Pathnames: the normal form -/

namespace path

theorem WellFormed.sublist {l l2 : List Item} (h : WellFormed l) (hs : l2.Sublist l) :
    WellFormed l2 :=
  ⟨fun i hi => h.1 i (hs.subset hi), h.2.sublist hs⟩

theorem cancelDotDot_sublist (l : List Item) : (cancelDotDot l).Sublist l := by
  induction l with
  | nil => simp [cancelDotDot]
  | cons i rest ih =>
    unfold cancelDotDot
    split
    · simp
    · rename_i j rest2 hc
      rw [hc] at ih
      split
      · exact ((List.sublist_cons_self j rest2).trans ih).trans (List.sublist_cons_self i rest)
      · exact ih.cons₂ i

theorem cancelDotDot_dotDotFirst (l : List Item) : DotDotFirst (cancelDotDot l) := by
  induction l with
  | nil => simp [cancelDotDot, DotDotFirst]
  | cons i rest ih =>
    unfold cancelDotDot
    split
    · simp [DotDotFirst]
    · rename_i j rest2 hc
      rw [hc] at ih
      split
      · exact (List.pairwise_cons.mp ih).2
      · rename_i hcond
        refine List.pairwise_cons.mpr ⟨?_, ih⟩
        intro b hb hbdd
        have hj : j.name = ".." := by
          rcases List.mem_cons.mp hb with rfl | hb
          · exact hbdd
          · exact (List.pairwise_cons.mp ih).1 b hb hbdd
        by_contra hi
        exact hcond ⟨hi, hj⟩

theorem trimLastDotDot_names (l : List Item) :
    (trimLastDotDot l).map Item.name = l.map Item.name := by
  induction l with
  | nil => rfl
  | cons i rest ih =>
    cases rest with
    | nil =>
      unfold trimLastDotDot
      split <;> rfl
    | cons j rest2 =>
      rw [trimLastDotDot]
      · simp only [List.map_cons] at ih ⊢
        rw [ih]
      · simp

theorem trimLastDotDot_cons_cons (i j : Item) (rest : List Item) :
    trimLastDotDot (i :: j :: rest) = i :: trimLastDotDot (j :: rest) := by
  rw [trimLastDotDot]
  simp

theorem mem_trimLastDotDot_name {l : List Item} {i : Item} (h : i ∈ trimLastDotDot l) :
    ∃ j ∈ l, j.name = i.name := by
  have : i.name ∈ (trimLastDotDot l).map Item.name := List.mem_map.mpr ⟨i, h, rfl⟩
  rw [trimLastDotDot_names] at this
  obtain ⟨j, hj, hname⟩ := List.mem_map.mp this
  exact ⟨j, hj, hname⟩

theorem trimLastDotDot_wellFormed (l : List Item) (h : WellFormed l) :
    WellFormed (trimLastDotDot l) := by
  refine ⟨?_, ?_⟩
  · intro i hi
    obtain ⟨j, hj, hname⟩ := mem_trimLastDotDot_name hi
    rw [← hname]
    exact h.1 j hj
  · have h2 := h.2
    clear h
    induction l with
    | nil => simp [trimLastDotDot]
    | cons i rest ih =>
      cases rest with
      | nil =>
        unfold trimLastDotDot
        split <;> simp
      | cons j rest2 =>
        rw [trimLastDotDot_cons_cons]
        have hp := List.pairwise_cons.mp h2
        exact List.pairwise_cons.mpr ⟨fun _ _ => hp.1 j (by simp), ih hp.2⟩

theorem trimLastDotDot_dotDotFirst (l : List Item) (h : DotDotFirst l) :
    DotDotFirst (trimLastDotDot l) := by
  have key : ∀ m : List Item, DotDotFirst m ↔
      (m.map Item.name).Pairwise fun a b => b = ".." → a = ".." := by
    intro m
    unfold DotDotFirst
    rw [List.pairwise_map]
  rw [key, trimLastDotDot_names, ← key]
  exact h

theorem removeRootDotDot_sublist (root : Bool) (l : List Item) :
    (removeRootDotDot root l).Sublist l := by
  unfold removeRootDotDot
  split
  · exact List.filter_sublist l
  · exact List.Sublist.refl l

theorem normalItems_wellFormed (g : Generic) (h : WellFormed g.items) :
    WellFormed (normalItems g) := by
  apply trimLastDotDot_wellFormed
  exact h.sublist ((removeRootDotDot_sublist _ _).trans
    ((cancelDotDot_sublist _).trans (List.filter_sublist _)))

theorem normalItems_dotDotFirst (g : Generic) : DotDotFirst (normalItems g) := by
  apply trimLastDotDot_dotDotFirst
  exact (cancelDotDot_dotDotFirst _).sublist (removeRootDotDot_sublist _ _)

theorem normalItems_no_dot (g : Generic) : ∀ i ∈ normalItems g, i.name ≠ "." := by
  intro i hi
  obtain ⟨j, hj, hname⟩ := mem_trimLastDotDot_name hi
  have hj2 : j ∈ removeDot g.items :=
    ((removeRootDotDot_sublist _ _).trans (cancelDotDot_sublist _)).subset hj
  rw [← hname]
  simpa using (List.mem_filter.mp hj2).2

theorem normalItems_root_no_dotDot (g : Generic) (hroot : g.root = true) :
    ∀ i ∈ normalItems g, i.name ≠ ".." := by
  intro i hi
  obtain ⟨j, hj, hname⟩ := mem_trimLastDotDot_name hi
  rw [← hname]
  simp only [removeRootDotDot, hroot, if_true] at hj
  simpa using (List.mem_filter.mp hj).2

/-- The empty element that the iteration adds for a trailing separator. -/
theorem elements_render (root : Bool) (its : List Item) (h : WellFormed its) :
    elements (render ⟨root, its⟩) =
      (if root then ["/"] else []) ++ its.map Item.name ++
        (match its.getLast? with
         | some i => if i.sep then [""] else []
         | none => []) := by
  unfold elements
  rw [parse_render root its h]

theorem DotDotFirst.head_of_mem {l : List Item} (h : DotDotFirst l)
    (hm : ".." ∈ l.map Item.name) : (l.map Item.name).head? = some ".." := by
  cases l with
  | nil => simp at hm
  | cons i rest =>
    simp only [List.map_cons, List.head?_cons, Option.some.injEq]
    rcases List.mem_cons.mp hm with e | hm
    · exact e.symm
    · obtain ⟨b, hb, hbn⟩ := List.mem_map.mp hm
      exact (List.pairwise_cons.mp h).1 b hb hbn

/-- A dot-dot element of a normalized path is its first element. -/
theorem elements_lexically_normal_dotDot (p : String)
    (h : ".." ∈ elements (lexically_normal p)) :
    ∃ rest, elements (lexically_normal p) = ".." :: rest := by
  unfold lexically_normal at h ⊢
  by_cases hp : p = ""
  · rw [if_pos hp] at h
    exact absurd h (by decide)
  · rw [if_neg hp] at h ⊢
    simp only at h ⊢
    by_cases hdot : (parse p).root = false ∧ normalItems (parse p) = []
    · rw [if_pos hdot] at h
      exact absurd h (by decide)
    · rw [if_neg hdot] at h ⊢
      have hwf := normalItems_wellFormed (parse p) (parse_wellFormed p)
      rw [elements_render _ _ hwf] at h ⊢
      have hmem : ".." ∈ (normalItems (parse p)).map Item.name := by
        rcases List.mem_append.mp h with h | h
        · rcases List.mem_append.mp h with h | h
          · split at h <;> simp at h
          · exact h
        · split at h
          · split at h <;> simp at h
          · simp at h
      cases hroot : (parse p).root with
      | true =>
        obtain ⟨i, hi, hname⟩ := List.mem_map.mp hmem
        exact absurd hname (normalItems_root_no_dotDot _ hroot i hi)
      | false =>
        have hhead := (normalItems_dotDotFirst (parse p)).head_of_mem hmem
        cases hn : normalItems (parse p) with
        | nil => simp [hn] at hmem
        | cons i rest =>
          rw [hn] at hhead
          simp only [List.map_cons, List.head?_cons, Option.some.injEq] at hhead
          simp [hhead]

end path

/-! ## Ascending paths -/

/-- C2: for every state, every open base descriptor and every path string whose lexical
normalization contains a `..` entry, `OpenFile` returns InvalidArgument (28) from the
first round of its loop: neither the pass-through rule nor `fopen` is reached, no
descriptor is stored and the file system is unchanged, whatever the host. -/
theorem C2_dotdot_invalid (fs : WASIFileSystem) (fd : Nat) (path_str : String)
    (hopen : (unordered_map.find fs.opened_files_ fd).isSome)
    (hdd : ".." ∈ path.elements (path.lexically_normal path_str)) :
    resolve fs fd path_str = .error 28 ∧
      fopenArg fs fd path_str = none ∧
      ∀ fopen : String → Except Int Nat,
        (OpenFile fopen fs fd path_str).status = 28 ∧
        (OpenFile fopen fs fd path_str).fdOut = none ∧
        (OpenFile fopen fs fd path_str).fs = fs := by
  obtain ⟨rest, hrest⟩ := path.elements_lexically_normal_dotDot path_str hdd
  have hne : path.lexically_normal path_str ≠ "" := by
    intro e
    rw [e] at hrest
    have hnil : path.elements "" = [] := by decide
    rw [hnil] at hrest
    cases hrest
  have hres : resolve fs fd path_str = .error 28 := by
    unfold resolve
    cases hf : unordered_map.find fs.opened_files_ fd with
    | none => simp [hf] at hopen
    | some parent =>
      simp only [path.empty, hne, decide_False, Bool.false_eq_true, if_false, hrest, walk,
        if_true, errnoToWASI_EINVAL]
  refine ⟨hres, ?_, fun fopen => ?_⟩
  · simp [fopenArg, hres]
  · simp [OpenFile, hres]

/-- C2 at concrete inputs: the paths `./../foo/..` and `../password.txt` on descriptor 3
of the file system that binds the guest root to `sandbox`. -/
theorem C2_dotdot_invalid_witness :
    ((unordered_map.find (WASIFileSystem.new ⟨[⟨"sandbox", "/"⟩]⟩).opened_files_ 3).isSome ∧
      ".." ∈ path.elements (path.lexically_normal "./../foo/..")) ∧
    (resolve (WASIFileSystem.new ⟨[⟨"sandbox", "/"⟩]⟩) 3 "./../foo/.." = .error 28 ∧
      fopenArg (WASIFileSystem.new ⟨[⟨"sandbox", "/"⟩]⟩) 3 "./../foo/.." = none ∧
      ∀ fopen : String → Except Int Nat,
        (OpenFile fopen (WASIFileSystem.new ⟨[⟨"sandbox", "/"⟩]⟩) 3 "./../foo/..").status = 28 ∧
        (OpenFile fopen (WASIFileSystem.new ⟨[⟨"sandbox", "/"⟩]⟩) 3 "./../foo/..").fdOut = none ∧
        (OpenFile fopen (WASIFileSystem.new ⟨[⟨"sandbox", "/"⟩]⟩) 3 "./../foo/..").fs
          = WASIFileSystem.new ⟨[⟨"sandbox", "/"⟩]⟩) :=
  ⟨⟨by decide, by decide⟩,
    C2_dotdot_invalid (WASIFileSystem.new ⟨[⟨"sandbox", "/"⟩]⟩) 3 "./../foo/.."
      (by decide) (by decide)⟩

/-! ## Pathnames: normalized paths without dot-dot -/

namespace path

theorem cancelDotDot_of_no_dotDot (l : List Item) (h : ∀ i ∈ l, i.name ≠ "..") :
    cancelDotDot l = l := by
  induction l with
  | nil => rfl
  | cons i rest ih =>
    have ih := ih fun x hx => h x (by simp [hx])
    unfold cancelDotDot
    rw [ih]
    cases rest with
    | nil => rfl
    | cons j rest2 =>
      have hj : j.name ≠ ".." := h j (by simp)
      simp [hj]

theorem trimLastDotDot_of_no_dotDot (l : List Item) (h : ∀ i ∈ l, i.name ≠ "..") :
    trimLastDotDot l = l := by
  induction l with
  | nil => rfl
  | cons i rest ih =>
    have ih := ih fun x hx => h x (by simp [hx])
    cases rest with
    | nil =>
      have hi : i.name ≠ ".." := h i (by simp)
      simp [trimLastDotDot, hi]
    | cons j rest2 => rw [trimLastDotDot_cons_cons, ih]

theorem normalItems_of_plain (root : Bool) (its : List Item) (h : Plain its) :
    normalItems ⟨root, its⟩ = its := by
  have h1 : removeDot its = its :=
    List.filter_eq_self.mpr fun i hi => by simpa using (h.2 i hi).1
  have h2 : ∀ i ∈ its, i.name ≠ ".." := fun i hi => (h.2 i hi).2
  have h3 : removeRootDotDot root its = its := by
    unfold removeRootDotDot
    split
    · exact List.filter_eq_self.mpr fun i hi => by simpa using h2 i hi
    · rfl
  unfold normalItems
  simp only [h1, cancelDotDot_of_no_dotDot its h2, h3, trimLastDotDot_of_no_dotDot its h2]

theorem renderItems_ne_empty (i : Item) (rest : List Item) (h : IsName i.name) :
    renderItems (i :: rest) ≠ "" := by
  intro e
  have := congrArg String.data e
  rw [renderItems_data_cons] at this
  have hn := h.data_ne_nil
  simp at this
  exact hn this.1

/-- A pathname written from plain items is its own normal form. -/
theorem lexically_normal_render (root : Bool) (its : List Item) (h : Plain its)
    (hne : root = true ∨ its ≠ []) :
    lexically_normal (render ⟨root, its⟩) = render ⟨root, its⟩ := by
  have hstr : render ⟨root, its⟩ ≠ "" := by
    rcases hne with hr | hi
    · subst hr
      intro e
      have := congrArg String.data e
      simp [render] at this
    · cases its with
      | nil => exact absurd rfl hi
      | cons i rest =>
        cases root with
        | true =>
          intro e
          have := congrArg String.data e
          simp [render] at this
        | false =>
          simpa [render] using renderItems_ne_empty i rest (h.1.1 i (by simp))
  unfold lexically_normal
  rw [if_neg hstr]
  simp only [parse_render root its h.1, normalItems_of_plain root its h]
  rw [if_neg]
  rintro ⟨hr, hi⟩
  rcases hne with h1 | h1
  · rw [h1] at hr
    cases hr
  · exact h1 hi

/-- The items of a non-empty normalized relative pathname other than `.` that has no
dot-dot entry. -/
theorem exists_plain_of_normal (r : String) (hnorm : lexically_normal r = r) (hne : r ≠ "")
    (hrel : is_absolute r = false) (hdd : ".." ∉ elements r) (hdot : r ≠ ".") :
    ∃ its, Plain its ∧ its ≠ [] ∧ r = renderItems its := by
  have hroot : (parse r).root = false := hrel
  unfold lexically_normal at hnorm
  rw [if_neg hne] at hnorm
  simp only at hnorm
  by_cases hc : (parse r).root = false ∧ normalItems (parse r) = []
  · rw [if_pos hc] at hnorm
    exact absurd hnorm.symm hdot
  · rw [if_neg hc, hroot] at hnorm
    have hwf := normalItems_wellFormed (parse r) (parse_wellFormed r)
    have hr : r = renderItems (normalItems (parse r)) :=
      hnorm.symm.trans (by simp [render])
    refine ⟨normalItems (parse r), ⟨hwf, fun i hi => ⟨normalItems_no_dot _ i hi, ?_⟩⟩,
      fun e => hc ⟨hroot, e⟩, ?_⟩
    · intro hname
      apply hdd
      rw [← hnorm, elements_render _ _ hwf]
      apply List.mem_append_left
      apply List.mem_append_right
      exact List.mem_map.mpr ⟨i, hi, hname⟩
    · exact hr

end path

/-! ## Pathnames: appending -/

namespace path

theorem elements_renderItems (its : List Item) (h : WellFormed its) :
    elements (renderItems its) =
      its.map Item.name ++
        (match its.getLast? with
         | some i => if i.sep then [""] else []
         | none => []) := by
  have := elements_render false its h
  simpa [render] using this

theorem is_absolute_renderItems (its : List Item) (h : WellFormed its) :
    is_absolute (renderItems its) = false := by
  have := renderItems_head its h
  simpa [is_absolute, parse] using this

theorem is_absolute_name_append (n y : String) (h : IsName n) :
    is_absolute (n ++ y) = false := by
  cases hd : n.data with
  | nil => exact absurd hd h.data_ne_nil
  | cons c cs =>
    have hc : c ≠ '/' := by
      intro e
      apply h.2
      rw [hd, e]
      simp
    simp [is_absolute, parse, hd, hc]

theorem has_filename_append_name (x n : String) (h : IsName n) :
    has_filename (x ++ n) = true := by
  unfold has_filename
  have hl : (x ++ n).data.getLast? = n.data.getLast? := by
    rw [String.data_append, List.getLast?_append_of_ne_nil _ h.data_ne_nil]
  rw [hl]
  cases hg : n.data.getLast? with
  | none =>
    rw [List.getLast?_eq_none_iff] at hg
    exact absurd hg h.data_ne_nil
  | some c =>
    have hmem : c ∈ n.data := List.mem_of_getLast?_eq_some hg
    have hc : c ≠ '/' := fun e => h.2 (e ▸ hmem)
    simp [hc]

theorem append_of_relative (a b : String) (h : is_absolute b = false) :
    append a b = if has_filename a then a ++ "/" ++ b else a ++ b := by
  simp [append, h]

theorem has_filename_append_of_name (D n : String) (h : IsName n) :
    has_filename (append D n) = true := by
  have hrel : is_absolute n = false := by
    simpa using is_absolute_name_append n "" h
  rw [append_of_relative _ _ hrel]
  split
  · exact has_filename_append_name _ n h
  · exact has_filename_append_name _ n h

theorem append_append_name (D n R : String) (hn : IsName n) (hR : is_absolute R = false) :
    append (append D n) R = append D (n ++ ("/" ++ R)) := by
  have hrel : is_absolute n = false := by
    simpa using is_absolute_name_append n "" hn
  rw [append_of_relative _ R hR, has_filename_append_of_name D n hn, if_pos rfl,
    append_of_relative D n hrel, append_of_relative D _ (is_absolute_name_append n _ hn)]
  split <;> simp [String.append_assoc]

/-- Appending the elements of a relative pathname one by one, as the pass-through loop
does, is appending the pathname. -/
theorem foldl_append_elements (its : List Item) (h : WellFormed its) (hne : its ≠ [])
    (D : String) :
    (elements (renderItems its)).foldl append D = append D (renderItems its) := by
  rw [elements_renderItems its h]
  induction its generalizing D with
  | nil => exact absurd rfl hne
  | cons i rest ih =>
    have hname : IsName i.name := h.1 i (by simp)
    have hrest : WellFormed rest :=
      ⟨fun x hx => h.1 x (by simp [hx]), (List.pairwise_cons.mp h.2).2⟩
    cases rest with
    | nil =>
      obtain ⟨name, sep⟩ := i
      cases sep
      · simp [renderItems]
      · have := append_append_name D name "" hname (by decide)
        simpa [renderItems] using this
    | cons j rest2 =>
      have hsep : i.sep = true := (List.pairwise_cons.mp h.2).1 j (by simp)
      have ih := ih hrest (by simp) (append D i.name)
      have hR := is_absolute_renderItems (j :: rest2) hrest
      rw [append_append_name D i.name _ hname hR] at ih
      simp only [List.map_cons, List.cons_append, List.foldl_cons, List.getLast?_cons_cons]
      simp only [List.map_cons, List.cons_append, List.foldl_cons] at ih
      rw [ih]
      simp [renderItems, hsep]

end path

namespace path

theorem renderItems_append (pre its : List Item) :
    renderItems (pre ++ its) = renderItems pre ++ renderItems its := by
  induction pre with
  | nil => simp [renderItems]
  | cons i pre ih => simp [renderItems, ih, String.append_assoc]

theorem Plain.append {pre its : List Item} (hpre : Plain pre) (hsep : ∀ i ∈ pre, i.sep = true)
    (hits : Plain its) : Plain (pre ++ its) := by
  refine ⟨⟨?_, ?_⟩, ?_⟩
  · intro i hi
    rcases List.mem_append.mp hi with h | h
    · exact hpre.1.1 i h
    · exact hits.1.1 i h
  · exact List.pairwise_append.mpr ⟨hpre.1.2, hits.1.2, fun a ha _ _ => hsep a ha⟩
  · intro i hi
    rcases List.mem_append.mp hi with h | h
    · exact hpre.2 i h
    · exact hits.2 i h

/-- A normalized relative pathname behind a prefix of plain directory names: the whole
is normalized, and its elements are the names of the prefix followed by the elements of
the pathname. -/
theorem prefixed_normal (pre its : List Item) (hpre : Plain pre)
    (hsep : ∀ i ∈ pre, i.sep = true) (hits : Plain its) (hne : its ≠ []) :
    lexically_normal (renderItems pre ++ renderItems its)
        = renderItems pre ++ renderItems its ∧
      renderItems pre ++ renderItems its ≠ "" ∧
      elements (renderItems pre ++ renderItems its)
        = pre.map Item.name ++ elements (renderItems its) := by
  have hall : Plain (pre ++ its) := hpre.append hsep hits
  have hne2 : pre ++ its ≠ [] := by simp [hne]
  have hrender : render ⟨false, pre ++ its⟩ = renderItems pre ++ renderItems its := by
    simp [render, renderItems_append]
  have h1 := lexically_normal_render false (pre ++ its) hall (Or.inr hne2)
  rw [hrender] at h1
  refine ⟨h1, ?_, ?_⟩
  · rw [← renderItems_append]
    cases hc : pre ++ its with
    | nil => exact absurd hc hne2
    | cons i rest =>
      apply renderItems_ne_empty
      exact hall.1.1 i (by rw [hc]; simp)
  · rw [← renderItems_append, elements_renderItems _ hall.1, elements_renderItems _ hits.1,
      List.getLast?_append_of_ne_nil _ hne]
    simp

theorem elements_renderItems_cons (i : Item) (rest : List Item) (h : WellFormed (i :: rest)) :
    ∃ tail, elements (renderItems (i :: rest)) = i.name :: tail := by
  rw [elements_renderItems _ h]
  exact ⟨_, rfl⟩

end path

/-! ## The loop of `OpenFile` -/

theorem walk_unmatched (node : FSNode) (host_path : String) (e : String) (rest : List String)
    (hdd : e ≠ "..") (hfind : unordered_map.find node.entries e = none) :
    walk node host_path (e :: rest) =
      if path.empty node.host_path then .error 44
      else .ok (node, (e :: rest).foldl path.append node.host_path) := by
  simp [walk, hdd, hfind, errnoToWASI_ENOENT]

theorem walk_matched (node child : FSNode) (host_path : String) (e : String)
    (rest : List String) (hdd : e ≠ "..")
    (hfind : unordered_map.find node.entries e = some child) :
    walk node host_path (e :: rest) = walk child child.host_path rest := by
  simp [walk, hdd, hfind]

theorem resolve_of_normal (fs : WASIFileSystem) (fd : Nat) (path_str : String)
    (parent : OpenedFile) (hfd : unordered_map.find fs.opened_files_ fd = some parent)
    (hnorm : path.lexically_normal path_str = path_str) (hne : path_str ≠ "") :
    resolve fs fd path_str =
      match walk parent.node "" (path.elements path_str) with
      | .error status => .error status
      | .ok (node, host_path) => .ok ⟨parent, path_str, node, host_path⟩ := by
  unfold resolve
  simp only [hfd, hnorm, path.empty, hne, decide_False, Bool.false_eq_true, if_false]

theorem OpenFile_of_resolve (fopen : String → Except Int Nat) (fs : WASIFileSystem) (fd : Nat)
    (path_str : String) (r : Resolved) (hres : resolve fs fd path_str = .ok r) :
    fopenArg fs fd path_str = some r.host_path ∧
    (∀ file, fopen r.host_path = .ok file →
      OpenFile fopen fs fd path_str =
        ⟨0, some ((fs.last_fd_ + 1) % 2 ^ 32),
          { fs with
            last_fd_ := (fs.last_fd_ + 1) % 2 ^ 32
            opened_files_ :=
              unordered_map.emplace fs.opened_files_ ((fs.last_fd_ + 1) % 2 ^ 32)
                ⟨path.append r.parent.vm_path r.path, r.node, some file⟩ }⟩) ∧
    (∀ errno, fopen r.host_path = .error errno →
      OpenFile fopen fs fd path_str = ⟨errnoToWASI errno, none, fs⟩) := by
  refine ⟨by simp [fopenArg, hres], fun file hf => ?_, fun errno hf => ?_⟩
  · simp [OpenFile, hres, hf]
  · simp [OpenFile, hres, hf]

/-! ## Pass-through -/

theorem buildRoot_animals (D : String) :
    buildRoot ⟨[⟨D, "/animals"⟩]⟩ = .mk "" [("animals", .mk D [])] := by
  rfl

theorem buildRoot_animals_mammals (A M : String) :
    buildRoot ⟨[⟨A, "/animals"⟩, ⟨M, "/animals/mammals"⟩]⟩
      = .mk "" [("animals", .mk A [("mammals", .mk M [])])] := by
  rfl

theorem path.empty_eq_false {s : String} (h : s ≠ "") : path.empty s = false := by
  simp [path.empty, h]

/-- C7, as stated, fails at the normalized relative path `.`: `animals/.` normalizes to
`animals/`, whose last entry is empty, so `OpenFile(3, "animals/.")` hands `D/` to
`fopen`, while `D` joined with `.` is `D/.`. -/
theorem C7_dot_remainder :
    (path.lexically_normal "." = "." ∧ "." ≠ "" ∧ path.is_absolute "." = false ∧
      ".." ∉ path.elements ".") ∧
    fopenArg (WASIFileSystem.new ⟨[⟨"D", "/animals"⟩]⟩) 3 ("animals/" ++ ".") = some "D/" ∧
    path.append "D" "." = "D/." := by
  decide

/-- C7, amended: for the single mapping of a non-empty host path `D` to `/animals` and
every non-empty normalized relative path `r` without `..` entries other than `.` itself,
`OpenFile(3, "animals/" + r)` on the freshly constructed file system hands exactly `D`
joined with `r` to `fopen`, and its result is the host's: 0 with the new descriptor 4
when `fopen` succeeds, the translated `errno` when it fails, 44 for `ENOENT`. -/
theorem C7_pass_through (D r : String) (hD : D ≠ "")
    (hnorm : path.lexically_normal r = r) (hne : r ≠ "") (hrel : path.is_absolute r = false)
    (hdd : ".." ∉ path.elements r) (hdot : r ≠ ".") :
    fopenArg (WASIFileSystem.new ⟨[⟨D, "/animals"⟩]⟩) 3 ("animals/" ++ r)
        = some (path.append D r) ∧
    ∀ fopen : String → Except Int Nat,
      (∀ file, fopen (path.append D r) = .ok file →
        (OpenFile fopen (WASIFileSystem.new ⟨[⟨D, "/animals"⟩]⟩) 3 ("animals/" ++ r)).status
          = 0 ∧
        (OpenFile fopen (WASIFileSystem.new ⟨[⟨D, "/animals"⟩]⟩) 3 ("animals/" ++ r)).fdOut
          = some 4 ∧
        (GetOpenedFile (WASIFileSystem.new ⟨[⟨D, "/animals"⟩]⟩) 4).1 = 8 ∧
        (GetOpenedFile
          (OpenFile fopen (WASIFileSystem.new ⟨[⟨D, "/animals"⟩]⟩) 3 ("animals/" ++ r)).fs
          4).1 = 0) ∧
      (∀ errno, fopen (path.append D r) = .error errno →
        (OpenFile fopen (WASIFileSystem.new ⟨[⟨D, "/animals"⟩]⟩) 3 ("animals/" ++ r)).status
          = errnoToWASI errno ∧
        (OpenFile fopen (WASIFileSystem.new ⟨[⟨D, "/animals"⟩]⟩) 3 ("animals/" ++ r)).fdOut
          = none) ∧
      (fopen (path.append D r) = .error ENOENT →
        (OpenFile fopen (WASIFileSystem.new ⟨[⟨D, "/animals"⟩]⟩) 3 ("animals/" ++ r)).status
          = 44) := by
  obtain ⟨its, hplain, hits, rfl⟩ := path.exists_plain_of_normal r hnorm hne hrel hdd hdot
  have hpre : path.Plain [⟨"animals", true⟩] :=
    ⟨⟨by simp [path.IsName], by simp⟩, by simp⟩
  have hlit : "animals/" = path.renderItems [⟨"animals", true⟩] := by decide
  obtain ⟨hn, hnonempty, hel⟩ :=
    path.prefixed_normal [⟨"animals", true⟩] its hpre (by simp) hplain hits
  rw [← hlit] at hn hnonempty hel
  have hfd : unordered_map.find (WASIFileSystem.new ⟨[⟨D, "/animals"⟩]⟩).opened_files_ 3
      = some ⟨"/", .mk "" [("animals", .mk D [])], none⟩ := by
    rw [← buildRoot_animals D]
    rfl
  have hwalk : walk (.mk "" [("animals", .mk D [])]) ""
      (path.elements ("animals/" ++ path.renderItems its))
      = .ok (.mk D [], path.append D (path.renderItems its)) := by
    rw [hel]
    cases its with
    | nil => exact absurd rfl hits
    | cons i rest =>
      obtain ⟨tail, htail⟩ := path.elements_renderItems_cons i rest hplain.1
      have hfold := path.foldl_append_elements (i :: rest) hplain.1 hits D
      rw [htail] at hfold ⊢
      have hi : i.name ≠ ".." := (hplain.2 i (by simp)).2
      simp only [List.map_cons, List.map_nil, List.singleton_append]
      rw [walk_matched _ (.mk D []) _ _ _ (by decide) (by simp [unordered_map.find, FSNode.entries]),
        walk_unmatched _ _ _ _ hi (by simp [unordered_map.find, FSNode.entries])]
      simp only [FSNode.host_path, path.empty_eq_false hD, Bool.false_eq_true, if_false]
      rw [hfold]
  have hres := resolve_of_normal _ 3 _ _ hfd hn hnonempty
  simp only [hwalk] at hres
  refine ⟨(OpenFile_of_resolve (fun _ => .ok 0) _ _ _ _ hres).1, fun fopen => ?_⟩
  obtain ⟨-, hok, herr⟩ := OpenFile_of_resolve fopen _ _ _ _ hres
  refine ⟨fun file hf => ?_, fun errno hf => ?_, fun hf => ?_⟩
  · rw [hok file hf]
    refine ⟨rfl, rfl, rfl, ?_⟩
    rfl
  · rw [herr errno hf]
    exact ⟨rfl, rfl⟩
  · rw [herr ENOENT hf]
    exact errnoToWASI_ENOENT


/-- C7 (amended) at a concrete input: the host directory `d` mapped to `/animals`, and
the path `mammals/apes.txt` of the test `OneDir`. -/
theorem C7_pass_through_witness :
    ("d" ≠ "" ∧ path.lexically_normal "mammals/apes.txt" = "mammals/apes.txt" ∧
      "mammals/apes.txt" ≠ "" ∧ path.is_absolute "mammals/apes.txt" = false ∧
      ".." ∉ path.elements "mammals/apes.txt" ∧ "mammals/apes.txt" ≠ ".") ∧
    (fopenArg (WASIFileSystem.new ⟨[⟨"d", "/animals"⟩]⟩) 3 ("animals/" ++ "mammals/apes.txt")
        = some (path.append "d" "mammals/apes.txt") ∧
    ∀ fopen : String → Except Int Nat,
      (∀ file, fopen (path.append "d" "mammals/apes.txt") = .ok file →
        (OpenFile fopen (WASIFileSystem.new ⟨[⟨"d", "/animals"⟩]⟩) 3
          ("animals/" ++ "mammals/apes.txt")).status = 0 ∧
        (OpenFile fopen (WASIFileSystem.new ⟨[⟨"d", "/animals"⟩]⟩) 3
          ("animals/" ++ "mammals/apes.txt")).fdOut = some 4 ∧
        (GetOpenedFile (WASIFileSystem.new ⟨[⟨"d", "/animals"⟩]⟩) 4).1 = 8 ∧
        (GetOpenedFile
          (OpenFile fopen (WASIFileSystem.new ⟨[⟨"d", "/animals"⟩]⟩) 3
            ("animals/" ++ "mammals/apes.txt")).fs 4).1 = 0) ∧
      (∀ errno, fopen (path.append "d" "mammals/apes.txt") = .error errno →
        (OpenFile fopen (WASIFileSystem.new ⟨[⟨"d", "/animals"⟩]⟩) 3
          ("animals/" ++ "mammals/apes.txt")).status = errnoToWASI errno ∧
        (OpenFile fopen (WASIFileSystem.new ⟨[⟨"d", "/animals"⟩]⟩) 3
          ("animals/" ++ "mammals/apes.txt")).fdOut = none) ∧
      (fopen (path.append "d" "mammals/apes.txt") = .error ENOENT →
        (OpenFile fopen (WASIFileSystem.new ⟨[⟨"d", "/animals"⟩]⟩) 3
          ("animals/" ++ "mammals/apes.txt")).status = 44)) :=
  ⟨by decide,
    C7_pass_through "d" "mammals/apes.txt" (by decide) (by decide) (by decide) (by decide)
      (by decide) (by decide)⟩

/-! ## Overlapping mappings -/

/-- C8, as stated, fails at the normalized relative path `.`: `animals/mammals/.`
normalizes to `animals/mammals/`, so `M/` is handed to `fopen` and not `M` joined with
`.`, which is `M/.`; likewise `animals/birds/.` gives `A/birds/` and not `A/birds/.`. -/
theorem C8_dot_remainder :
    (path.lexically_normal "." = "." ∧ "." ≠ "" ∧ path.is_absolute "." = false ∧
      ".." ∉ path.elements ".") ∧
    (fopenArg (WASIFileSystem.new ⟨[⟨"A", "/animals"⟩, ⟨"M", "/animals/mammals"⟩]⟩) 3
        ("animals/mammals/" ++ ".") = some "M/" ∧
      path.append "M" "." = "M/.") ∧
    (fopenArg (WASIFileSystem.new ⟨[⟨"A", "/animals"⟩, ⟨"M", "/animals/mammals"⟩]⟩) 3
        ("animals/birds/" ++ ".") = some "A/birds/" ∧
      path.append (path.append "A" "birds") "." = "A/birds/.") := by
  decide

/-- C8, amended: for the configuration that maps `A` to `/animals` and then `M` to
`/animals/mammals` (both host paths non-empty) and every non-empty normalized relative
path `r` without `..` entries other than `.` itself, `OpenFile(3, "animals/mammals/" + r)`
on the freshly constructed file system hands `M` joined with `r` to `fopen` (the more
specific binding), and `OpenFile(3, "animals/birds/" + r)` hands `A` joined with `birds`
joined with `r` (the broader binding). -/
theorem C8_overlapping (A M r : String) (hA : A ≠ "") (hM : M ≠ "")
    (hnorm : path.lexically_normal r = r) (hne : r ≠ "") (hrel : path.is_absolute r = false)
    (hdd : ".." ∉ path.elements r) (hdot : r ≠ ".") :
    fopenArg (WASIFileSystem.new ⟨[⟨A, "/animals"⟩, ⟨M, "/animals/mammals"⟩]⟩) 3
        ("animals/mammals/" ++ r) = some (path.append M r) ∧
    fopenArg (WASIFileSystem.new ⟨[⟨A, "/animals"⟩, ⟨M, "/animals/mammals"⟩]⟩) 3
        ("animals/birds/" ++ r) = some (path.append (path.append A "birds") r) := by
  obtain ⟨its, hplain, hits, rfl⟩ := path.exists_plain_of_normal r hnorm hne hrel hdd hdot
  have hfd : unordered_map.find
      (WASIFileSystem.new ⟨[⟨A, "/animals"⟩, ⟨M, "/animals/mammals"⟩]⟩).opened_files_ 3
      = some ⟨"/", .mk "" [("animals", .mk A [("mammals", .mk M [])])], none⟩ := by
    rw [← buildRoot_animals_mammals A M]
    rfl
  cases its with
  | nil => exact absurd rfl hits
  | cons i rest =>
    obtain ⟨tail, htail⟩ := path.elements_renderItems_cons i rest hplain.1
    have hi : i.name ≠ ".." := (hplain.2 i (by simp)).2
    constructor
    · have hpre : path.Plain [⟨"animals", true⟩, ⟨"mammals", true⟩] :=
        ⟨⟨by simp [path.IsName], by simp⟩, by simp⟩
      have hlit : "animals/mammals/"
          = path.renderItems [⟨"animals", true⟩, ⟨"mammals", true⟩] := by decide
      obtain ⟨hn, hnonempty, hel⟩ := path.prefixed_normal
        [⟨"animals", true⟩, ⟨"mammals", true⟩] (i :: rest) hpre (by simp) hplain hits
      rw [← hlit] at hn hnonempty hel
      have hfold := path.foldl_append_elements (i :: rest) hplain.1 hits M
      have hwalk : walk (.mk "" [("animals", .mk A [("mammals", .mk M [])])]) ""
          (path.elements ("animals/mammals/" ++ path.renderItems (i :: rest)))
          = .ok (.mk M [], path.append M (path.renderItems (i :: rest))) := by
        rw [hel]
        rw [htail] at hfold ⊢
        simp only [List.map_cons, List.map_nil, List.cons_append, List.nil_append]
        rw [walk_matched _ (.mk A [("mammals", .mk M [])]) _ _ _ (by decide)
            (by simp [unordered_map.find, FSNode.entries]),
          walk_matched _ (.mk M []) _ _ _ (by decide)
            (by simp [unordered_map.find, FSNode.entries]),
          walk_unmatched _ _ _ _ hi (by simp [unordered_map.find, FSNode.entries])]
        simp only [FSNode.host_path, path.empty_eq_false hM, Bool.false_eq_true, if_false]
        rw [hfold]
      have hres := resolve_of_normal _ 3 _ _ hfd hn hnonempty
      simp only [hwalk] at hres
      exact (OpenFile_of_resolve (fun _ => .ok 0) _ _ _ _ hres).1
    · have hpre : path.Plain [⟨"animals", true⟩, ⟨"birds", true⟩] :=
        ⟨⟨by simp [path.IsName], by simp⟩, by simp⟩
      have hlit : "animals/birds/"
          = path.renderItems [⟨"animals", true⟩, ⟨"birds", true⟩] := by decide
      obtain ⟨hn, hnonempty, hel⟩ := path.prefixed_normal
        [⟨"animals", true⟩, ⟨"birds", true⟩] (i :: rest) hpre (by simp) hplain hits
      rw [← hlit] at hn hnonempty hel
      have hfold := path.foldl_append_elements (i :: rest) hplain.1 hits (path.append A "birds")
      have hwalk : walk (.mk "" [("animals", .mk A [("mammals", .mk M [])])]) ""
          (path.elements ("animals/birds/" ++ path.renderItems (i :: rest)))
          = .ok (.mk A [("mammals", .mk M [])],
              path.append (path.append A "birds") (path.renderItems (i :: rest))) := by
        rw [hel]
        simp only [List.map_cons, List.map_nil, List.cons_append, List.nil_append]
        rw [walk_matched _ (.mk A [("mammals", .mk M [])]) _ _ _ (by decide)
            (by simp [unordered_map.find, FSNode.entries]),
          walk_unmatched _ _ _ _ (by decide) (by simp [unordered_map.find, FSNode.entries])]
        simp only [FSNode.host_path, path.empty_eq_false hA, Bool.false_eq_true, if_false,
          List.foldl_cons]
        rw [hfold]
      have hres := resolve_of_normal _ 3 _ _ hfd hn hnonempty
      simp only [hwalk] at hres
      exact (OpenFile_of_resolve (fun _ => .ok 0) _ _ _ _ hres).1

/-- C8 (amended) at a concrete input: the paths of the test `OverlappingDirs`. -/
theorem C8_overlapping_witness :
    ("a" ≠ "" ∧ "a/m" ≠ "" ∧ path.lexically_normal "apes.txt" = "apes.txt" ∧
      "apes.txt" ≠ "" ∧ path.is_absolute "apes.txt" = false ∧
      ".." ∉ path.elements "apes.txt" ∧ "apes.txt" ≠ ".") ∧
    (fopenArg (WASIFileSystem.new ⟨[⟨"a", "/animals"⟩, ⟨"a/m", "/animals/mammals"⟩]⟩) 3
        ("animals/mammals/" ++ "apes.txt") = some (path.append "a/m" "apes.txt") ∧
    fopenArg (WASIFileSystem.new ⟨[⟨"a", "/animals"⟩, ⟨"a/m", "/animals/mammals"⟩]⟩) 3
        ("animals/birds/" ++ "apes.txt")
      = some (path.append (path.append "a" "birds") "apes.txt")) :=
  ⟨by decide,
    C8_overlapping "a" "a/m" "apes.txt" (by decide) (by decide) (by decide) (by decide)
      (by decide) (by decide) (by decide)⟩

/-! ## The trie of the constructor -/

theorem descend_default (t : List String) :
    descend FSNode.default t = if t = [] then some FSNode.default else none := by
  cases t with
  | nil => rfl
  | cons e rest => simp [descend, FSNode.default, FSNode.entries, unordered_map.find]

theorem boundAt_default (t : List String) : boundAt FSNode.default t = "" := by
  unfold boundAt
  rw [descend_default]
  split
  · rename_i n hn
    split at hn
    · cases hn
      rfl
    · cases hn
  · rfl

theorem boundAt_child (n : FSNode) (e : String) (t : List String) :
    boundAt ((unordered_map.find n.entries e).getD FSNode.default) t = boundAt n (e :: t) := by
  cases hf : unordered_map.find n.entries e with
  | none =>
    simp only [Option.getD_none, boundAt_default]
    simp [boundAt, descend, hf]
  | some c => simp [boundAt, descend, hf]

/-- The constructor loop binds the host path at the position of the guest path and
leaves the binding of every other position as it was. -/
theorem boundAt_insertPath (h : String) (n : FSNode) (s t : List String) :
    boundAt (insertPath h n s) t = if t = s then h else boundAt n t := by
  induction s generalizing n t with
  | nil =>
    cases t with
    | nil => simp [insertPath, boundAt, descend, FSNode.host_path]
    | cons e rest => simp [insertPath, boundAt, descend, FSNode.entries]
  | cons e s ih =>
    cases t with
    | nil => simp [insertPath, boundAt, descend, FSNode.host_path]
    | cons e2 t =>
      by_cases he : e = e2
      · subst he
        have hstep : boundAt (insertPath h n (e :: s)) (e :: t)
            = boundAt (insertPath h ((unordered_map.find n.entries e).getD FSNode.default) s)
                t := by
          simp [insertPath, boundAt, descend, FSNode.entries, unordered_map.find_assign]
        rw [hstep, ih, boundAt_child]
        simp
      · have hne : ¬ (e2 :: t = e :: s) := by
          intro hc
          injection hc with h1 _
          exact he h1.symm
        have hstep : boundAt (insertPath h n (e :: s)) (e2 :: t) = boundAt n (e2 :: t) := by
          simp [insertPath, boundAt, descend, FSNode.entries, unordered_map.find_assign, he]
        rw [hstep, if_neg hne]

theorem descend_child_isSome (n : FSNode) (e : String) (t : List String) :
    (descend ((unordered_map.find n.entries e).getD FSNode.default) t).isSome
      = ((descend n (e :: t)).isSome || decide (t = [])) := by
  cases hf : unordered_map.find n.entries e with
  | none =>
    simp only [Option.getD_none, descend_default]
    by_cases ht : t = [] <;> simp [descend, hf, ht]
  | some c =>
    simp only [Option.getD_some, descend, hf]
    cases t with
    | nil => simp [descend]
    | cons x t => simp

/-- The constructor loop creates exactly the nodes on the way to the position of the
guest path. -/
theorem descend_insertPath_isSome (h : String) (n : FSNode) (s t : List String) :
    (descend (insertPath h n s) t).isSome ↔
      (descend n t).isSome ∨ ∃ u, s = t ++ u := by
  induction s generalizing n t with
  | nil =>
    cases t with
    | nil => simp [insertPath, descend]
    | cons e rest => simp [insertPath, descend, FSNode.entries]
  | cons e s ih =>
    cases t with
    | nil => simp [descend]
    | cons e2 t =>
      by_cases he : e = e2
      · subst he
        have hstep : descend (insertPath h n (e :: s)) (e :: t)
            = descend (insertPath h ((unordered_map.find n.entries e).getD FSNode.default) s)
                t := by
          simp [insertPath, descend, FSNode.entries, unordered_map.find_assign]
        rw [hstep, ih, descend_child_isSome]
        simp only [Bool.or_eq_true, decide_eq_true_eq, List.cons_append, List.cons.injEq,
          true_and]
        constructor
        · rintro ((h1 | h1) | h1)
          · exact Or.inl h1
          · exact Or.inr ⟨s, by simp [h1]⟩
          · exact Or.inr h1
        · rintro (h1 | h1)
          · exact Or.inl (Or.inl h1)
          · exact Or.inr h1
      · have hstep : descend (insertPath h n (e :: s)) (e2 :: t) = descend n (e2 :: t) := by
          simp [insertPath, descend, FSNode.entries, unordered_map.find_assign, he]
        rw [hstep]
        simp [he]

theorem boundAt_foldl_of_ne (L : List HostFile) (n : FSNode) (t : List String)
    (h : ∀ e ∈ L, vmSegments e ≠ t) :
    boundAt (L.foldl addHostFile n) t = boundAt n t := by
  induction L generalizing n with
  | nil => rfl
  | cons x L ih =>
    rw [List.foldl_cons, ih _ fun e he => h e (by simp [he])]
    unfold addHostFile
    rw [boundAt_insertPath, if_neg (fun hc => h x (by simp) hc.symm)]

theorem boundAt_foldl_of_mem (L : List HostFile) (n : FSNode) (e : HostFile)
    (hd : L.Pairwise fun a b => vmSegments a ≠ vmSegments b) (he : e ∈ L) :
    boundAt (L.foldl addHostFile n) (vmSegments e) = e.host_path := by
  induction L generalizing n with
  | nil => simp at he
  | cons x L ih =>
    rw [List.foldl_cons]
    have hp := List.pairwise_cons.mp hd
    by_cases hx : e = x
    · subst hx
      rw [boundAt_foldl_of_ne L _ _ fun e2 he2 => (hp.1 e2 he2).symm]
      unfold addHostFile
      rw [boundAt_insertPath, if_pos rfl]
    · have he2 : e ∈ L := by
        rcases List.mem_cons.mp he with h1 | h1
        · exact absurd h1 hx
        · exact h1
      exact ih _ hp.2 he2

theorem descend_foldl_isSome (L : List HostFile) (n : FSNode) (t : List String) :
    (descend (L.foldl addHostFile n) t).isSome ↔
      (descend n t).isSome ∨ ∃ e ∈ L, ∃ u, vmSegments e = t ++ u := by
  induction L generalizing n with
  | nil => simp
  | cons x L ih =>
    rw [List.foldl_cons, ih]
    unfold addHostFile
    rw [descend_insertPath_isSome]
    constructor
    · rintro ((h1 | ⟨u, hu⟩) | ⟨e, he, u, hu⟩)
      · exact Or.inl h1
      · exact Or.inr ⟨x, by simp, u, hu⟩
      · exact Or.inr ⟨e, by simp [he], u, hu⟩
    · rintro (h1 | ⟨e, he, u, hu⟩)
      · exact Or.inl (Or.inl h1)
      · rcases List.mem_cons.mp he with rfl | he
        · exact Or.inl (Or.inr ⟨u, hu⟩)
        · exact Or.inr ⟨e, he, u, hu⟩

theorem walk_of_descend (n node : FSNode) (host_path : String) (segs : List String)
    (hne : segs ≠ []) (hdd : ".." ∉ segs) (hd : descend n segs = some node) :
    walk n host_path segs = .ok (node, node.host_path) := by
  induction segs generalizing n host_path with
  | nil => exact absurd rfl hne
  | cons e rest ih =>
    have he : e ≠ ".." := fun hc => hdd (by simp [hc])
    have hrest : ".." ∉ rest := fun hc => hdd (by simp [hc])
    cases hf : unordered_map.find n.entries e with
    | none => simp [descend, hf] at hd
    | some child =>
      rw [walk_matched n child host_path e rest he hf]
      simp only [descend, hf] at hd
      cases rest with
      | nil =>
        simp only [descend, Option.some.injEq] at hd
        subst hd
        rfl
      | cons e2 rest2 => exact ih child child.host_path (by simp) hrest hd

theorem walk_missing_child (n dir : FSNode) (host_path : String) (d : List String) (x : String)
    (hdd : ".." ∉ d) (hx : x ≠ "..") (hd : descend n d = some dir)
    (hbound : dir.host_path = "") (hchild : unordered_map.find dir.entries x = none) :
    walk n host_path (d ++ [x]) = .error 44 := by
  induction d generalizing n host_path with
  | nil =>
    simp only [descend, Option.some.injEq] at hd
    subst hd
    rw [List.nil_append, walk_unmatched n host_path x [] hx hchild, hbound]
    rfl
  | cons e rest ih =>
    have he : e ≠ ".." := fun hc => hdd (by simp [hc])
    have hrest : ".." ∉ rest := fun hc => hdd (by simp [hc])
    cases hf : unordered_map.find n.entries e with
    | none => simp [descend, hf] at hd
    | some child =>
      rw [List.cons_append, walk_matched n child host_path e _ he hf]
      simp only [descend, hf] at hd
      exact ih child child.host_path hrest hd

theorem descend_append_single (n : FSNode) (d : List String) (x : String) :
    descend n (d ++ [x]) =
      match descend n d with
      | none => none
      | some dir => unordered_map.find dir.entries x := by
  induction d generalizing n with
  | nil =>
    simp only [List.nil_append, descend]
    cases unordered_map.find n.entries x <;> rfl
  | cons e rest ih =>
    simp only [List.cons_append, descend]
    cases unordered_map.find n.entries e with
    | none => rfl
    | some child => exact ih child

namespace path

theorem joinElements_cons_cons (a b : String) (rest : List String) :
    joinElements (a :: b :: rest) = a ++ "/" ++ joinElements (b :: rest) := by
  simp [joinElements]

/-- A pathname written from well-formed items is recovered from its elements. -/
theorem joinElements_elements (its : List Item) (h : WellFormed its) :
    joinElements (elements (renderItems its)) = renderItems its := by
  rw [elements_renderItems its h]
  induction its with
  | nil => rfl
  | cons i rest ih =>
    have hrest : WellFormed rest :=
      ⟨fun x hx => h.1 x (by simp [hx]), (List.pairwise_cons.mp h.2).2⟩
    cases rest with
    | nil =>
      obtain ⟨name, sep⟩ := i
      cases sep <;> simp [joinElements, renderItems]
    | cons j rest2 =>
      have hsep : i.sep = true := (List.pairwise_cons.mp h.2).1 j (by simp)
      have ih := ih hrest
      simp only [List.map_cons, List.cons_append, List.getLast?_cons_cons] at ih ⊢
      rw [joinElements_cons_cons, ih]
      simp [renderItems, hsep, String.append_assoc]

/-- The items of a normalized absolute pathname. -/
theorem exists_plain_of_normal_absolute (g : String) (hnorm : lexically_normal g = g)
    (habs : is_absolute g = true) :
    ∃ its, Plain its ∧ g = "/" ++ renderItems its := by
  have hroot : (parse g).root = true := habs
  have hne : g ≠ "" := by
    intro e
    rw [e] at habs
    exact absurd habs (by decide)
  unfold lexically_normal at hnorm
  rw [if_neg hne] at hnorm
  simp only [hroot] at hnorm
  rw [if_neg (by simp)] at hnorm
  have hwf := normalItems_wellFormed (parse g) (parse_wellFormed g)
  refine ⟨normalItems (parse g), ⟨hwf, fun i hi =>
    ⟨normalItems_no_dot _ i hi, normalItems_root_no_dotDot _ hroot i hi⟩⟩, ?_⟩
  exact hnorm.symm.trans (by simp [render])

theorem dropRoot_root_append (R : String) : dropRoot ("/" ++ R) = R := by
  simp [dropRoot]

theorem append_root (R : String) (h : is_absolute R = false) : append "/" R = "/" ++ R := by
  rw [append_of_relative _ _ h]
  rfl

theorem elements_root_append (its : List Item) (h : WellFormed its) :
    elements ("/" ++ renderItems its) = "/" :: elements (renderItems its) := by
  have := elements_render true its h
  rw [elements_renderItems its h]
  simpa [render] using this

end path

/-- The path entries the constructor walks for a mapping whose guest path is absolute and
normalized are the elements of the guest path behind its leading slash. -/
theorem vmSegments_of_normal_absolute (e : HostFile) (its : List path.Item)
    (hwf : path.WellFormed its) (hg : e.vm_path = "/" ++ path.renderItems its) :
    vmSegments e = path.elements (path.renderItems its) := by
  have hne : e.vm_path ≠ "" := by
    rw [hg]
    intro hc
    have := congrArg String.data hc
    simp at this
  have habs : path.is_absolute ("/" ++ path.renderItems its) = true := by
    simp [path.is_absolute, path.parse]
  unfold vmSegments
  simp only [hne, ne_eq, not_false_eq_true, if_true]
  rw [hg, habs, if_pos rfl, path.elements_root_append its hwf]
  rfl

/-! ## Mapped files -/

theorem path.elements_renderItems_no_dotDot (its : List path.Item) (h : path.Plain its) :
    ".." ∉ path.elements (path.renderItems its) := by
  rw [path.elements_renderItems its h.1]
  intro hc
  rcases List.mem_append.mp hc with hc | hc
  · obtain ⟨i, hi, hname⟩ := List.mem_map.mp hc
    exact (h.2 i hi).2 hname
  · split at hc
    · split at hc <;> simp at hc
    · simp at hc

theorem vmSegments_injective (a b : HostFile)
    (ha : path.is_absolute a.vm_path = true ∧ path.lexically_normal a.vm_path = a.vm_path)
    (hb : path.is_absolute b.vm_path = true ∧ path.lexically_normal b.vm_path = b.vm_path)
    (h : vmSegments a = vmSegments b) : a.vm_path = b.vm_path := by
  obtain ⟨ia, hpa, hga⟩ := path.exists_plain_of_normal_absolute a.vm_path ha.2 ha.1
  obtain ⟨ib, hpb, hgb⟩ := path.exists_plain_of_normal_absolute b.vm_path hb.2 hb.1
  rw [vmSegments_of_normal_absolute a ia hpa.1 hga,
    vmSegments_of_normal_absolute b ib hpb.1 hgb] at h
  have := congrArg path.joinElements h
  rw [path.joinElements_elements ia hpa.1, path.joinElements_elements ib hpb.1] at this
  rw [hga, hgb, this]

/-- C6, as stated, fails for a mapping whose guest path is the root `/` itself, which is
absolute and normalized: without its leading `/` it is the empty path, and
`OpenFile(3, "")` returns 28 (InvalidArgument) before anything is handed to `fopen`. -/
theorem C6_root_mapping :
    ("h" ≠ "" ∧ path.is_absolute "/" = true ∧ path.lexically_normal "/" = "/") ∧
    path.dropRoot "/" = "" ∧
    fopenArg (WASIFileSystem.new ⟨[⟨"h", "/"⟩]⟩) 3 (path.dropRoot "/") = none ∧
    (OpenFile (hostAny 1) (WASIFileSystem.new ⟨[⟨"h", "/"⟩]⟩) 3 (path.dropRoot "/")).status
      = 28 := by
  decide

/-- C6, amended: for every configuration whose mappings have non-empty host paths and
pairwise distinct, normalized, absolute guest paths, and every mapping `e` of it whose
guest path is not the root `/` itself: on the freshly constructed file system
`OpenFile(3, guest path without its leading slash)` hands exactly `e.host_path` to
`fopen`; if `fopen` succeeds the call returns 0 and a descriptor different from 3 whose
entry has the guest path of `e` as `vm_path`, the handle of the host, and a node whose
host path is `e.host_path`. If the entries of the guest path are `d` followed by a last
one, no mapping is bound at `d`, and no mapping declares a path through `d` followed by
the name `x`, then opening a path with the entries `d`, `x` returns 44 (NoSuchEntry)
without reaching `fopen`. -/
theorem C6_mapped_files (config : FileSystemConfig)
    (hhost : ∀ e ∈ config.host_files, e.host_path ≠ "")
    (hnorm : ∀ e ∈ config.host_files,
      path.is_absolute e.vm_path = true ∧ path.lexically_normal e.vm_path = e.vm_path)
    (hdistinct : config.host_files.Pairwise fun a b => a.vm_path ≠ b.vm_path)
    (e : HostFile) (he : e ∈ config.host_files) (hseg : e.vm_path ≠ "/") :
    fopenArg (WASIFileSystem.new config) 3 (path.dropRoot e.vm_path) = some e.host_path ∧
    (∀ (fopen : String → Except Int Nat) (file : Nat), fopen e.host_path = .ok file →
      (OpenFile fopen (WASIFileSystem.new config) 3 (path.dropRoot e.vm_path)).status = 0 ∧
      ∃ fd opened,
        (OpenFile fopen (WASIFileSystem.new config) 3 (path.dropRoot e.vm_path)).fdOut
          = some fd ∧
        fd ≠ 3 ∧
        GetOpenedFile
            (OpenFile fopen (WASIFileSystem.new config) 3 (path.dropRoot e.vm_path)).fs fd
          = (0, some opened) ∧
        opened.vm_path = e.vm_path ∧ opened.file = some file ∧
        opened.node.host_path = e.host_path) ∧
    (∀ (d : List String) (n x path_str : String),
      vmSegments e = d ++ [n] → x ≠ ".." →
      (∀ e2 ∈ config.host_files, vmSegments e2 ≠ d) →
      (∀ e2 ∈ config.host_files, ∀ u, vmSegments e2 ≠ d ++ x :: u) →
      path.elements (path.lexically_normal path_str) = d ++ [x] →
      fopenArg (WASIFileSystem.new config) 3 path_str = none ∧
      ∀ fopen : String → Except Int Nat,
        (OpenFile fopen (WASIFileSystem.new config) 3 path_str).status = 44) := by
  obtain ⟨its, hplain, hg⟩ := path.exists_plain_of_normal_absolute e.vm_path
    (hnorm e he).2 (hnorm e he).1
  have hits : its ≠ [] := by
    intro hc
    apply hseg
    rw [hg, hc]
    rfl
  have hdrop : path.dropRoot e.vm_path = path.renderItems its := by
    rw [hg, path.dropRoot_root_append]
  have hsegs := vmSegments_of_normal_absolute e its hplain.1 hg
  have hpw : config.host_files.Pairwise fun a b => vmSegments a ≠ vmSegments b :=
    hdistinct.imp_of_mem fun {a b} ha hb hab hc =>
      hab (vmSegments_injective a b (hnorm a ha) (hnorm b hb) hc)
  have hfd : unordered_map.find (WASIFileSystem.new config).opened_files_ 3
      = some ⟨"/", buildRoot config, none⟩ := rfl
  have hnodd := path.elements_renderItems_no_dotDot its hplain
  have hb : boundAt (buildRoot config) (vmSegments e) = e.host_path :=
    boundAt_foldl_of_mem config.host_files FSNode.default e hpw he
  have hnode : ∃ node, descend (buildRoot config) (vmSegments e) = some node ∧
      node.host_path = e.host_path := by
    unfold boundAt at hb
    cases hd : descend (buildRoot config) (vmSegments e) with
    | none =>
      rw [hd] at hb
      exact absurd hb.symm (hhost e he)
    | some node =>
      rw [hd] at hb
      exact ⟨node, rfl, hb⟩
  obtain ⟨node, hdesc, hnodehost⟩ := hnode
  have hsegne : path.elements (path.renderItems its) ≠ [] := by
    cases its with
    | nil => exact absurd rfl hits
    | cons i rest =>
      obtain ⟨tail, htail⟩ := path.elements_renderItems_cons i rest hplain.1
      rw [htail]
      simp
  have hwalk : walk (buildRoot config) "" (path.elements (path.renderItems its))
      = .ok (node, node.host_path) :=
    walk_of_descend _ node "" _ hsegne hnodd (hsegs ▸ hdesc)
  have hn : path.lexically_normal (path.renderItems its) = path.renderItems its := by
    have := path.lexically_normal_render false its hplain (Or.inr hits)
    simpa [path.render] using this
  have hnonempty : path.renderItems its ≠ "" := by
    cases its with
    | nil => exact absurd rfl hits
    | cons i rest => exact path.renderItems_ne_empty i rest (hplain.1.1 i (by simp))
  have hres := resolve_of_normal _ 3 _ _ hfd hn hnonempty
  simp only [hwalk] at hres
  refine ⟨?_, ?_, ?_⟩
  · rw [hdrop, (OpenFile_of_resolve (fun _ => .ok 0) _ _ _ _ hres).1, hnodehost]
  · intro fopen file hf
    rw [← hnodehost] at hf
    rw [hdrop, (OpenFile_of_resolve fopen _ _ _ _ hres).2.1 file hf]
    refine ⟨rfl, 4, ⟨path.append "/" (path.renderItems its), node, some file⟩, rfl,
      by decide, rfl, ?_, rfl, hnodehost⟩
    rw [hg]
    exact path.append_root _ (path.is_absolute_renderItems its hplain.1)
  · intro d n x path_str hdn hx hunbound hundeclared hel
    have hdsome : (descend (buildRoot config) d).isSome :=
      (descend_foldl_isSome config.host_files FSNode.default d).mpr
        (Or.inr ⟨e, he, [n], hdn⟩)
    obtain ⟨dir, hdir⟩ := Option.isSome_iff_exists.mp hdsome
    have hdirhost : dir.host_path = "" := by
      have := boundAt_foldl_of_ne config.host_files FSNode.default d hunbound
      rw [boundAt_default] at this
      unfold buildRoot at hdir
      simpa [boundAt, hdir] using this
    have hnone : descend (buildRoot config) (d ++ [x]) = none := by
      cases hc : descend (buildRoot config) (d ++ [x]) with
      | none => rfl
      | some c =>
        exfalso
        have hs : (descend (buildRoot config) (d ++ [x])).isSome := by simp [hc]
        rcases (descend_foldl_isSome config.host_files FSNode.default (d ++ [x])).mp hs
          with h1 | ⟨e2, he2, u, hu⟩
        · rw [descend_default] at h1
          simp at h1
        · exact hundeclared e2 he2 u (by simpa using hu)
    have hchild : unordered_map.find dir.entries x = none := by
      rw [descend_append_single, hdir] at hnone
      exact hnone
    have hddd : ".." ∉ d := by
      intro hc
      apply hnodd
      rw [← hsegs, hdn]
      exact List.mem_append_left _ hc
    have hw := walk_missing_child (buildRoot config) dir "" d x hddd hx hdir hdirhost hchild
    have hpne : path.lexically_normal path_str ≠ "" := by
      intro hc
      rw [hc] at hel
      have hnil : path.elements "" = [] := by decide
      rw [hnil] at hel
      simp at hel
    have hres2 : resolve (WASIFileSystem.new config) 3 path_str = .error 44 := by
      unfold resolve
      simp only [hfd, path.empty, hpne, decide_False, Bool.false_eq_true, if_false, hel, hw]
    constructor
    · simp [fopenArg, hres2]
    · intro fopen
      simp [OpenFile, hres2]


/-- C6 (amended) at a concrete input: the first mapping of the test configuration
`OnlyFiles`; for the last part, `cats.txt` is not declared under the unbound directory
`/a/m`, and opening `a/m/cats.txt` returns 44. -/
theorem C6_mapped_files_witness :
    ((∀ e ∈ twoFiles.host_files, e.host_path ≠ "") ∧
      (∀ e ∈ twoFiles.host_files,
        path.is_absolute e.vm_path = true ∧ path.lexically_normal e.vm_path = e.vm_path) ∧
      (twoFiles.host_files.Pairwise fun a b => a.vm_path ≠ b.vm_path) ∧
      (⟨"h/a.txt", "/a/m/a.txt"⟩ : HostFile) ∈ twoFiles.host_files ∧
      (⟨"h/a.txt", "/a/m/a.txt"⟩ : HostFile).vm_path ≠ "/") ∧
    (fopenArg (WASIFileSystem.new twoFiles) 3 (path.dropRoot "/a/m/a.txt") = some "h/a.txt" ∧
    (∀ (fopen : String → Except Int Nat) (file : Nat), fopen "h/a.txt" = .ok file →
      (OpenFile fopen (WASIFileSystem.new twoFiles) 3 (path.dropRoot "/a/m/a.txt")).status = 0 ∧
      ∃ fd opened,
        (OpenFile fopen (WASIFileSystem.new twoFiles) 3 (path.dropRoot "/a/m/a.txt")).fdOut
          = some fd ∧
        fd ≠ 3 ∧
        GetOpenedFile
            (OpenFile fopen (WASIFileSystem.new twoFiles) 3 (path.dropRoot "/a/m/a.txt")).fs fd
          = (0, some opened) ∧
        opened.vm_path = "/a/m/a.txt" ∧ opened.file = some file ∧
        opened.node.host_path = "h/a.txt") ∧
    (∀ (d : List String) (n x path_str : String),
      vmSegments ⟨"h/a.txt", "/a/m/a.txt"⟩ = d ++ [n] → x ≠ ".." →
      (∀ e2 ∈ twoFiles.host_files, vmSegments e2 ≠ d) →
      (∀ e2 ∈ twoFiles.host_files, ∀ u, vmSegments e2 ≠ d ++ x :: u) →
      path.elements (path.lexically_normal path_str) = d ++ [x] →
      fopenArg (WASIFileSystem.new twoFiles) 3 path_str = none ∧
      ∀ fopen : String → Except Int Nat,
        (OpenFile fopen (WASIFileSystem.new twoFiles) 3 path_str).status = 44)) ∧
    (∀ fopen : String → Except Int Nat,
      (OpenFile fopen (WASIFileSystem.new twoFiles) 3 "a/m/cats.txt").status = 44) :=
  ⟨by decide,
    C6_mapped_files twoFiles (by decide) (by decide) (by decide) ⟨"h/a.txt", "/a/m/a.txt"⟩
      (by decide) (by decide),
    fun fopen => ((C6_mapped_files twoFiles (by decide) (by decide) (by decide) ⟨"h/a.txt", "/a/m/a.txt"⟩
      (by decide) (by decide)).2.2 ["a", "m"] "a.txt" "cats.txt" "a/m/cats.txt" (by decide)
      (by decide) (by decide)
      (by
        intro e2 he2 u
        have : e2 = ⟨"h/a.txt", "/a/m/a.txt"⟩ ∨ e2 = ⟨"h/b.txt", "/a/m/b.txt"⟩ := by
          simpa [twoFiles] using he2
        rcases this with rfl | rfl
        · have hs : vmSegments ⟨"h/a.txt", "/a/m/a.txt"⟩ = ["a", "m", "a.txt"] := by decide
          rw [hs]
          intro hc
          have := (List.cons.inj (List.cons.inj (List.cons.inj hc).2).2).1
          exact absurd this (by decide)
        · have hs : vmSegments ⟨"h/b.txt", "/a/m/b.txt"⟩ = ["a", "m", "b.txt"] := by decide
          rw [hs]
          intro hc
          have := (List.cons.inj (List.cons.inj (List.cons.inj hc).2).2).1
          exact absurd this (by decide))
      (by decide)).2 fopen⟩

/-! ## The tests of the repository (`test/wasifs_test.cc`) -/

/-- The expectations of `TEST(WASIFileSystem, Empty)`. -/
theorem test_Empty :
    (GetOpenedFile (WASIFileSystem.new ⟨[]⟩) 3).1 = 0 ∧
    ((GetOpenedFile (WASIFileSystem.new ⟨[]⟩) 3).2.map fun o =>
      (o.vm_path, o.file, o.node.host_path, o.node.entries.length)) = some ("/", none, "", 0) ∧
    (GetOpenedFile (WASIFileSystem.new ⟨[]⟩) 4).1 = 8 ∧
    (OpenFile testHost (WASIFileSystem.new ⟨[]⟩) 4 "/animals/mammals/bear.txt").status = 8 ∧
    (OpenFile testHost (WASIFileSystem.new ⟨[]⟩) 3 "/animals/mammals/bears.txt").status = 44 ∧
    (OpenFile testHost (WASIFileSystem.new ⟨[]⟩) 3 "").status = 28 ∧
    (OpenFile testHost (WASIFileSystem.new ⟨[]⟩) 3 "../password.txt").status = 28 ∧
    (OpenFile testHost (WASIFileSystem.new ⟨[]⟩) 3 "././../password.txt").status = 28 ∧
    (OpenFile testHost (WASIFileSystem.new ⟨[]⟩) 3 "././../foo/../password.txt").status
      = 28 := by
  decide

/-- The expectations of `TEST(WASIFileSystem, OverlappingDirs)`. -/
theorem test_OverlappingDirs :
    (OpenFile testHost (WASIFileSystem.new overlappingDirs) 3
      "animals/mammals/apes.txt").status = 0 ∧
    (OpenFile testHost (WASIFileSystem.new overlappingDirs) 3
      "animals/mammals/bears.txt").status = 0 ∧
    (OpenFile testHost (WASIFileSystem.new overlappingDirs) 3
      "animals/birds/cartoons.txt").status = 0 ∧
    (OpenFile testHost (WASIFileSystem.new overlappingDirs) 3
      "animals/birds/dinosaurs.txt").status = 0 ∧
    (OpenFile testHost (WASIFileSystem.new overlappingDirs) 3
      "animals/mammals/cats.txt").status = 44 := by
  decide


/-- The expectations of `TEST(WASIFileSystem, OnlyFiles)`: the open of `apes.txt`, the
lookup of the new descriptor, its close, the lookup after the close, and the opens of
`bears.txt` and of the undeclared `cats.txt`. -/
theorem test_OnlyFiles :
    (OpenFile testHost (WASIFileSystem.new onlyFiles) 3 "animals/mammals/apes.txt").status = 0 ∧
    (OpenFile testHost (WASIFileSystem.new onlyFiles) 3 "animals/mammals/apes.txt").fdOut
      = some 4 ∧
    ((GetOpenedFile
        (OpenFile testHost (WASIFileSystem.new onlyFiles) 3 "animals/mammals/apes.txt").fs
        4).2.map fun o => (o.vm_path, o.file.isSome, o.node.host_path))
      = some ("/animals/mammals/apes.txt", true,
          "test/test_data/fs/animals/mammals/apes.txt") ∧
    (CloseFile
      (OpenFile testHost (WASIFileSystem.new onlyFiles) 3 "animals/mammals/apes.txt").fs
      4).1 = 0 ∧
    (GetOpenedFile
      (CloseFile
        (OpenFile testHost (WASIFileSystem.new onlyFiles) 3 "animals/mammals/apes.txt").fs
        4).2 4).1 = 8 ∧
    (OpenFile testHost
      (CloseFile
        (OpenFile testHost (WASIFileSystem.new onlyFiles) 3 "animals/mammals/apes.txt").fs
        4).2 3 "animals/mammals/bears.txt").status = 0 ∧
    (OpenFile testHost (WASIFileSystem.new onlyFiles) 3 "animals/mammals/cats.txt").status
      = 44 := by
  decide

/-- The expectations of `TEST(WASIFileSystem, OneDir)` and of `TEST(WASIFileSystem,
TwoDirs)`; the last open of each fails on the host, which does not have `cats.txt`. -/
theorem test_OneDir_TwoDirs :
    ((OpenFile testHost (WASIFileSystem.new oneDir) 3 "animals/mammals/apes.txt").status = 0 ∧
      (OpenFile testHost (WASIFileSystem.new oneDir) 3 "animals/mammals/bears.txt").status = 0 ∧
      (OpenFile testHost (WASIFileSystem.new oneDir) 3 "animals/birds/cartoons.txt").status = 0 ∧
      (OpenFile testHost (WASIFileSystem.new oneDir) 3 "animals/birds/dinosaurs.txt").status
        = 0 ∧
      (OpenFile testHost (WASIFileSystem.new oneDir) 3 "animals/mammals/cats.txt").status = 44 ∧
      fopenArg (WASIFileSystem.new oneDir) 3 "animals/mammals/cats.txt"
        = some "test/test_data/fs/animals/mammals/cats.txt") ∧
    ((OpenFile testHost (WASIFileSystem.new twoDirs) 3 "animals/mammals/apes.txt").status = 0 ∧
      (OpenFile testHost (WASIFileSystem.new twoDirs) 3 "animals/mammals/bears.txt").status = 0 ∧
      (OpenFile testHost (WASIFileSystem.new twoDirs) 3 "animals/birds/cartoons.txt").status = 0 ∧
      (OpenFile testHost (WASIFileSystem.new twoDirs) 3 "animals/birds/dinosaurs.txt").status
        = 0 ∧
      (OpenFile testHost (WASIFileSystem.new twoDirs) 3 "animals/mammals/cats.txt").status
        = 44) := by
  decide

/-! ## Failed opens -/

/-- C11: whenever `OpenFile` returns a non-zero status, whatever the reason, it stores no
descriptor and the file system (the open table, the descriptor counter and the trie) is
exactly as before the call; so every descriptor looks up as before, and every later call
of `OpenFile` gives the result it would have given without the failed call. -/
theorem C11_failed_open_atomic (fopen : String → Except Int Nat) (fs : WASIFileSystem)
    (fd : Nat) (path_str : String) (h : (OpenFile fopen fs fd path_str).status ≠ 0) :
    (OpenFile fopen fs fd path_str).fdOut = none ∧
    (OpenFile fopen fs fd path_str).fs = fs ∧
    (OpenFile fopen fs fd path_str).fs.opened_files_ = fs.opened_files_ ∧
    (OpenFile fopen fs fd path_str).fs.last_fd_ = fs.last_fd_ ∧
    (OpenFile fopen fs fd path_str).fs.root_ = fs.root_ ∧
    (∀ k, GetOpenedFile (OpenFile fopen fs fd path_str).fs k = GetOpenedFile fs k) ∧
    (∀ (fopen2 : String → Except Int Nat) (fd2 : Nat) (path2 : String),
      OpenFile fopen2 (OpenFile fopen fs fd path_str).fs fd2 path2
        = OpenFile fopen2 fs fd2 path2) := by
  rcases OpenFile_cases fopen fs fd path_str with ⟨hnone, hfs⟩ | ⟨hst, -⟩
  · refine ⟨hnone, hfs, ?_, ?_, ?_, ?_, ?_⟩
    · rw [hfs]
    · rw [hfs]
    · rw [hfs]
    · intro k
      rw [hfs]
    · intro fopen2 fd2 path2
      rw [hfs]
  · exact absurd hst h

/-- C11 at concrete inputs: on the test configuration `OnlyFiles` the open of the
undeclared `cats.txt` fails with 44 and leaves the file system as it was. -/
theorem C11_failed_open_atomic_witness :
    (OpenFile testHost (WASIFileSystem.new onlyFiles) 3 "animals/mammals/cats.txt").status
        ≠ 0 ∧
    ((OpenFile testHost (WASIFileSystem.new onlyFiles) 3 "animals/mammals/cats.txt").fdOut
        = none ∧
    (OpenFile testHost (WASIFileSystem.new onlyFiles) 3 "animals/mammals/cats.txt").fs
        = WASIFileSystem.new onlyFiles ∧
    (OpenFile testHost (WASIFileSystem.new onlyFiles) 3
        "animals/mammals/cats.txt").fs.opened_files_
        = (WASIFileSystem.new onlyFiles).opened_files_ ∧
    (OpenFile testHost (WASIFileSystem.new onlyFiles) 3 "animals/mammals/cats.txt").fs.last_fd_
        = (WASIFileSystem.new onlyFiles).last_fd_ ∧
    (OpenFile testHost (WASIFileSystem.new onlyFiles) 3 "animals/mammals/cats.txt").fs.root_
        = (WASIFileSystem.new onlyFiles).root_ ∧
    (∀ k, GetOpenedFile
        (OpenFile testHost (WASIFileSystem.new onlyFiles) 3 "animals/mammals/cats.txt").fs k
        = GetOpenedFile (WASIFileSystem.new onlyFiles) k) ∧
    (∀ (fopen2 : String → Except Int Nat) (fd2 : Nat) (path2 : String),
      OpenFile fopen2
          (OpenFile testHost (WASIFileSystem.new onlyFiles) 3 "animals/mammals/cats.txt").fs
          fd2 path2
        = OpenFile fopen2 (WASIFileSystem.new onlyFiles) fd2 path2)) :=
  ⟨by decide,
    C11_failed_open_atomic testHost (WASIFileSystem.new onlyFiles) 3 "animals/mammals/cats.txt"
      (by decide)⟩

/-! ## The state after construction -/

/-- C12: for every configuration, immediately after construction the open table holds
exactly one descriptor, 3; its entry has guest path `/`, no native handle, and as node
the root of the trie, which is the trie built from the configuration; the counter is 3.
For the empty configuration the root has no bound host path and no children. -/
theorem C12_initial_state (config : FileSystemConfig) :
    (WASIFileSystem.new config).opened_files_
        = [(3, ⟨"/", (WASIFileSystem.new config).root_, none⟩)] ∧
    (∀ fd, (unordered_map.find (WASIFileSystem.new config).opened_files_ fd).isSome ↔ fd = 3) ∧
    (∃ opened, GetOpenedFile (WASIFileSystem.new config) 3 = (0, some opened) ∧
      opened.vm_path = "/" ∧ opened.file = none ∧
      opened.node = (WASIFileSystem.new config).root_) ∧
    (WASIFileSystem.new config).root_ = buildRoot config ∧
    (WASIFileSystem.new config).last_fd_ = 3 ∧
    ((WASIFileSystem.new ⟨[]⟩).root_.host_path = "" ∧
      (WASIFileSystem.new ⟨[]⟩).root_.entries = []) := by
  refine ⟨rfl, ?_, ⟨⟨"/", buildRoot config, none⟩, rfl, rfl, rfl, rfl⟩, rfl, rfl, rfl, rfl⟩
  intro fd
  have hop : (WASIFileSystem.new config).opened_files_
      = [(3, ⟨"/", buildRoot config, none⟩)] := rfl
  rw [hop]
  by_cases h : fd = 3
  · subst h
    simp [unordered_map.find]
  · have h2 : ¬ 3 = fd := fun e => h e.symm
    simp [unordered_map.find, h, h2]

/-! ## The error translator -/

/-- The table of `errnoToWASI`: its 75 labels are mapped to 1, 2, ..., 75 in their
order. -/
theorem errnoToWASI_errnoTable :
    errnoTable.length = 75 ∧
      errnoTable.map errnoToWASI = (List.range 75).map fun i => (i : Int) + 1 := by
  decide

/-- The chain of tests of `errnoToWASI` is the `switch` over its table, counted from 1. -/
theorem errnoToWASI_eq_switchOver (e : Int) : errnoToWASI e = switchOver errnoTable 1 e := by
  rfl

theorem switchOver_range (labels : List Int) (first e : Int) :
    switchOver labels first e = 21 ∨
      (first ≤ switchOver labels first e ∧
        switchOver labels first e < first + labels.length) := by
  induction labels generalizing first with
  | nil => exact Or.inl rfl
  | cons label rest ih =>
    unfold switchOver
    split
    · right
      simp only [List.length_cons, Nat.cast_add, Nat.cast_one]
      omega
    · rcases ih (first + 1) with h | h
      · exact Or.inl h
      · right
        simp only [List.length_cons, Nat.cast_add, Nat.cast_one]
        omega

theorem switchOver_of_not_mem (labels : List Int) (first e : Int) (h : e ∉ labels) :
    switchOver labels first e = 21 := by
  induction labels generalizing first with
  | nil => rfl
  | cons label rest ih =>
    have h1 : e ≠ label := fun hc => h (by simp [hc])
    have h2 : e ∉ rest := fun hc => h (by simp [hc])
    simp [switchOver, h1, ih _ h2]

/-- C14: for every integer `e`, zero and negative values included, `errnoToWASI e` is not
zero and lies between 1 and 75. -/
theorem C14_errnoToWASI_range (e : Int) :
    errnoToWASI e ≠ 0 ∧ 1 ≤ errnoToWASI e ∧ errnoToWASI e ≤ 75 := by
  rw [errnoToWASI_eq_switchOver]
  have hlen : (errnoTable.length : Int) = 75 := by decide
  rcases switchOver_range errnoTable 1 e with h | h
  · rw [h]
    decide
  · rw [hlen] at h
    omega

/-- C15: `errnoToWASI` maps `EBADF`, `EINVAL` and `ENOENT` to 8, 28 and 44, and every
integer that is not one of the 75 labels of its table to the generic fault code 21. -/
theorem C15_errnoToWASI_table :
    errnoToWASI EBADF = 8 ∧ errnoToWASI EINVAL = 28 ∧ errnoToWASI ENOENT = 44 ∧
      ∀ e : Int, e ∉ errnoTable → errnoToWASI e = 21 := by
  refine ⟨by decide, by decide, by decide, fun e he => ?_⟩
  rw [errnoToWASI_eq_switchOver]
  exact switchOver_of_not_mem errnoTable 1 e he

/-- C15 at concrete inputs: 0, a negative value and a value beyond the table are not
labels of the table and are mapped to 21. -/
theorem C15_errnoToWASI_table_witness :
    ((0 : Int) ∉ errnoTable ∧ (-1 : Int) ∉ errnoTable ∧ (1000 : Int) ∉ errnoTable) ∧
    (errnoToWASI 0 = 21 ∧ errnoToWASI (-1) = 21 ∧ errnoToWASI 1000 = 21) :=
  ⟨by decide,
    C15_errnoToWASI_table.2.2.2 0 (by decide),
    C15_errnoToWASI_table.2.2.2 (-1) (by decide),
    C15_errnoToWASI_table.2.2.2 1000 (by decide)⟩

/-! ## Closing -/

/-- C18: for every state and every descriptor `fd` present in the open table, whatever
its entry (with or without a native handle), `CloseFile(fd)` returns 0; the table that
results is the previous one with `fd` erased: `fd` is no longer found, every other
descriptor is found with the same entry as before, and the descriptor counter and the
trie are unchanged. -/
theorem C18_close_frame (fs : WASIFileSystem) (fd : Nat) (entry : OpenedFile)
    (h : unordered_map.find fs.opened_files_ fd = some entry) :
    (CloseFile fs fd).1 = 0 ∧
    (CloseFile fs fd).2.opened_files_ = unordered_map.erase fs.opened_files_ fd ∧
    unordered_map.find (CloseFile fs fd).2.opened_files_ fd = none ∧
    (∀ k, k ≠ fd →
      unordered_map.find (CloseFile fs fd).2.opened_files_ k
        = unordered_map.find fs.opened_files_ k) ∧
    (CloseFile fs fd).2.last_fd_ = fs.last_fd_ ∧
    (CloseFile fs fd).2.root_ = fs.root_ := by
  have hst : (CloseFile fs fd).1 = 0 := by
    rw [CloseFile_status, h]
    rfl
  have hop := CloseFile_opened fs fd hst
  refine ⟨hst, hop, ?_, ?_, ?_, ?_⟩
  · rw [hop]
    exact unordered_map.find_erase_self _ _
  · intro k hk
    rw [hop]
    exact unordered_map.find_erase_ne _ _ _ hk
  · simp [CloseFile, h]
  · simp [CloseFile, h]

/-- C18 at a concrete input: on a fresh file system the root descriptor 3, which has no
native handle, is closed with status 0. -/
theorem C18_close_frame_witness :
    unordered_map.find (WASIFileSystem.new twoFiles).opened_files_ 3
        = some ⟨"/", buildRoot twoFiles, none⟩ ∧
    ((CloseFile (WASIFileSystem.new twoFiles) 3).1 = 0 ∧
    (CloseFile (WASIFileSystem.new twoFiles) 3).2.opened_files_
        = unordered_map.erase (WASIFileSystem.new twoFiles).opened_files_ 3 ∧
    unordered_map.find (CloseFile (WASIFileSystem.new twoFiles) 3).2.opened_files_ 3 = none ∧
    (∀ k, k ≠ 3 →
      unordered_map.find (CloseFile (WASIFileSystem.new twoFiles) 3).2.opened_files_ k
        = unordered_map.find (WASIFileSystem.new twoFiles).opened_files_ k) ∧
    (CloseFile (WASIFileSystem.new twoFiles) 3).2.last_fd_
        = (WASIFileSystem.new twoFiles).last_fd_ ∧
    (CloseFile (WASIFileSystem.new twoFiles) 3).2.root_
        = (WASIFileSystem.new twoFiles).root_) :=
  ⟨rfl, C18_close_frame (WASIFileSystem.new twoFiles) 3 ⟨"/", buildRoot twoFiles, none⟩ rfl⟩

/-! ## The trie against its reference definition -/

theorem path.elements_head_of_relative (p : String) (h : path.is_absolute p = false) :
    (path.elements p).head? ≠ some "/" := by
  have hroot : (path.parse p).root = false := h
  have hwf := path.parse_wellFormed p
  unfold path.elements
  simp only [hroot, Bool.false_eq_true, if_false, List.nil_append]
  cases hi : (path.parse p).items with
  | nil => simp
  | cons i rest =>
    have hname : path.IsName i.name := hwf.1 i (by rw [hi]; simp)
    simp only [List.map_cons, List.cons_append, List.head?_cons, ne_eq, Option.some.injEq]
    intro hc
    apply hname.2
    rw [hc]
    decide

theorem path.elements_head_of_absolute (p : String) (h : path.is_absolute p = true) :
    (path.elements p).head? = some "/" := by
  have hroot : (path.parse p).root = true := h
  unfold path.elements
  simp [hroot]

/-- The segments of the reference definition are the path entries the constructor
walks. -/
theorem specSegments_eq_vmSegments (e : HostFile) : specSegments e = vmSegments e := by
  unfold specSegments vmSegments specGuestPath
  by_cases hv : e.vm_path = ""
  · simp only [hv, if_true, ne_eq, not_true_eq_false, if_false]
    cases ha : path.is_absolute e.host_path with
    | true => simp [path.elements_head_of_absolute _ ha]
    | false => simp [path.elements_head_of_relative _ ha]
  · simp only [hv, if_false, ne_eq, not_false_eq_true, if_true]
    cases ha : path.is_absolute e.vm_path with
    | true => simp [path.elements_head_of_absolute _ ha]
    | false => simp [path.elements_head_of_relative _ ha]

theorem boundAt_foldl_last (L : List HostFile) (n : FSNode) (s : List String) :
    boundAt (L.foldl addHostFile n) s =
      match (L.filter fun e => decide (vmSegments e = s)).getLast? with
      | some e => e.host_path
      | none => boundAt n s := by
  induction L generalizing n with
  | nil => rfl
  | cons x L ih =>
    rw [List.foldl_cons, ih]
    by_cases hx : vmSegments x = s
    · rw [List.filter_cons_of_pos (by simpa using hx)]
      cases hl : (L.filter fun e => decide (vmSegments e = s)) with
      | nil =>
        simp only [List.getLast?_nil, List.getLast?_singleton]
        unfold addHostFile
        rw [boundAt_insertPath, if_pos hx.symm]
      | cons y rest =>
        rw [List.getLast?_cons_cons]
        have hsome : (y :: rest).getLast? = some ((y :: rest).getLast (by simp)) :=
          List.getLast?_eq_getLast _ _
        rw [hsome]
    · rw [List.filter_cons_of_neg (by simpa using hx)]
      cases hl : (L.filter fun e => decide (vmSegments e = s)).getLast? with
      | some e => rfl
      | none =>
        simp only
        unfold addHostFile
        rw [boundAt_insertPath, if_neg (fun hc => hx hc.symm)]

/-- C13, as stated, fails for the empty mapping list: the trie built from it has a node
at the empty segment sequence (the root), and there is no mapping of whose segment
sequence the empty sequence could be a leading part. -/
theorem C13_root_without_mapping :
    (descend (buildRoot ⟨[]⟩) []).isSome = true ∧ ¬ specHasNode [] [] := by
  refine ⟨rfl, ?_⟩
  rintro ⟨e, he, -⟩
  simp at he

/-- C13, amended: for every mapping list `L` and every segment sequence `s`, the trie
built by the constructor has a node at `s` exactly when `s` is empty (the root, which
exists for every list) or `s` is a leading part of the guest segment sequence of some
mapping of `L`; and the host path of a node at `s` is the `host_path` of the last mapping
of `L` whose guest segment sequence is `s`, and is empty when there is no such mapping.
The guest segment sequence (of `vm_path`, or of `host_path` when `vm_path` is empty, with
a leading root marker dropped) is the sequence of path entries the constructor walks. -/
theorem C13_trie_reference (L : List HostFile) (s : List String) :
    ((descend (buildRoot ⟨L⟩) s).isSome ↔ (s = [] ∨ specHasNode L s)) ∧
    (∀ node, descend (buildRoot ⟨L⟩) s = some node → node.host_path = specBound L s) ∧
    (∀ e, specSegments e = vmSegments e) := by
  have hseg : (fun e : HostFile => decide (specSegments e = s))
      = fun e => decide (vmSegments e = s) := by
    funext e
    rw [specSegments_eq_vmSegments]
  refine ⟨?_, ?_, specSegments_eq_vmSegments⟩
  · unfold buildRoot specHasNode
    rw [descend_foldl_isSome, descend_default]
    simp only [specSegments_eq_vmSegments]
    constructor
    · rintro (h | h)
      · left
        by_contra hne
        simp [hne] at h
      · exact Or.inr h
    · rintro (h | h)
      · left
        simp [h]
      · exact Or.inr h
  · intro node hnode
    have hb := boundAt_foldl_last L FSNode.default s
    unfold buildRoot at hnode
    unfold specBound
    rw [hseg]
    simp only [boundAt, hnode, descend_default] at hb
    rw [hb]
    cases (L.filter fun e => decide (vmSegments e = s)).getLast? with
    | some e => rfl
    | none =>
      simp only
      split
      · rename_i n hn
        split at hn
        · cases hn
          rfl
        · cases hn
      · rfl


/-- C13 (amended) at a concrete list, in which `/animals` is mapped twice: the node at
`animals` exists and carries the host path of the later mapping, the node at
`animals`, `mammals` the one of its only mapping, and there is no node at `birds`. -/
theorem C13_trie_reference_witness :
    (∃ node, descend (buildRoot ⟨[⟨"A", "/animals"⟩, ⟨"M", "/animals/mammals"⟩,
        ⟨"B", "/animals"⟩]⟩) ["animals"] = some node ∧ node.host_path = "B") ∧
    (∃ node, descend (buildRoot ⟨[⟨"A", "/animals"⟩, ⟨"M", "/animals/mammals"⟩,
        ⟨"B", "/animals"⟩]⟩) ["animals", "mammals"] = some node ∧ node.host_path = "M") ∧
    (descend (buildRoot ⟨[⟨"A", "/animals"⟩, ⟨"M", "/animals/mammals"⟩,
        ⟨"B", "/animals"⟩]⟩) ["birds"]).isSome = false := by
  have h1 := C13_trie_reference
    [⟨"A", "/animals"⟩, ⟨"M", "/animals/mammals"⟩, ⟨"B", "/animals"⟩] ["animals"]
  have h2 := C13_trie_reference
    [⟨"A", "/animals"⟩, ⟨"M", "/animals/mammals"⟩, ⟨"B", "/animals"⟩] ["animals", "mammals"]
  have h3 := C13_trie_reference
    [⟨"A", "/animals"⟩, ⟨"M", "/animals/mammals"⟩, ⟨"B", "/animals"⟩] ["birds"]
  refine ⟨?_, ?_, ?_⟩
  · obtain ⟨node, hn⟩ := Option.isSome_iff_exists.mp
      (h1.1.mpr (Or.inr ⟨⟨"A", "/animals"⟩, by simp, [], by decide⟩))
    exact ⟨node, hn, (h1.2.1 node hn).trans (by decide)⟩
  · obtain ⟨node, hn⟩ := Option.isSome_iff_exists.mp
      (h2.1.mpr (Or.inr ⟨⟨"M", "/animals/mammals"⟩, by simp, [], by decide⟩))
    exact ⟨node, hn, (h2.2.1 node hn).trans (by decide)⟩
  · cases hb : (descend (buildRoot ⟨[⟨"A", "/animals"⟩, ⟨"M", "/animals/mammals"⟩,
        ⟨"B", "/animals"⟩]⟩) ["birds"]).isSome with
    | false => rfl
    | true =>
      exfalso
      rcases h3.1.mp hb with hc | ⟨e, he, u, hu⟩
      · cases hc
      · simp only [List.mem_cons, List.mem_singleton, List.not_mem_nil, or_false] at he
        rcases he with rfl | rfl | rfl
        · have : specSegments ⟨"A", "/animals"⟩ = ["animals"] := by decide
          rw [this] at hu
          exact absurd (List.cons.inj hu).1 (by decide)
        · have : specSegments ⟨"M", "/animals/mammals"⟩ = ["animals", "mammals"] := by decide
          rw [this] at hu
          exact absurd (List.cons.inj hu).1 (by decide)
        · have : specSegments ⟨"B", "/animals"⟩ = ["animals"] := by decide
          rw [this] at hu
          exact absurd (List.cons.inj hu).1 (by decide)

/-! ## Fallback to a bound node -/

theorem walk_descend_unmatched (n m : FSNode) (host_path : String) (d : List String)
    (e : String) (rest : List String) (hdd : ".." ∉ d) (he : e ≠ "..")
    (hd : descend n d = some m) (hfind : unordered_map.find m.entries e = none) :
    walk n host_path (d ++ e :: rest) =
      if path.empty m.host_path then .error 44
      else .ok (m, (e :: rest).foldl path.append m.host_path) := by
  induction d generalizing n host_path with
  | nil =>
    simp only [descend, Option.some.injEq] at hd
    subst hd
    exact walk_unmatched n host_path e rest he hfind
  | cons x d ih =>
    have hx : x ≠ ".." := fun hc => hdd (by simp [hc])
    have hd2 : ".." ∉ d := fun hc => hdd (by simp [hc])
    cases hf : unordered_map.find n.entries x with
    | none => simp [descend, hf] at hd
    | some child =>
      rw [List.cons_append, walk_matched n child host_path x _ hx hf]
      simp only [descend, hf] at hd
      exact ih child child.host_path hd2 hd

theorem resolve_of_elements (fs : WASIFileSystem) (fd : Nat) (path_str : String)
    (parent : OpenedFile) (hfd : unordered_map.find fs.opened_files_ fd = some parent)
    (hne : path.elements (path.lexically_normal path_str) ≠ []) :
    resolve fs fd path_str =
      match walk parent.node "" (path.elements (path.lexically_normal path_str)) with
      | .error status => .error status
      | .ok (node, host_path) =>
        .ok ⟨parent, path.lexically_normal path_str, node, host_path⟩ := by
  have hpne : path.lexically_normal path_str ≠ "" := by
    intro hc
    rw [hc] at hne
    exact hne (by decide)
  unfold resolve
  simp only [hfd, path.empty, hpne, decide_False, Bool.false_eq_true, if_false]

namespace path

theorem is_absolute_of_isName (n : String) (h : IsName n) : is_absolute n = false := by
  simpa using is_absolute_name_append n "" h

theorem joinable_cons_of_ne_nil (s : String) (rest : List String) (hne : rest ≠ []) :
    Joinable (s :: rest) ↔ IsName s ∧ Joinable rest := by
  cases rest with
  | nil => exact absurd rfl hne
  | cons t rest2 => simp [Joinable]

theorem joinable_names_append (l t : List String) (hl : ∀ s ∈ l, IsName s) (ht : Joinable t) :
    Joinable (l ++ t) := by
  induction l with
  | nil => exact ht
  | cons x l ih =>
    have hx : IsName x := hl x (by simp)
    have ih := ih fun s hs => hl s (by simp [hs])
    by_cases hne : l ++ t = []
    · rw [List.cons_append, hne]
      exact is_absolute_of_isName x hx
    · rw [List.cons_append, joinable_cons_of_ne_nil x _ hne]
      exact ⟨hx, ih⟩

theorem joinable_of_append (d l : List String) (hne : l ≠ []) (h : Joinable (d ++ l)) :
    Joinable l := by
  induction d with
  | nil => exact h
  | cons x d ih =>
    have hne2 : d ++ l ≠ [] := by simp [hne]
    rw [List.cons_append, joinable_cons_of_ne_nil x _ hne2] at h
    exact ih h.2

/-- The elements of the normal form of a relative pathname can be joined to a host path
without replacing it: none of them is absolute. -/
theorem joinable_elements_normal (p : String) (hrel : is_absolute p = false) :
    Joinable (elements (lexically_normal p)) := by
  have hroot : (parse p).root = false := hrel
  unfold lexically_normal
  by_cases hp : p = ""
  · rw [if_pos hp]
    have : elements "" = [] := by decide
    rw [this]
    trivial
  · rw [if_neg hp]
    simp only
    by_cases hdot : (parse p).root = false ∧ normalItems (parse p) = []
    · rw [if_pos hdot]
      have : elements "." = ["."] := by decide
      rw [this]
      show is_absolute "." = false
      decide
    · rw [if_neg hdot, hroot]
      have hwf := normalItems_wellFormed (parse p) (parse_wellFormed p)
      rw [elements_render false _ hwf]
      simp only [Bool.false_eq_true, if_false, List.nil_append]
      apply joinable_names_append
      · intro s hs
        obtain ⟨i, hi, rfl⟩ := List.mem_map.mp hs
        exact hwf.1 i hi
      · split
        · split
          · show is_absolute "" = false
            decide
          · trivial
        · trivial

theorem is_absolute_joinElements (segs : List String) (h : Joinable segs) :
    is_absolute (joinElements segs) = false := by
  cases segs with
  | nil => decide
  | cons s rest =>
    cases rest with
    | nil => exact h
    | cons t rest2 =>
      have hs : IsName s := ((joinable_cons_of_ne_nil s _ (by simp)).mp h).1
      rw [joinElements_cons_cons, String.append_assoc]
      exact is_absolute_name_append s _ hs

/-- Joining entries to a host path one after the other, as the pass-through loop does,
is joining the pathname written from the entries. -/
theorem foldl_append_joinElements (segs : List String) (hne : segs ≠ []) (h : Joinable segs)
    (host : String) :
    segs.foldl append host = append host (joinElements segs) := by
  induction segs generalizing host with
  | nil => exact absurd rfl hne
  | cons s rest ih =>
    cases rest with
    | nil => rfl
    | cons t rest2 =>
      obtain ⟨hs, hrest⟩ := (joinable_cons_of_ne_nil s _ (by simp)).mp h
      rw [List.foldl_cons, ih (by simp) hrest (append host s),
        append_append_name host s _ hs (is_absolute_joinElements _ hrest),
        joinElements_cons_cons, String.append_assoc]

theorem append_relative_tail (a b : String) (h : is_absolute b = false) :
    ∃ tail, append a b = a ++ tail := by
  rw [append_of_relative a b h]
  split
  · exact ⟨"/" ++ b, by rw [String.append_assoc]⟩
  · exact ⟨b, rfl⟩

end path

/-- C16, as stated, fails on its own example: with `A` mapped to `/animals` and `X` to
`/animals/mammals/apes.txt`, the node `animals` is bound to `A`, the path
`animals/mammals/bears.txt` has no node of its own and the only node between, `mammals`,
is not bound; but the descent goes on into `mammals`, where `bears.txt` is missing and no
host path is bound, so `OpenFile` returns 44 and nothing is handed to `fopen`. -/
theorem C16_unbound_intermediate :
    (boundAt (buildRoot ⟨[⟨"A", "/animals"⟩, ⟨"X", "/animals/mammals/apes.txt"⟩]⟩) ["animals"]
        = "A" ∧
      descend (buildRoot ⟨[⟨"A", "/animals"⟩, ⟨"X", "/animals/mammals/apes.txt"⟩]⟩)
        ["animals", "mammals", "bears.txt"] = none ∧
      boundAt (buildRoot ⟨[⟨"A", "/animals"⟩, ⟨"X", "/animals/mammals/apes.txt"⟩]⟩)
        ["animals", "mammals"] = "") ∧
    fopenArg (WASIFileSystem.new ⟨[⟨"A", "/animals"⟩, ⟨"X", "/animals/mammals/apes.txt"⟩]⟩) 3
        "animals/mammals/bears.txt" = none ∧
    (OpenFile (hostAny 1)
        (WASIFileSystem.new ⟨[⟨"A", "/animals"⟩, ⟨"X", "/animals/mammals/apes.txt"⟩]⟩) 3
        "animals/mammals/bears.txt").status = 44 := by
  refine ⟨⟨by decide, ?_, by decide⟩, by decide, by decide⟩
  rfl

/-- C16, amended: for every state, every open base descriptor and every relative path whose
normalized entries have no `..` and descend through the trie along `d` to a node `N` of
which the next entry `e` is no child (so `N` is the deepest node of the trie on the
path): if `N` has a bound host path, `OpenFile` hands to `fopen` the pathname that the
loop builds by joining the entries of the path below `N` to the host path of `N` one
after the other; that pathname is the host path of `N` with the remainder of the path,
written with single separators, appended to it, and so it starts with the host path of
`N`. If `N` has no bound host path (as an intermediate node that a more deeply nested
mapping created), `OpenFile` returns 44 (NoSuchEntry) without reaching `fopen`, also when
a node above `N` is bound. -/
theorem C16_fallback (fs : WASIFileSystem) (fd : Nat) (parent : OpenedFile)
    (path_str : String) (d : List String) (e : String) (rest : List String) (N : FSNode)
    (hfd : unordered_map.find fs.opened_files_ fd = some parent)
    (hrel : path.is_absolute path_str = false)
    (hel : path.elements (path.lexically_normal path_str) = d ++ e :: rest)
    (hdd : ".." ∉ path.elements (path.lexically_normal path_str))
    (hN : descend parent.node d = some N)
    (hchild : unordered_map.find N.entries e = none) :
    (N.host_path ≠ "" →
      fopenArg fs fd path_str = some ((e :: rest).foldl path.append N.host_path) ∧
      (e :: rest).foldl path.append N.host_path
        = (if path.has_filename N.host_path
            then N.host_path ++ "/" ++ path.joinElements (e :: rest)
            else N.host_path ++ path.joinElements (e :: rest)) ∧
      ∃ tail, (e :: rest).foldl path.append N.host_path = N.host_path ++ tail) ∧
    (N.host_path = "" →
      fopenArg fs fd path_str = none ∧
      ∀ fopen : String → Except Int Nat, (OpenFile fopen fs fd path_str).status = 44) := by
  have hne : path.elements (path.lexically_normal path_str) ≠ [] := by
    rw [hel]
    simp
  have hd : ".." ∉ d := fun hc => hdd (by rw [hel]; exact List.mem_append_left _ hc)
  have he : e ≠ ".." := fun hc => hdd (by rw [hel, hc]; simp)
  have hres := resolve_of_elements fs fd path_str parent hfd hne
  rw [hel, walk_descend_unmatched parent.node N "" d e rest hd he hN hchild] at hres
  have hjoin : path.Joinable (e :: rest) := by
    have h := path.joinable_elements_normal path_str hrel
    rw [hel] at h
    exact path.joinable_of_append d (e :: rest) (by simp) h
  have hfold := path.foldl_append_joinElements (e :: rest) (by simp) hjoin N.host_path
  have habs := path.is_absolute_joinElements (e :: rest) hjoin
  constructor
  · intro hb
    rw [path.empty_eq_false hb] at hres
    simp only [Bool.false_eq_true, if_false] at hres
    refine ⟨by simp [fopenArg, hres], ?_, ?_⟩
    · rw [hfold, path.append_of_relative _ _ habs]
    · rw [hfold]
      exact path.append_relative_tail _ _ habs
  · intro hb
    have hemp : path.empty N.host_path = true := by simp [path.empty, hb]
    rw [hemp] at hres
    simp only [if_true] at hres
    constructor
    · simp [fopenArg, hres]
    · intro fopen
      simp [OpenFile, hres]

/-- C16 (amended) at concrete inputs: with `A` mapped to `/animals` and `X` to
`/animals/mammals/apes.txt`, the relative path `animals/birds/x.txt` leaves the trie at
the bound node `animals` and is handed to `fopen` as `A/birds/x.txt`, the host path `A`
followed by the remainder `birds/x.txt`. -/
theorem C16_fallback_witness :
    (unordered_map.find
        (WASIFileSystem.new ⟨[⟨"A", "/animals"⟩,
          ⟨"X", "/animals/mammals/apes.txt"⟩]⟩).opened_files_ 3
        = some ⟨"/", buildRoot ⟨[⟨"A", "/animals"⟩, ⟨"X", "/animals/mammals/apes.txt"⟩]⟩, none⟩ ∧
      path.is_absolute "animals/birds/x.txt" = false ∧
      path.elements (path.lexically_normal "animals/birds/x.txt")
        = ["animals"] ++ "birds" :: ["x.txt"] ∧
      ".." ∉ path.elements (path.lexically_normal "animals/birds/x.txt") ∧
      descend (buildRoot ⟨[⟨"A", "/animals"⟩, ⟨"X", "/animals/mammals/apes.txt"⟩]⟩) ["animals"]
        = some (.mk "A" [("mammals", .mk "" [("apes.txt", .mk "X" [])])]) ∧
      unordered_map.find
        (FSNode.mk "A" [("mammals", .mk "" [("apes.txt", .mk "X" [])])]).entries "birds"
        = none ∧
      (FSNode.mk "A" [("mammals", .mk "" [("apes.txt", .mk "X" [])])]).host_path ≠ "") ∧
    fopenArg (WASIFileSystem.new ⟨[⟨"A", "/animals"⟩, ⟨"X", "/animals/mammals/apes.txt"⟩]⟩) 3
        "animals/birds/x.txt" = some "A/birds/x.txt" ∧
    "A/birds/x.txt" = "A" ++ "/" ++ path.joinElements ["birds", "x.txt"] :=
  ⟨⟨rfl, by decide, by decide, by decide, rfl, rfl, by decide⟩,
    ((C16_fallback
      (WASIFileSystem.new ⟨[⟨"A", "/animals"⟩, ⟨"X", "/animals/mammals/apes.txt"⟩]⟩) 3
      ⟨"/", buildRoot ⟨[⟨"A", "/animals"⟩, ⟨"X", "/animals/mammals/apes.txt"⟩]⟩, none⟩
      "animals/birds/x.txt" ["animals"] "birds" ["x.txt"]
      (.mk "A" [("mammals", .mk "" [("apes.txt", .mk "X" [])])])
      rfl (by decide) (by decide) (by decide) rfl rfl).1 (by decide)).1.trans (by decide),
    by decide⟩

/-! ## Virtual directories -/

/-- C17: for every state, every open base descriptor and every path whose normalized
entries (at least one, none of them `..`) are all matched by the descent through the
trie and end on a node without a bound host path: `OpenFile` reaches `fopen` with the
empty pathname, and on a host whose `fopen` fails for the empty pathname with `ENOENT`,
as POSIX specifies, it returns 44 (NoSuchEntry), stores no descriptor and leaves the file
system unchanged. -/
theorem C17_virtual_directory (fopen : String → Except Int Nat) (fs : WASIFileSystem)
    (fd : Nat) (parent : OpenedFile) (path_str : String) (node : FSNode)
    (hfd : unordered_map.find fs.opened_files_ fd = some parent)
    (hne : path.elements (path.lexically_normal path_str) ≠ [])
    (hdd : ".." ∉ path.elements (path.lexically_normal path_str))
    (hdesc : descend parent.node (path.elements (path.lexically_normal path_str)) = some node)
    (hunbound : node.host_path = "")
    (hhost : fopen "" = .error ENOENT) :
    fopenArg fs fd path_str = some "" ∧
    (OpenFile fopen fs fd path_str).status = 44 ∧
    (OpenFile fopen fs fd path_str).fdOut = none ∧
    (OpenFile fopen fs fd path_str).fs = fs := by
  have hres := resolve_of_elements fs fd path_str parent hfd hne
  rw [walk_of_descend parent.node node "" _ hne hdd hdesc, hunbound] at hres
  simp only at hres
  refine ⟨by simp [fopenArg, hres], ?_, ?_, ?_⟩
  · simp [OpenFile, hres, hhost, errnoToWASI_ENOENT]
  · simp [OpenFile, hres, hhost]
  · simp [OpenFile, hres, hhost]

/-- C17 at the input of the claim: `OpenFile(3, "animals")` on the host of the tests when
only `/animals/mammals/apes.txt` is mapped. -/
theorem C17_virtual_directory_witness :
    (unordered_map.find
        (WASIFileSystem.new ⟨[⟨"h", "/animals/mammals/apes.txt"⟩]⟩).opened_files_ 3
        = some ⟨"/", buildRoot ⟨[⟨"h", "/animals/mammals/apes.txt"⟩]⟩, none⟩ ∧
      path.elements (path.lexically_normal "animals") ≠ [] ∧
      ".." ∉ path.elements (path.lexically_normal "animals") ∧
      descend (buildRoot ⟨[⟨"h", "/animals/mammals/apes.txt"⟩]⟩)
          (path.elements (path.lexically_normal "animals"))
        = some (.mk "" [("mammals", .mk "" [("apes.txt", .mk "h" [])])]) ∧
      (FSNode.mk "" [("mammals", .mk "" [("apes.txt", .mk "h" [])])]).host_path = "" ∧
      testHost "" = .error ENOENT) ∧
    (fopenArg (WASIFileSystem.new ⟨[⟨"h", "/animals/mammals/apes.txt"⟩]⟩) 3 "animals"
        = some "" ∧
    (OpenFile testHost (WASIFileSystem.new ⟨[⟨"h", "/animals/mammals/apes.txt"⟩]⟩) 3
        "animals").status = 44 ∧
    (OpenFile testHost (WASIFileSystem.new ⟨[⟨"h", "/animals/mammals/apes.txt"⟩]⟩) 3
        "animals").fdOut = none ∧
    (OpenFile testHost (WASIFileSystem.new ⟨[⟨"h", "/animals/mammals/apes.txt"⟩]⟩) 3
        "animals").fs = WASIFileSystem.new ⟨[⟨"h", "/animals/mammals/apes.txt"⟩]⟩) :=
  ⟨⟨rfl, by decide, by decide, rfl, rfl, rfl⟩,
    C17_virtual_directory testHost
      (WASIFileSystem.new ⟨[⟨"h", "/animals/mammals/apes.txt"⟩]⟩) 3
      ⟨"/", buildRoot ⟨[⟨"h", "/animals/mammals/apes.txt"⟩]⟩, none⟩ "animals"
      (.mk "" [("mammals", .mk "" [("apes.txt", .mk "h" [])])])
      rfl (by decide) (by decide) rfl rfl rfl⟩

/-! ## Opens relative to an opened file -/

namespace path

theorem renderItems_last_sep (its : List Item) (last : Item)
    (hl : its.getLast? = some last) (hs : last.sep = true) :
    (renderItems its).data.getLast? = some '/' := by
  induction its with
  | nil => simp at hl
  | cons i rest ih =>
    rw [renderItems_data_cons]
    cases rest with
    | nil =>
      simp only [List.getLast?_singleton, Option.some.injEq] at hl
      subst hl
      have he : (renderItems []).data = [] := rfl
      simp [hs, he]
    | cons j rest2 =>
      rw [List.getLast?_cons_cons] at hl
      have ih := ih hl
      have hne : (renderItems (j :: rest2)).data ≠ [] := by
        intro hc
        rw [hc] at ih
        simp at ih
      rw [← List.append_assoc, List.getLast?_append_of_ne_nil _ hne]
      exact ih

theorem last_sep_of_has_filename (its : List Item) (h : has_filename (renderItems its) = true) :
    ∃ last, its.getLast? = some last ∧ last.sep = false := by
  cases hl : its.getLast? with
  | none =>
    rw [List.getLast?_eq_none_iff] at hl
    subst hl
    exact absurd h (by decide)
  | some last =>
    refine ⟨last, rfl, ?_⟩
    cases hs : last.sep with
    | false => rfl
    | true =>
      have := renderItems_last_sep its last hl hs
      simp [has_filename, this] at h

theorem renderItems_all_sep (its : List Item) (h : WellFormed its) (last : Item)
    (hl : its.getLast? = some last) (hs : last.sep = false) :
    renderItems (its.map fun i => ⟨i.name, true⟩) = renderItems its ++ "/" := by
  induction its with
  | nil => simp at hl
  | cons i rest ih =>
    have hrest : WellFormed rest :=
      ⟨fun x hx => h.1 x (by simp [hx]), (List.pairwise_cons.mp h.2).2⟩
    cases rest with
    | nil =>
      simp only [List.getLast?_singleton, Option.some.injEq] at hl
      subst hl
      simp [renderItems, hs]
    | cons j rest2 =>
      rw [List.getLast?_cons_cons] at hl
      have hsep : i.sep = true := (List.pairwise_cons.mp h.2).1 j (by simp)
      have ih := ih hrest hl
      simp only [List.map_cons] at ih ⊢
      rw [renderItems, ih]
      simp [renderItems, hsep, String.append_assoc]

/-- The elements of `p / q` for normalized relative pathnames without dot and dot-dot,
`p` without a trailing separator: those of `p` followed by those of `q`. -/
theorem elements_append_plain (p q : String)
    (hp : lexically_normal p = p ∧ p ≠ "" ∧ is_absolute p = false ∧ ".." ∉ elements p ∧
      p ≠ ".")
    (hfile : has_filename p = true)
    (hq : lexically_normal q = q ∧ q ≠ "" ∧ is_absolute q = false ∧ ".." ∉ elements q ∧
      q ≠ ".") :
    lexically_normal (append p q) = append p q ∧ append p q ≠ "" ∧
      elements (append p q) = elements p ++ elements q := by
  obtain ⟨ip, hip, hipne, rfl⟩ := exists_plain_of_normal p hp.1 hp.2.1 hp.2.2.1 hp.2.2.2.1
    hp.2.2.2.2
  obtain ⟨iq, hiq, hiqne, rfl⟩ := exists_plain_of_normal q hq.1 hq.2.1 hq.2.2.1 hq.2.2.2.1
    hq.2.2.2.2
  obtain ⟨last, hl, hs⟩ := last_sep_of_has_filename ip hfile
  have happ : append (renderItems ip) (renderItems iq)
      = renderItems (ip.map fun i => ⟨i.name, true⟩) ++ renderItems iq := by
    rw [append_of_relative _ _ hq.2.2.1, hfile, if_pos rfl, renderItems_all_sep ip hip.1 last hl hs]
  have hpre : Plain (ip.map fun i => (⟨i.name, true⟩ : Item)) := by
    refine ⟨⟨?_, ?_⟩, ?_⟩
    · intro i hi
      obtain ⟨j, hj, rfl⟩ := List.mem_map.mp hi
      exact hip.1.1 j hj
    · rw [List.pairwise_map]
      exact List.pairwise_of_forall (fun _ _ => rfl)
    · intro i hi
      obtain ⟨j, hj, rfl⟩ := List.mem_map.mp hi
      exact hip.2 j hj
  obtain ⟨h1, h2, h3⟩ := prefixed_normal (ip.map fun i => ⟨i.name, true⟩) iq hpre
    (by
      intro i hi
      obtain ⟨j, -, rfl⟩ := List.mem_map.mp hi
      rfl)
    hiq hiqne
  rw [← happ] at h1 h2 h3
  refine ⟨h1, h2, ?_⟩
  rw [h3, elements_renderItems ip hip.1]
  simp [hl, hs]

end path

theorem walk_append_of_descend (n N : FSNode) (host_path : String) (d rest : List String)
    (e : String) (hdd : ".." ∉ d) (hd : descend n d = some N) :
    walk n host_path (d ++ e :: rest) = walk N "" (e :: rest) := by
  induction d generalizing n host_path with
  | nil =>
    simp only [descend, Option.some.injEq] at hd
    subst hd
    simp [walk]
  | cons x d ih =>
    have hx : x ≠ ".." := fun hc => hdd (by simp [hc])
    have hd2 : ".." ∉ d := fun hc => hdd (by simp [hc])
    cases hf : unordered_map.find n.entries x with
    | none => simp [descend, hf] at hd
    | some child =>
      rw [List.cons_append, walk_matched n child host_path x _ hx hf]
      simp only [descend, hf] at hd
      exact ih child child.host_path hd2 hd

/-- Relative opens compose when the first path is resolved by trie descent alone: for
normalized relative paths `p` and `q` without dot and dot-dot, `p` without a trailing
separator and with all its entries matched from the node of the base descriptor, a
successful `OpenFile(b, p)` that returns a descriptor not open before gives a descriptor
from which `q` is resolved to the same host path as `p / q` from `b`. -/
theorem fopenArg_compose_of_descent (fopen : String → Except Int Nat) (fs : WASIFileSystem)
    (b : Nat) (parent : OpenedFile) (p q : String) (N : FSNode) (fd : Nat)
    (hb : unordered_map.find fs.opened_files_ b = some parent)
    (hp : path.lexically_normal p = p ∧ p ≠ "" ∧ path.is_absolute p = false ∧
      ".." ∉ path.elements p ∧ p ≠ ".")
    (hfile : path.has_filename p = true)
    (hq : path.lexically_normal q = q ∧ q ≠ "" ∧ path.is_absolute q = false ∧
      ".." ∉ path.elements q ∧ q ≠ ".")
    (hdesc : descend parent.node (path.elements p) = some N)
    (hfd : (OpenFile fopen fs b p).fdOut = some fd)
    (hfresh : unordered_map.find fs.opened_files_ fd = none) :
    fopenArg (OpenFile fopen fs b p).fs fd q = fopenArg fs b (path.append p q) := by
  obtain ⟨iq, hiq, hiqne, hqr⟩ := path.exists_plain_of_normal q hq.1 hq.2.1 hq.2.2.1
    hq.2.2.2.1 hq.2.2.2.2
  obtain ⟨e, rest, helq⟩ : ∃ e rest, path.elements q = e :: rest := by
    cases iq with
    | nil => exact absurd rfl hiqne
    | cons i r =>
      obtain ⟨tail, ht⟩ := path.elements_renderItems_cons i r hiq.1
      exact ⟨i.name, tail, by rw [hqr, ht]⟩
  have hpel : path.elements p ≠ [] := by
    intro hc
    have hn : path.elements (path.lexically_normal p) = [] := by rw [hp.1, hc]
    obtain ⟨ip, hip, hipne, hpr⟩ := path.exists_plain_of_normal p hp.1 hp.2.1 hp.2.2.1
      hp.2.2.2.1 hp.2.2.2.2
    cases ip with
    | nil => exact hipne rfl
    | cons i r =>
      obtain ⟨tail, ht⟩ := path.elements_renderItems_cons i r hip.1
      rw [hpr, ht] at hc
      cases hc
  have hresp : resolve fs b p = .ok ⟨parent, p, N, N.host_path⟩ := by
    rw [resolve_of_normal fs b p parent hb hp.1 hp.2.1,
      walk_of_descend parent.node N "" _ hpel hp.2.2.2.1 hdesc]
  obtain ⟨-, hok, herr⟩ := OpenFile_of_resolve fopen fs b p _ hresp
  cases hf : fopen N.host_path with
  | error errno =>
    rw [herr errno hf] at hfd
    cases hfd
  | ok file =>
    rw [hok file hf] at hfd ⊢
    simp only [Option.some.injEq] at hfd
    subst hfd
    have hentry : unordered_map.find
        (unordered_map.emplace fs.opened_files_ ((fs.last_fd_ + 1) % 2 ^ 32)
          ⟨path.append parent.vm_path p, N, some file⟩) ((fs.last_fd_ + 1) % 2 ^ 32)
        = some ⟨path.append parent.vm_path p, N, some file⟩ := by
      rw [unordered_map.find_emplace, hfresh]
      simp
    obtain ⟨hn, hne, hel⟩ := path.elements_append_plain p q hp hfile hq
    have h1 := resolve_of_normal
      { root_ := fs.root_
        opened_files_ :=
          unordered_map.emplace fs.opened_files_ ((fs.last_fd_ + 1) % 2 ^ 32)
            ⟨path.append parent.vm_path p, N, some file⟩
        last_fd_ := (fs.last_fd_ + 1) % 2 ^ 32 }
      ((fs.last_fd_ + 1) % 2 ^ 32) q _ hentry hq.1 hq.2.1
    have h2 := resolve_of_normal fs b (path.append p q) parent hb hn hne
    rw [hel, helq, walk_append_of_descend parent.node N "" _ rest e hp.2.2.2.1 hdesc] at h2
    rw [helq] at h1
    simp only at h1
    unfold fopenArg
    rw [h1, h2]
    cases walk N "" (e :: rest) with
    | error status => rfl
    | ok r => rfl

/-- The composition of relative opens at concrete inputs: with the configuration of the
test `OverlappingDirs`, `OpenFile(3, "animals")` is resolved by trie descent and returns
descriptor 4, from which `mammals/apes.txt` is resolved as `animals/mammals/apes.txt` is
from descriptor 3. -/
theorem fopenArg_compose_of_descent_example :
    fopenArg (OpenFile (hostAny 1) (WASIFileSystem.new overlappingDirs) 3 "animals").fs 4
        "mammals/apes.txt"
      = fopenArg (WASIFileSystem.new overlappingDirs) 3
          (path.append "animals" "mammals/apes.txt") ∧
    fopenArg (WASIFileSystem.new overlappingDirs) 3 (path.append "animals" "mammals/apes.txt")
      = some "test/test_data/fs/animals/mammals/apes.txt" :=
  ⟨fopenArg_compose_of_descent (hostAny 1) (WASIFileSystem.new overlappingDirs) 3
      ⟨"/", buildRoot overlappingDirs, none⟩ "animals" "mammals/apes.txt"
      (.mk "test/test_data/fs/animals" [("mammals", .mk "test/test_data/fs/animals/mammals" [])])
      4 rfl (by decide) (by decide) (by decide) rfl (by decide) rfl,
    by decide⟩

/-- C19, failing input: with `D` mapped to `/animals` and a host on which every `fopen`
succeeds, `OpenFile(3, "animals/mammals")` is resolved by the pass-through rule (to
`D/mammals`) and returns descriptor 4, recorded with guest path `/animals/mammals` but
with the node of `animals`. `OpenFile(4, "apes.txt")` then hands `D/apes.txt` to `fopen`
(and records the guest path `/animals/mammals/apes.txt`), whereas
`OpenFile(3, "animals/mammals/apes.txt")` hands `D/mammals/apes.txt`. -/
theorem C19_pass_through_base :
    (path.lexically_normal "animals/mammals" = "animals/mammals" ∧
      path.lexically_normal "apes.txt" = "apes.txt" ∧
      ".." ∉ path.elements "animals/mammals" ∧ ".." ∉ path.elements "apes.txt" ∧
      path.append "animals/mammals" "apes.txt" = "animals/mammals/apes.txt") ∧
    ((OpenFile (hostAny 1) (WASIFileSystem.new ⟨[⟨"D", "/animals"⟩]⟩) 3 "animals/mammals").status
        = 0 ∧
      fopenArg (WASIFileSystem.new ⟨[⟨"D", "/animals"⟩]⟩) 3 "animals/mammals"
        = some "D/mammals" ∧
      (OpenFile (hostAny 1) (WASIFileSystem.new ⟨[⟨"D", "/animals"⟩]⟩) 3 "animals/mammals").fdOut
        = some 4 ∧
      ((GetOpenedFile
          (OpenFile (hostAny 1) (WASIFileSystem.new ⟨[⟨"D", "/animals"⟩]⟩) 3
            "animals/mammals").fs 4).2.map fun o => (o.vm_path, o.node.host_path))
        = some ("/animals/mammals", "D")) ∧
    (fopenArg
        (OpenFile (hostAny 1) (WASIFileSystem.new ⟨[⟨"D", "/animals"⟩]⟩) 3 "animals/mammals").fs
        4 "apes.txt" = some "D/apes.txt" ∧
      ((GetOpenedFile
          (OpenFile (hostAny 1)
            (OpenFile (hostAny 1) (WASIFileSystem.new ⟨[⟨"D", "/animals"⟩]⟩) 3
              "animals/mammals").fs 4 "apes.txt").fs 5).2.map fun o => o.vm_path)
        = some "/animals/mammals/apes.txt" ∧
      fopenArg (WASIFileSystem.new ⟨[⟨"D", "/animals"⟩]⟩) 3
        (path.append "animals/mammals" "apes.txt") = some "D/mammals/apes.txt") := by
  decide

/-! ## The order of the mappings -/

theorem FSNode.SameTrie.host_path {a b : FSNode} (h : a.SameTrie b) :
    a.host_path = b.host_path := by
  have := (h []).2
  simpa [boundAt, descend] using this

theorem FSNode.SameTrie.find {a b : FSNode} (h : a.SameTrie b) (e : String) :
    (unordered_map.find a.entries e = none ∧ unordered_map.find b.entries e = none) ∨
    ∃ ca cb, unordered_map.find a.entries e = some ca ∧
      unordered_map.find b.entries e = some cb ∧ ca.SameTrie cb := by
  have h1 := (h [e]).1
  cases ha : unordered_map.find a.entries e with
  | none =>
    cases hb : unordered_map.find b.entries e with
    | none => exact Or.inl ⟨rfl, rfl⟩
    | some cb => simp [descend, ha, hb] at h1
  | some ca =>
    cases hb : unordered_map.find b.entries e with
    | none => simp [descend, ha, hb] at h1
    | some cb =>
      refine Or.inr ⟨ca, cb, rfl, rfl, fun s => ?_⟩
      have := h (e :: s)
      simpa [boundAt, descend, ha, hb] using this

/-- On tries with the same nodes and bound host paths the loop of `OpenFile` ends with
the same status or the same host path. -/
theorem walk_sameTrie (a b : FSNode) (h : a.SameTrie b) (host_path : String)
    (segs : List String) :
    (∃ status, walk a host_path segs = .error status ∧ walk b host_path segs = .error status) ∨
    ∃ na nb hp, walk a host_path segs = .ok (na, hp) ∧ walk b host_path segs = .ok (nb, hp) ∧
      na.SameTrie nb := by
  induction segs generalizing a b host_path with
  | nil => exact Or.inr ⟨a, b, host_path, rfl, rfl, h⟩
  | cons e rest ih =>
    by_cases he : e = ".."
    · left
      exact ⟨errnoToWASI EINVAL, by simp [walk, he], by simp [walk, he]⟩
    · rcases h.find e with ⟨ha, hb⟩ | ⟨ca, cb, ha, hb, hc⟩
      · rw [walk_unmatched a host_path e rest he ha, walk_unmatched b host_path e rest he hb,
          ← h.host_path]
        cases hemp : path.empty a.host_path with
        | true => exact Or.inl ⟨44, by simp, by simp⟩
        | false =>
          exact Or.inr ⟨a, b, (e :: rest).foldl path.append a.host_path, by simp, by simp, h⟩
      · rw [walk_matched a ca host_path e rest he ha, walk_matched b cb host_path e rest he hb,
          ← hc.host_path]
        exact ih ca cb hc ca.host_path

theorem buildRoot_sameTrie (L1 L2 : List HostFile) (hperm : L1.Perm L2)
    (hdist : L1.Pairwise fun a b => vmSegments a ≠ vmSegments b) :
    (buildRoot ⟨L1⟩).SameTrie (buildRoot ⟨L2⟩) := by
  have hdist2 : L2.Pairwise fun a b => vmSegments a ≠ vmSegments b :=
    (hperm.pairwise_iff (fun {x y} hxy => Ne.symm hxy)).mp hdist
  intro s
  constructor
  · rw [Bool.eq_iff_iff]
    unfold buildRoot
    rw [descend_foldl_isSome, descend_foldl_isSome]
    constructor
    · rintro (h | ⟨e, he, u, hu⟩)
      · exact Or.inl h
      · exact Or.inr ⟨e, hperm.mem_iff.mp he, u, hu⟩
    · rintro (h | ⟨e, he, u, hu⟩)
      · exact Or.inl h
      · exact Or.inr ⟨e, hperm.mem_iff.mpr he, u, hu⟩
  · unfold buildRoot
    by_cases hex : ∃ e ∈ L1, vmSegments e = s
    · obtain ⟨e, he, hes⟩ := hex
      rw [← hes, boundAt_foldl_of_mem L1 _ e hdist he,
        boundAt_foldl_of_mem L2 _ e hdist2 (hperm.mem_iff.mp he)]
    · have h1 : ∀ e ∈ L1, vmSegments e ≠ s := fun e he hc => hex ⟨e, he, hc⟩
      have h2 : ∀ e ∈ L2, vmSegments e ≠ s :=
        fun e he hc => hex ⟨e, hperm.mem_iff.mpr he, hc⟩
      rw [boundAt_foldl_of_ne L1 _ s h1, boundAt_foldl_of_ne L2 _ s h2]

/-- C20: for every mapping list whose entries have pairwise distinct guest segment
sequences and every permutation of it, the constructor builds the same trie (the same
nodes with the same bound host paths), and every `OpenFile` on the two freshly
constructed file systems gives the same result: the same pathname is handed to `fopen`,
and the same status and descriptor are returned. -/
theorem C20_order_independent (L1 L2 : List HostFile) (hperm : L1.Perm L2)
    (hdist : L1.Pairwise fun a b => vmSegments a ≠ vmSegments b) :
    (buildRoot ⟨L1⟩).SameTrie (buildRoot ⟨L2⟩) ∧
    ∀ (fd : Nat) (path_str : String),
      fopenArg (WASIFileSystem.new ⟨L1⟩) fd path_str
        = fopenArg (WASIFileSystem.new ⟨L2⟩) fd path_str ∧
      ∀ fopen : String → Except Int Nat,
        (OpenFile fopen (WASIFileSystem.new ⟨L1⟩) fd path_str).status
          = (OpenFile fopen (WASIFileSystem.new ⟨L2⟩) fd path_str).status ∧
        (OpenFile fopen (WASIFileSystem.new ⟨L1⟩) fd path_str).fdOut
          = (OpenFile fopen (WASIFileSystem.new ⟨L2⟩) fd path_str).fdOut := by
  have hsame := buildRoot_sameTrie L1 L2 hperm hdist
  refine ⟨hsame, fun fd path_str => ?_⟩
  have hop1 : (WASIFileSystem.new ⟨L1⟩).opened_files_ = [(3, ⟨"/", buildRoot ⟨L1⟩, none⟩)] :=
    rfl
  have hop2 : (WASIFileSystem.new ⟨L2⟩).opened_files_ = [(3, ⟨"/", buildRoot ⟨L2⟩, none⟩)] :=
    rfl
  have hl1 : (WASIFileSystem.new ⟨L1⟩).last_fd_ = 3 := rfl
  have hl2 : (WASIFileSystem.new ⟨L2⟩).last_fd_ = 3 := rfl
  by_cases hfd : 3 = fd
  · subst hfd
    by_cases hemp : path.empty (path.lexically_normal path_str) = true
    · have hr1 : resolve (WASIFileSystem.new ⟨L1⟩) 3 path_str = .error (errnoToWASI EINVAL) := by
        simp [resolve, hop1, unordered_map.find, hemp]
      have hr2 : resolve (WASIFileSystem.new ⟨L2⟩) 3 path_str = .error (errnoToWASI EINVAL) := by
        simp [resolve, hop2, unordered_map.find, hemp]
      simp [fopenArg, OpenFile, hr1, hr2]
    · rcases walk_sameTrie _ _ hsame ""
          (path.elements (path.lexically_normal path_str)) with
        ⟨status, hw1, hw2⟩ | ⟨na, nb, hp, hw1, hw2, -⟩
      · have hr1 : resolve (WASIFileSystem.new ⟨L1⟩) 3 path_str = .error status := by
          simp [resolve, hop1, unordered_map.find, hemp, hw1]
        have hr2 : resolve (WASIFileSystem.new ⟨L2⟩) 3 path_str = .error status := by
          simp [resolve, hop2, unordered_map.find, hemp, hw2]
        simp [fopenArg, OpenFile, hr1, hr2]
      · have hr1 : resolve (WASIFileSystem.new ⟨L1⟩) 3 path_str
            = .ok ⟨⟨"/", buildRoot ⟨L1⟩, none⟩, path.lexically_normal path_str, na, hp⟩ := by
          simp [resolve, hop1, unordered_map.find, hemp, hw1]
        have hr2 : resolve (WASIFileSystem.new ⟨L2⟩) 3 path_str
            = .ok ⟨⟨"/", buildRoot ⟨L2⟩, none⟩, path.lexically_normal path_str, nb, hp⟩ := by
          simp [resolve, hop2, unordered_map.find, hemp, hw2]
        refine ⟨by simp [fopenArg, hr1, hr2], fun fopen => ?_⟩
        cases hf : fopen hp with
        | error errno => simp [OpenFile, hr1, hr2, hf]
        | ok file => simp [OpenFile, hr1, hr2, hf, hl1, hl2]
  · have hr1 : resolve (WASIFileSystem.new ⟨L1⟩) fd path_str = .error (errnoToWASI EBADF) := by
      simp [resolve, hop1, unordered_map.find, hfd]
    have hr2 : resolve (WASIFileSystem.new ⟨L2⟩) fd path_str = .error (errnoToWASI EBADF) := by
      simp [resolve, hop2, unordered_map.find, hfd]
    simp [fopenArg, OpenFile, hr1, hr2]


/-- C20 at a concrete input: the broad mapping of `/animals` and the more specific one of
`/animals/mammals`, declared in the two possible orders. -/
theorem C20_order_independent_witness :
    (List.Perm [(⟨"A", "/animals"⟩ : HostFile), ⟨"M", "/animals/mammals"⟩]
        [⟨"M", "/animals/mammals"⟩, ⟨"A", "/animals"⟩] ∧
      [(⟨"A", "/animals"⟩ : HostFile), ⟨"M", "/animals/mammals"⟩].Pairwise
        fun a b => vmSegments a ≠ vmSegments b) ∧
    ((buildRoot ⟨[⟨"A", "/animals"⟩, ⟨"M", "/animals/mammals"⟩]⟩).SameTrie
        (buildRoot ⟨[⟨"M", "/animals/mammals"⟩, ⟨"A", "/animals"⟩]⟩) ∧
    ∀ (fd : Nat) (path_str : String),
      fopenArg (WASIFileSystem.new ⟨[⟨"A", "/animals"⟩, ⟨"M", "/animals/mammals"⟩]⟩) fd path_str
        = fopenArg (WASIFileSystem.new ⟨[⟨"M", "/animals/mammals"⟩, ⟨"A", "/animals"⟩]⟩) fd
            path_str ∧
      ∀ fopen : String → Except Int Nat,
        (OpenFile fopen (WASIFileSystem.new ⟨[⟨"A", "/animals"⟩, ⟨"M", "/animals/mammals"⟩]⟩) fd
            path_str).status
          = (OpenFile fopen
              (WASIFileSystem.new ⟨[⟨"M", "/animals/mammals"⟩, ⟨"A", "/animals"⟩]⟩) fd
              path_str).status ∧
        (OpenFile fopen (WASIFileSystem.new ⟨[⟨"A", "/animals"⟩, ⟨"M", "/animals/mammals"⟩]⟩) fd
            path_str).fdOut
          = (OpenFile fopen
              (WASIFileSystem.new ⟨[⟨"M", "/animals/mammals"⟩, ⟨"A", "/animals"⟩]⟩) fd
              path_str).fdOut) :=
  ⟨⟨List.Perm.swap _ _ _, by decide⟩,
    C20_order_independent [⟨"A", "/animals"⟩, ⟨"M", "/animals/mammals"⟩]
      [⟨"M", "/animals/mammals"⟩, ⟨"A", "/animals"⟩] (List.Perm.swap _ _ _) (by decide)⟩

end proxy_wasm
